import Mathlib

/-!
Verification development for the storage-evolution and sliding-sync layer of a
federated messaging server (source files `events_bg_updates.py` and
`sliding_sync.py`).

The Python source is shallowly embedded: tables become association lists,
transactions become pure functions from a database value to a database value
(plus results), and the generic SQL helpers (`simple_upsert_many_txn`,
`simple_delete_txn`, ...) are modelled by the corresponding list operations.
Identifiers (event ids, room ids, user/device/connection ids) are modelled as
natural numbers; textual payloads that the code treats opaquely (serialized
required-state JSON, stripped-state payloads) are modelled as lists of
naturals standing for the canonical serialized content.

All definitions are executable, so concrete runs can be settled by `decide`.
-/

namespace Synapse

/-! ## Generic association-list table helpers

These model the generic keyed insert/update/upsert helpers of the database
pool (`simple_upsert_many_txn` performs, per key, an update when a row with
that key exists and an insert otherwise). -/

/-- Look up the value of the first row with the given key. -/
def rowLookup {κ ν : Type} [DecidableEq κ] (rows : List (κ × ν)) (k : κ) : Option ν :=
  (rows.find? (fun r => decide (r.1 = k))).map (fun r => r.2)

/-- Upsert a single row: update in place when the key exists, append otherwise.
This is the per-row behaviour of `simple_upsert_many_txn`. -/
def upsertRow {κ ν : Type} [DecidableEq κ] (rows : List (κ × ν)) (k : κ) (v : ν) :
    List (κ × ν) :=
  if rows.any (fun r => decide (r.1 = k)) then
    rows.map (fun r => if r.1 = k then (k, v) else r)
  else
    rows ++ [(k, v)]

/-- Sequential upsert of many rows, in list order, as `simple_upsert_many_txn`
does for its zipped key/value lists. -/
def upsertRows {κ ν : Type} [DecidableEq κ] (rows : List (κ × ν)) (kvs : List (κ × ν)) :
    List (κ × ν) :=
  kvs.foldl (fun acc kv => upsertRow acc kv.1 kv.2) rows

/-! ## Sliding-sync connection-state store (`sliding_sync.py`)

Model of `SlidingSyncStore.persist_per_connection_state_txn` and
`SlidingSyncStore._get_per_connection_state_txn` together with the tables
`sliding_sync_connections`, `sliding_sync_connection_positions`,
`sliding_sync_connection_required_state`, `sliding_sync_connection_streams`
and `sliding_sync_connection_room_configs`.  Deleting a connection row
cascades to its positions, required-state blobs and per-position rows, per
the schema's foreign keys. -/

/-- Identity of one (user, device, sync-session) triple. -/
structure ConnTriple where
  userId : Nat
  deviceId : Nat
  connId : Nat
deriving DecidableEq, Repr

/-- Status enum of a per-room stream row (never-sent / sent / live). -/
inductive SentFlag
  | neverSent
  | previously
  | live
deriving DecidableEq, Repr

/-- One per-room stream value: status plus the serialized last token (the DB
stores the token serialized to a string; we model the serialized form as an
optional natural). -/
structure HaveSentRoom where
  status : SentFlag
  lastToken : Option Nat
deriving DecidableEq, Repr

/-- Stream kind discriminator column of `sliding_sync_connection_streams`. -/
inductive StreamKind
  | rooms
  | receipts
deriving DecidableEq, Repr

/-- Caller-side per-room configuration: timeline limit plus the required-state
map (event type to the list of state keys). -/
structure RoomSyncConfigIn where
  timelineLimit : Nat
  requiredStateMap : List (Nat × List Nat)
deriving DecidableEq, Repr

/-- Comparison used to canonically sort (event type, state key) pairs, as the
source sorts them before JSON-encoding. -/
def pairLeb (a b : Nat × Nat) : Bool :=
  a.1 < b.1 || (a.1 == b.1 && a.2 ≤ b.2)

/-- Propositional form of the pair comparison (insertion sort is used for
sorting because it evaluates inside the kernel). -/
def pairLe (a b : Nat × Nat) : Prop :=
  pairLeb a b = true

instance : DecidableRel pairLe := fun a b => by
  unfold pairLe
  infer_instance

/-- Canonical serialized form of a required-state map: the sorted list of
(event type, state key) pairs.  Stands for the canonical JSON string the
source produces with `json_encoder.encode(sorted(...))`. -/
def serializeRequiredState (m : List (Nat × List Nat)) : List (Nat × Nat) :=
  List.insertionSort pairLe (m.flatMap (fun ts => ts.2.map (fun k => (ts.1, k))))

/-- Updates handed to the write path (`PerConnectionStateDB`): only the
changed rooms are present. -/
structure PerConnStateIn where
  rooms : List (Nat × HaveSentRoom)
  receipts : List (Nat × HaveSentRoom)
  roomConfigs : List (Nat × RoomSyncConfigIn)
deriving DecidableEq, Repr

/-- The connection-state store tables, plus the id generators for the three
auto-increment key columns. -/
structure SSDb where
  nextConnectionKey : Nat
  nextPosition : Nat
  nextRequiredStateId : Nat
  connections : List (Nat × ConnTriple)
  positions : List (Nat × Nat)
  requiredStateRows : List (Nat × (Nat × List (Nat × Nat)))
  streamRows : List ((Nat × StreamKind × Nat) × HaveSentRoom)
  roomConfigRows : List ((Nat × Nat) × (Nat × Nat))
deriving DecidableEq, Repr

/-- Errors surfaced by the connection-state store.  `unknownPosition` models
`SlidingSyncUnknownPosition`; `missingRequiredState` models the KeyError that
a dangling `required_state_id` reference would raise on the read path. -/
inductive SSError
  | unknownPosition
  | missingRequiredState
deriving DecidableEq, Repr

/-- Validation query shared by the write and read paths: resolve a
user-supplied connection position to its connection key, requiring the key to
belong to the same (user, device, conn) triple. -/
def lookupPositionKey (db : SSDb) (pos : Nat) (t : ConnTriple) : Option Nat :=
  match rowLookup db.positions pos with
  | none => none
  | some key =>
    match rowLookup db.connections key with
    | none => none
    | some trip => if trip = t then some key else none

/-- Required-state dedup table for one connection key: serialized content to
blob id, as loaded by the write path when a previous position exists. -/
def requiredStateToId (db : SSDb) (key : Nat) : List (List (Nat × Nat) × Nat) :=
  (db.requiredStateRows.filter (fun r => decide (r.2.1 = key))).map
    (fun r => (r.2.2, r.1))

/-- Accumulator of the dedup loop over the caller's room configs: rooms
resolved to an existing blob id, and the insertion-ordered list of unseen
serialized contents with the rooms that use them. -/
structure DedupAcc where
  roomToStateIds : List (Nat × Nat)
  uniqueRequiredState : List (List (Nat × Nat) × List Nat)
deriving DecidableEq, Repr

/-- One step of the dedup loop: look the serialized content up among the
previously stored blobs; on a miss, group the room under the unseen content
(`unique_required_state.setdefault(...).append(room_id)`). -/
def dedupStep (existing : List (List (Nat × Nat) × Nat)) (acc : DedupAcc)
    (entry : Nat × RoomSyncConfigIn) : DedupAcc :=
  match rowLookup existing (serializeRequiredState entry.2.requiredStateMap) with
  | some sid => { acc with roomToStateIds := acc.roomToStateIds ++ [(entry.1, sid)] }
  | none =>
    if acc.uniqueRequiredState.any
        (fun u => decide (u.1 = serializeRequiredState entry.2.requiredStateMap)) then
      { acc with
        uniqueRequiredState := acc.uniqueRequiredState.map
          (fun u =>
            if u.1 = serializeRequiredState entry.2.requiredStateMap then
              (u.1, u.2 ++ [entry.1])
            else u) }
    else
      { acc with uniqueRequiredState := acc.uniqueRequiredState ++
          [(serializeRequiredState entry.2.requiredStateMap, [entry.1])] }

/-- Insert the unseen required-state blobs, allocating sequential blob ids,
and extend the room-to-blob mapping accordingly. -/
def insertUniqueRequiredState (key : Nat) (start : Nat)
    (uniq : List (List (Nat × Nat) × List Nat)) :
    List (Nat × (Nat × List (Nat × Nat))) × List (Nat × Nat) × Nat :=
  match uniq with
  | [] => ([], [], start)
  | (serialized, roomIds) :: rest =>
    ((start, (key, serialized)) :: (insertUniqueRequiredState key (start + 1) rest).1,
      roomIds.map (fun r => (r, start)) ++
        (insertUniqueRequiredState key (start + 1) rest).2.1,
      (insertUniqueRequiredState key (start + 1) rest).2.2)

/-- Copy-forward of the per-room stream rows of position `p` into position
`n` (the INSERT ... SELECT of `persist_per_connection_state_txn`). -/
def copyStreamRows (rows : List ((Nat × StreamKind × Nat) × HaveSentRoom)) (p n : Nat) :
    List ((Nat × StreamKind × Nat) × HaveSentRoom) :=
  (rows.filter (fun r => decide (r.1.1 = p))).map
    (fun r => ((n, r.1.2.1, r.1.2.2), r.2))

/-- Copy-forward of the room-config rows of position `p` into position `n`. -/
def copyConfigRows (rows : List ((Nat × Nat) × (Nat × Nat))) (p n : Nat) :
    List ((Nat × Nat) × (Nat × Nat)) :=
  (rows.filter (fun r => decide (r.1.1 = p))).map
    (fun r => ((n, r.1.2), r.2))

/-- Key/value list of the stream upserts: the rooms updates first, then the
receipts updates, keyed by (position, stream kind, room). -/
def persistStreamKvs (pos : Nat) (upd : PerConnStateIn) :
    List ((Nat × StreamKind × Nat) × HaveSentRoom) :=
  upd.rooms.map (fun ru => ((pos, StreamKind.rooms, ru.1), ru.2)) ++
    upd.receipts.map (fun ru => ((pos, StreamKind.receipts, ru.1), ru.2))

/-- Room-to-blob-id assignment for the caller's room configs: dedup against
the existing blobs of the key, then allocate fresh ids for unseen content.
Returns (new blob rows, room-to-blob map, next free blob id). -/
def persistRequiredState (db : SSDb) (key : Nat) (existing : List (List (Nat × Nat) × Nat))
    (upd : PerConnStateIn) :
    List (Nat × (Nat × List (Nat × Nat))) × List (Nat × Nat) × Nat :=
  let acc := upd.roomConfigs.foldl (dedupStep existing) ⟨[], []⟩
  let ins := insertUniqueRequiredState key db.nextRequiredStateId acc.uniqueRequiredState
  (ins.1, acc.roomToStateIds ++ ins.2.1, ins.2.2)

/-- The existing required-state blobs loaded for the dedup: only when a
previous position exists. -/
def persistExistingBlobs (db : SSDb) (key : Nat) (previous : Option Nat) :
    List (List (Nat × Nat) × Nat) :=
  match previous with
  | some _ => requiredStateToId db key
  | none => []

/-- Room-config upsert key/value list, keyed by (position, room), valued by
the timeline limit and the resolved blob id. -/
def persistConfigKvs (pos : Nat) (upd : PerConnStateIn)
    (roomToStateIds : List (Nat × Nat)) : List ((Nat × Nat) × (Nat × Nat)) :=
  upd.roomConfigs.filterMap (fun rc =>
    (rowLookup roomToStateIds rc.1).map (fun sid =>
      ((pos, rc.1), (rc.2.timelineLimit, sid))))

/-- Body of the write path once the connection key is known: allocate a fresh
position, dedup required-state blobs, copy the previous position's rows
forward, then upsert the caller's updates.  The source performs these as
sequential record updates; they are flattened into one record here, which is
equivalent because every step reads only fields the earlier steps leave
untouched. -/
def persistAtKey (db : SSDb) (key : Nat) (previous : Option Nat)
    (upd : PerConnStateIn) : SSDb × Nat :=
  -- Define a new connection position for the updates.
  let pos := db.nextPosition
  -- Dedup the required_state content against previously seen blobs for the
  -- key; the existing blobs are only loaded when a previous position exists.
  let pr := persistRequiredState db key (persistExistingBlobs db key previous) upd
  ({ nextConnectionKey := db.nextConnectionKey
     nextPosition := db.nextPosition + 1
     nextRequiredStateId := pr.2.2
     connections := db.connections
     positions := db.positions ++ [(pos, key)]
     requiredStateRows := db.requiredStateRows ++ pr.1
     -- Copy over state from the previous connection position, then upsert
     -- the changes to the various streams, rooms first then receipts.
     streamRows := upsertRows
       (match previous with
        | some p => db.streamRows ++ copyStreamRows db.streamRows p pos
        | none => db.streamRows)
       (persistStreamKvs pos upd)
     -- ... and upsert the changes to the room configs.
     roomConfigRows := upsertRows
       (match previous with
        | some p => db.roomConfigRows ++ copyConfigRows db.roomConfigRows p pos
        | none => db.roomConfigRows)
       (persistConfigKvs pos upd pr.2.1) }, pos)

/-- Write path `persist_per_connection_state_txn`: validate (or recreate) the
connection key, then run the position-allocation/copy-forward/upsert body.
Returns the new position. -/
def persistPerConnectionState (db : SSDb) (t : ConnTriple) (previous : Option Nat)
    (upd : PerConnStateIn) : Except SSError (SSDb × Nat) := do
  let (db, key) ←
    match previous with
    | some p =>
      match lookupPositionKey db p t with
      | none => throw SSError.unknownPosition
      | some key => pure (db, key)
    | none =>
      -- Restarting the connection: delete any existing key for the triple
      -- (the schema cascades the delete to all dependent rows).
      let deadKeys := (db.connections.filter (fun c => decide (c.2 = t))).map (fun c => c.1)
      let deadPositions := (db.positions.filter
        (fun p => deadKeys.contains p.2)).map (fun p => p.1)
      let db :=
        { db with
          connections := db.connections.filter (fun c => !(decide (c.2 = t)))
          positions := db.positions.filter (fun p => !(deadKeys.contains p.2))
          requiredStateRows :=
            db.requiredStateRows.filter (fun r => !(deadKeys.contains r.2.1))
          streamRows := db.streamRows.filter (fun r => !(deadPositions.contains r.1.1))
          roomConfigRows :=
            db.roomConfigRows.filter (fun r => !(deadPositions.contains r.1.1)) }
      pure
        ({ db with
            nextConnectionKey := db.nextConnectionKey + 1
            connections := db.connections ++ [(db.nextConnectionKey, t)] },
          db.nextConnectionKey)
  pure (persistAtKey db key previous upd)

/-- Point-in-time view returned by the read path: per-room stream statuses and
room configs with the required-state content resolved from its blob. -/
structure PerConnStateOut where
  rooms : List (Nat × HaveSentRoom)
  receipts : List (Nat × HaveSentRoom)
  roomConfigs : List (Nat × (Nat × List (Nat × Nat)))
deriving DecidableEq, Repr

/-- Resolve the room-config rows of a position against the required-state
blob map; a dangling blob reference fails (KeyError in the source). -/
def resolveRoomConfigs (stateMap : List (Nat × List (Nat × Nat)))
    (rows : List ((Nat × Nat) × (Nat × Nat))) :
    Except SSError (List (Nat × (Nat × List (Nat × Nat)))) :=
  match rows with
  | [] => pure []
  | row :: rest => do
    match rowLookup stateMap row.2.2 with
    | none => throw SSError.missingRequiredState
    | some content =>
      let tail ← resolveRoomConfigs stateMap rest
      pure ((row.1.2, (row.2.1, content)) :: tail)

/-- Compaction performed by the read path: delete every position of the key
other than the one just validated. -/
def compactPositions (db : SSDb) (key pos : Nat) : SSDb :=
  { db with
    positions := db.positions.filter
      (fun p => !(decide (p.2 = key) && !(decide (p.1 = pos)))) }

/-- Read path `_get_per_connection_state_txn`: validate the position, delete
every other position under the same connection key (compaction), then
reconstruct the point-in-time view for the position. -/
def getPerConnectionState (db : SSDb) (t : ConnTriple) (pos : Nat) :
    Except SSError (SSDb × PerConnStateOut) :=
  match lookupPositionKey db pos t with
  | none => Except.error SSError.unknownPosition
  | some key =>
    -- Now that the client has received and used this connection position,
    -- delete all the other connection positions of the key.
    let db2 : SSDb := compactPositions db key pos
    let stateMap := (db2.requiredStateRows.filter (fun r => decide (r.2.1 = key))).map
      (fun r => (r.1, r.2.2))
    let configRows := db2.roomConfigRows.filter (fun r => decide (r.1.1 = pos))
    match resolveRoomConfigs stateMap configRows with
    | Except.error e => Except.error e
    | Except.ok roomConfigs =>
      let streamRows := db2.streamRows.filter (fun r => decide (r.1.1 = pos))
      let rooms := (streamRows.filter
        (fun r => decide (r.1.2.1 = StreamKind.rooms))).foldl
        (fun acc r => upsertRow acc r.1.2.2 r.2) []
      let receipts := (streamRows.filter
        (fun r => decide (r.1.2.1 = StreamKind.receipts))).foldl
        (fun acc r => upsertRow acc r.1.2.2 r.2) []
      Except.ok (db2, ⟨rooms, receipts, roomConfigs⟩)

/-- Lookup of one per-room stream row. -/
def SSDb.streamRow (db : SSDb) (pos : Nat) (k : StreamKind) (r : Nat) :
    Option HaveSentRoom :=
  rowLookup db.streamRows (pos, k, r)

/-- Lookup of one per-room config row. -/
def SSDb.configRow (db : SSDb) (pos : Nat) (r : Nat) : Option (Nat × Nat) :=
  rowLookup db.roomConfigRows (pos, r)

/-- The set of positions currently stored under a connection key. -/
def SSDb.positionsOfKey (db : SSDb) (key : Nat) : List Nat :=
  (db.positions.filter (fun p => decide (p.2 = key))).map (fun p => p.1)

/-- Rooms mentioned anywhere in an update set. -/
def PerConnStateIn.mentionedRooms (upd : PerConnStateIn) : List Nat :=
  upd.rooms.map (fun r => r.1) ++ upd.receipts.map (fun r => r.1) ++
    upd.roomConfigs.map (fun r => r.1)

/-- Wellformedness of the store: every stored position, key column and blob id
is below its generator, and the key columns are duplicate-free. -/
def SSDb.wf (db : SSDb) : Prop :=
  (∀ p ∈ db.positions, p.1 < db.nextPosition) ∧
  (∀ r ∈ db.streamRows, r.1.1 < db.nextPosition) ∧
  (∀ r ∈ db.roomConfigRows, r.1.1 < db.nextPosition) ∧
  (db.positions.map (fun p => p.1)).Nodup

instance (db : SSDb) : Decidable db.wf := by
  unfold SSDb.wf
  infer_instance

/-! ## Generic worklist-closure machinery

Both loops of `_cleanup_extremities_bg_update_txn` (the forward expansion of
the soft-failed frontier and the backward walk from the non-rejected leaves)
are worklist computations of a reachability closure.  We embed them with one
fuel-driven closure function: `closureAux` processes one frontier node per
unit of fuel, enqueueing the not-yet-visited successors.  The source's
100-id chunking of the forward loop only batches lookups and does not change
the computed sets, and the backward walk (whose worklist re-enqueues already
popped nodes, terminating because the event graph stored in the database is
acyclic) computes exactly the ancestor closure that this visited-set
formulation computes. -/

/-- Fuel-driven worklist closure: repeatedly pop a frontier node and enqueue
its unvisited `step`-successors. -/
def closureAux (step : Nat → List Nat) : Nat → List Nat → List Nat → List Nat
  | 0, visited, _ => visited
  | _ + 1, visited, [] => visited
  | fuel + 1, visited, x :: rest =>
    let ys := ((step x).filter (fun y => !(decide (y ∈ visited)))).dedup
    closureAux step fuel (visited ++ ys) (rest ++ ys)

/-- Closure of `start` under `step`, with enough fuel for any `step` whose
outputs stay inside the universe `u`. -/
def closureRun (step : Nat → List Nat) (u : List Nat) (start : List Nat) : List Nat :=
  closureAux step (start.length + u.dedup.length + 1) start start

/-- Nodes reachable from the `start` list by following `step` zero or more
times (the declarative counterpart of `closureRun`). -/
inductive StepReach (step : Nat → List Nat) (start : List Nat) : Nat → Prop
  | base {x : Nat} : x ∈ start → StepReach step start x
  | next {x y : Nat} : StepReach step start x → y ∈ step x → StepReach step start y

/-- Worklist invariant: every visited node is either still on the frontier or
has all of its successors visited. -/
def ClosureInv (step : Nat → List Nat) (visited frontier : List Nat) : Prop :=
  ∀ x ∈ visited, x ∈ frontier ∨ ∀ y ∈ step x, y ∈ visited

/-! ## Forward-extremity graph cleanup (`_cleanup_extremities_bg_update_txn`)

State of the relevant tables: `evts` holds one row per persisted event with
its soft-failed flag (from `event_json.internal_metadata`), its rejection
status (whether a `rejections` row exists) and its outlier flag; `edges`
holds the `event_edges` rows as (prev_event_id, event_id) pairs, i.e. an
edge from an event to one of its successors.  As in the real schema, edge
endpoints are assumed to be present in `evts` (`event_edges` rows are
written together with the event they belong to); successors missing from
`evts` are skipped by the model. -/

/-- Status flags of one persisted event. -/
structure EventFlags where
  softFailed : Bool
  rejected : Bool
  outlier : Bool
deriving DecidableEq, Repr

/-- The event tables used by the cleanup: flags per event id, and the
successor edges (prev_event_id, event_id). -/
structure EventDB where
  evts : List (Nat × EventFlags)
  edges : List (Nat × Nat)
deriving DecidableEq, Repr

/-- Flags of an event id, if the event is persisted. -/
def EventDB.find (db : EventDB) (e : Nat) : Option EventFlags :=
  rowLookup db.evts e

/-- Successors of `x` that are persisted, not outliers, and soft-failed or
rejected: the events the cleanup adds to `soft_failed_events_to_lookup` when
scanning the successors of `x`. -/
def stepFrontier (db : EventDB) (x : Nat) : List Nat :=
  ((db.edges.filter (fun pe => decide (pe.1 = x))).map (fun pe => pe.2)).filter
    (fun e =>
      match db.find e with
      | some ev => !ev.outlier && (ev.softFailed || ev.rejected)
      | none => false)

/-- All events whose successors the cleanup scans: the batch of candidate
extremities together with the fully expanded soft-failed frontier. -/
def scannedSet (db : EventDB) (cands : List Nat) : List Nat :=
  closureRun (stepFrontier db) (db.edges.map (fun pe => pe.2)) cands

/-- The edges recorded in `graph` during the round: every scanned edge whose
target is a persisted non-outlier event (outlier successors are skipped in
the first query, and the frontier expansion filters on NOT events.outlier). -/
def recordedEdges (db : EventDB) (s : List Nat) : List (Nat × Nat) :=
  db.edges.filter (fun pe =>
    decide (pe.1 ∈ s) &&
      (match db.find pe.2 with
       | some ev => !ev.outlier
       | none => false))

/-- The `non_rejected_leaves` found during the round: scanned successors that
are persisted, not outliers, and neither soft-failed nor rejected. -/
def nonRejectedLeaves (db : EventDB) (s : List Nat) : List Nat :=
  ((db.edges.filter (fun pe => decide (pe.1 ∈ s))).map (fun pe => pe.2)).filter
    (fun e =>
      match db.find e with
      | some ev => !ev.outlier && !ev.softFailed && !ev.rejected
      | none => false)

/-- Predecessors of `x` along the recorded edges (the `graph` map used by the
backward walk). -/
def stepBack (recorded : List (Nat × Nat)) (x : Nat) : List Nat :=
  (recorded.filter (fun pe => decide (pe.2 = x))).map (fun pe => pe.1)

/-- The candidate extremities deleted from `event_forward_extremities` by one
cleanup round on the batch `cands`: strict ancestors (along recorded edges)
of the non-rejected leaves, intersected with the original candidate set. -/
def cleanupDeleted (db : EventDB) (cands : List Nat) : List Nat :=
  let s := scannedSet db cands
  let recorded := recordedEdges db s
  let leaves := nonRejectedLeaves db s
  let ancestors := closureRun (stepBack recorded) (db.edges.map (fun pe => pe.1)) leaves
  cands.filter (fun c =>
    (recorded.filter (fun pe => decide (pe.2 ∈ ancestors))).any
      (fun pe => decide (pe.1 = c)))

/-- Successor-edge reachability with no restriction at all: event `e` is a
descendant of `p` in the raw `event_edges` relation.  This is the
reachability notion the specification's sentence uses. -/
inductive DescAny (db : EventDB) : Nat → Nat → Prop
  | head {p e : Nat} : (p, e) ∈ db.edges → DescAny db p e
  | tail {p e f : Nat} : DescAny db p e → (e, f) ∈ db.edges → DescAny db p f

/-- The event is persisted, not soft-failed and not rejected (the
specification's notion of a live event; note it says nothing about
outliers). -/
def isLiveEvent (db : EventDB) (e : Nat) : Prop :=
  ∃ ev, db.find e = some ev ∧ ev.softFailed = false ∧ ev.rejected = false

/-- The event is persisted and not an outlier. -/
def presentNonOutlier (db : EventDB) (e : Nat) : Prop :=
  ∃ ev, db.find e = some ev ∧ ev.outlier = false

/-- The event is persisted, not an outlier, not soft-failed, not rejected. -/
def isLiveNonOutlier (db : EventDB) (e : Nat) : Prop :=
  ∃ ev, db.find e = some ev ∧ ev.outlier = false ∧ ev.softFailed = false ∧
    ev.rejected = false

/-- Successor-edge reachability restricted to persisted non-outlier events:
every event on the path after the starting point is persisted and not an
outlier. -/
inductive DescNonOutlier (db : EventDB) : Nat → Nat → Prop
  | head {p e : Nat} : (p, e) ∈ db.edges → presentNonOutlier db e →
      DescNonOutlier db p e
  | tail {p e f : Nat} : DescNonOutlier db p e → (e, f) ∈ db.edges →
      presentNonOutlier db f → DescNonOutlier db p f

/-- There is a path from `p` to a live event whose first hop is a persisted
non-outlier event and whose intermediate events are persisted, non-outlier
and soft-failed or rejected.  This is the exact reachability notion the
cleanup's expansion implements; it is equivalent to reaching a live
non-outlier event through persisted non-outlier events. -/
inductive ReachesLive (db : EventDB) : Nat → Prop
  | direct {p e : Nat} {ev : EventFlags} : (p, e) ∈ db.edges →
      db.find e = some ev → ev.outlier = false → ev.softFailed = false →
      ev.rejected = false → ReachesLive db p
  | step {p e : Nat} {ev : EventFlags} : (p, e) ∈ db.edges →
      db.find e = some ev → ev.outlier = false →
      (ev.softFailed = true ∨ ev.rejected = true) → ReachesLive db e →
      ReachesLive db p

/-- Raw successors of `x` in the edge relation (used to state that some
extremity only has outlier descendants). -/
def stepAll (db : EventDB) (x : Nat) : List Nat :=
  (db.edges.filter (fun pe => decide (pe.1 = x))).map (fun pe => pe.2)

/-! ## Chain-cover backfill (`_chain_cover_index` / `_calculate_chain_cover_txn`)

The state is the `events`-joined-with-`state_events` view (one row per event
with its room, topological ordering, stream ordering, and whether it has a
`state_events` row), the set of events that already have a chain-cover entry
(`event_auth_chains` together with `event_auth_chain_to_calculate` -- both
exclude an event from the scan, and the `ChainIndexer` collaborator inserts
into them), and the per-room `has_auth_chain_index` flags.  The
`ChainIndexer` (`PersistEventsStore._add_chain_cover_index`) is modelled
from the spec: it persists a `ChainCoverEntry` for every event handed to it,
assumed correct and transactional with the batch.  Room ids are naturals;
the sentinel empty-string room id of a fresh progress row is modelled as 0,
and wellformed tables only contain positive room ids. -/

/-- One event row of the chain-cover scan. -/
structure ChainEvent where
  room : Nat
  depth : Int
  stream : Int
  hasState : Bool
deriving DecidableEq, Repr

/-- The chain-cover tables: events, the ids already covered by a
`ChainCoverEntry`, and the rooms whose `has_auth_chain_index` flag is set. -/
structure ChainDB where
  events : List (Nat × ChainEvent)
  indexed : List Nat
  flags : List Nat
deriving DecidableEq, Repr

/-- Pagination key of an event row. -/
def ckey (ev : ChainEvent) : Nat × Int × Int :=
  (ev.room, ev.depth, ev.stream)

/-- Strict lexicographic comparison on (room, depth, stream), the true tuple
ordering produced by `make_tuple_comparison_clause`. -/
def keyLtb (a b : Nat × Int × Int) : Bool :=
  a.1 < b.1 || (a.1 == b.1 && (a.2.1 < b.2.1 || (a.2.1 == b.2.1 && a.2.2 < b.2.2)))

/-- Total comparison used to sort rows by (room, depth, stream). -/
def keyLeb (a b : Nat × Int × Int) : Bool :=
  !(keyLtb b a)

/-- Row filter of the scan query: has a `state_events` row, no chain-cover
entry yet, pagination key strictly after the resume key, and (for the
single-room rescan) belonging to the given room. -/
def chainEligible (db : ChainDB) (lastRoom : Nat) (lastDepth lastStream : Int)
    (singleRoom : Bool) (pe : Nat × ChainEvent) : Bool :=
  pe.2.hasState && !(decide (pe.1 ∈ db.indexed)) &&
    keyLtb (lastRoom, lastDepth, lastStream) (ckey pe.2) &&
    (!singleRoom || decide (pe.2.room = lastRoom))

/-- Row ordering of the scan query (ORDER BY room_id, topological_ordering,
stream_ordering). -/
def chainRowLe (a b : Nat × ChainEvent) : Prop :=
  keyLeb (ckey a.2) (ckey b.2) = true

instance : DecidableRel chainRowLe := fun a b => by
  unfold chainRowLe
  infer_instance

/-- All eligible rows of the scan query in (room, depth, stream) order. -/
def chainSorted (db : ChainDB) (lastRoom : Nat) (lastDepth lastStream : Int)
    (singleRoom : Bool) : List (Nat × ChainEvent) :=
  List.insertionSort chainRowLe
    (db.events.filter (chainEligible db lastRoom lastDepth lastStream singleRoom))

/-- Rows returned by the scan query: the eligible rows in (room, depth,
stream) order, limited to the batch size when one is given. -/
def chainRows (db : ChainDB) (lastRoom : Nat) (lastDepth lastStream : Int)
    (batchSize : Option Nat) (singleRoom : Bool) : List (Nat × ChainEvent) :=
  match batchSize with
  | some b => (chainSorted db lastRoom lastDepth lastStream singleRoom).take b
  | none => chainSorted db lastRoom lastDepth lastStream singleRoom

/-- Result record of `_calculate_chain_cover_txn`. -/
structure CalcResult where
  roomId : Nat
  depth : Int
  stream : Int
  ids : List Nat
  finishedRoomMap : List (Nat × (Int × Int))
deriving DecidableEq, Repr

/-- Number of rows processed by the transaction. -/
def CalcResult.processedCount (r : CalcResult) : Nat :=
  r.ids.length

/-- The per-room map of finished rooms built from the batch rows: for every
room other than the new last room, the (depth, stream) of its last row, in
first-occurrence order (Python dict comprehension semantics). -/
def finishedRoomsOfRows (rows : List (Nat × ChainEvent)) (newLastRoom : Nat) :
    List (Nat × (Int × Int)) :=
  (rows.filter (fun r => !(decide (r.2.room = newLastRoom)))).foldl
    (fun acc r => upsertRow acc r.2.room (r.2.depth, r.2.stream)) []

/-- New resume room after a batch: the last row's room, or the sentinel 0
(the empty string) when the batch is empty. -/
def calcNewLastRoom (rows : List (Nat × ChainEvent)) : Nat :=
  ((rows.getLast?).map (fun r => r.2.room)).getD 0

/-- New resume depth after a batch: the last row's depth, or the previous
resume depth when the batch is empty. -/
def calcNewLastDepth (rows : List (Nat × ChainEvent)) (lastDepth : Int) : Int :=
  ((rows.getLast?).map (fun r => r.2.depth)).getD lastDepth

/-- New resume stream ordering after a batch: the last row's stream ordering,
or the previous resume stream when the batch is empty. -/
def calcNewLastStream (rows : List (Nat × ChainEvent)) (lastStream : Int) : Int :=
  ((rows.getLast?).map (fun r => r.2.stream)).getD lastStream

/-- The finished-room map reported for a batch: the per-room last rows
excluding the new last room, together with the carried previous resume room
when it produced no row and differs from the new last room. -/
def calcFin (rows : List (Nat × ChainEvent)) (lastRoom : Nat)
    (lastDepth lastStream : Int) : List (Nat × (Int × Int)) :=
  if (rowLookup (finishedRoomsOfRows rows (calcNewLastRoom rows)) lastRoom).isNone
      && !(decide (lastRoom = calcNewLastRoom rows)) then
    finishedRoomsOfRows rows (calcNewLastRoom rows) ++ [(lastRoom, (lastDepth, lastStream))]
  else finishedRoomsOfRows rows (calcNewLastRoom rows)

/-- Database state after the `ChainIndexer` has persisted the chain-cover
entries of a batch of rows. -/
def chainNextDB (db : ChainDB) (rows : List (Nat × ChainEvent)) : ChainDB :=
  { db with indexed := db.indexed ++ rows.map (fun r => r.1) }

/-- One execution of `_calculate_chain_cover_txn`: fetch the next batch of
rows, hand them to the `ChainIndexer` (which persists their chain-cover
entries), and report the new resume key plus the finished-room map. -/
def calculateChainCover (db : ChainDB) (lastRoom : Nat) (lastDepth lastStream : Int)
    (batchSize : Option Nat) (singleRoom : Bool) : ChainDB × CalcResult :=
  (chainNextDB db (chainRows db lastRoom lastDepth lastStream batchSize singleRoom),
    ⟨calcNewLastRoom (chainRows db lastRoom lastDepth lastStream batchSize singleRoom),
     calcNewLastDepth (chainRows db lastRoom lastDepth lastStream batchSize singleRoom) lastDepth,
     calcNewLastStream (chainRows db lastRoom lastDepth lastStream batchSize singleRoom) lastStream,
     (chainRows db lastRoom lastDepth lastStream batchSize singleRoom).map (fun r => r.1),
     calcFin (chainRows db lastRoom lastDepth lastStream batchSize singleRoom)
       lastRoom lastDepth lastStream⟩)

/-- Observable actions of one coordinator invocation of the chain-cover job,
in execution order. -/
inductive ChainAction
  | batchScan (ids : List Nat)
  | setFlag (room : Nat)
  | rescan (room : Nat) (ids : List Nat)
deriving DecidableEq, Repr

/-- Persisted progress of the chain-cover job. -/
structure ChainProgress where
  room : Nat
  depth : Int
  stream : Int
deriving DecidableEq, Repr

/-- Set the `has_auth_chain_index` flag of a room (idempotent column
update). -/
def flagRoom (db : ChainDB) (r : Nat) : ChainDB :=
  if r ∈ db.flags then db else { db with flags := db.flags ++ [r] }

/-- The per-finished-room loop of `_chain_cover_index`: flip the
`has_auth_chain_index` flag, then rescan that single room with no batch
limit to handle any events that raced with the flip.  Each trace entry pairs
the action with the database state right after it. -/
def chainFlagLoop (db : ChainDB) (entries : List (Nat × (Int × Int))) :
    ChainDB × List (ChainAction × ChainDB) :=
  match entries with
  | [] => (db, [])
  | (r, (d, s)) :: rest =>
    ((chainFlagLoop (calculateChainCover (flagRoom db r) r d s none true).1 rest).1,
      (ChainAction.setFlag r, flagRoom db r) ::
        (ChainAction.rescan r
            (calculateChainCover (flagRoom db r) r d s none true).2.ids,
          (calculateChainCover (flagRoom db r) r d s none true).1) ::
        (chainFlagLoop (calculateChainCover (flagRoom db r) r d s none true).1 rest).2)

/-- One coordinator invocation of `_chain_cover_index`: run the main scan,
process the finished rooms, and either end the job (when the scan returned
no rows) or persist the new resume key. -/
def chainCoverStep (db : ChainDB) (prog : ChainProgress) (batchSize : Option Nat) :
    ChainDB × Option ChainProgress × List (ChainAction × ChainDB) :=
  ((chainFlagLoop
      (calculateChainCover db prog.room prog.depth prog.stream batchSize false).1
      (calculateChainCover db prog.room prog.depth prog.stream batchSize false).2.finishedRoomMap).1,
   (if (calculateChainCover db prog.room prog.depth prog.stream batchSize false).2.processedCount = 0
    then none
    else some
      ⟨(calculateChainCover db prog.room prog.depth prog.stream batchSize false).2.roomId,
       (calculateChainCover db prog.room prog.depth prog.stream batchSize false).2.depth,
       (calculateChainCover db prog.room prog.depth prog.stream batchSize false).2.stream⟩),
   (ChainAction.batchScan
       (calculateChainCover db prog.room prog.depth prog.stream batchSize false).2.ids,
     (calculateChainCover db prog.room prog.depth prog.stream batchSize false).1) ::
   (chainFlagLoop
     (calculateChainCover db prog.room prog.depth prog.stream batchSize false).1
     (calculateChainCover db prog.room prog.depth prog.stream batchSize false).2.finishedRoomMap).2)

/-- Drive the chain-cover job to completion (fuel-bounded iteration of
coordinator invocations), collecting the concatenated action trace. -/
def chainCoverRun (batchSize : Option Nat) :
    Nat → ChainDB → ChainProgress → ChainDB × List (ChainAction × ChainDB)
  | 0, db, _ => (db, [])
  | fuel + 1, db, prog =>
    match (chainCoverStep db prog batchSize).2.1 with
    | none => ((chainCoverStep db prog batchSize).1, (chainCoverStep db prog batchSize).2.2)
    | some p =>
      ((chainCoverRun batchSize fuel (chainCoverStep db prog batchSize).1 p).1,
        (chainCoverStep db prog batchSize).2.2 ++
          (chainCoverRun batchSize fuel (chainCoverStep db prog batchSize).1 p).2)

/-- Complete run of the chain-cover background update from a fresh progress
row (room sentinel 0, depth and stream sentinels -1). -/
def chainCoverJob (db : ChainDB) (batchSize : Option Nat) :
    ChainDB × List (ChainAction × ChainDB) :=
  chainCoverRun batchSize (db.events.length + 1) db ⟨0, -1, -1⟩

/-- Wellformedness of the chain-cover tables: event ids are duplicate-free,
room ids are positive (0 models the empty-string sentinel of a fresh
progress row), and stateful rows have pairwise distinct pagination keys
(stream orderings are unique in the real schema). -/
def ChainDB.wf (db : ChainDB) : Prop :=
  (db.events.map (fun pe => pe.1)).Nodup ∧
  (∀ pe ∈ db.events, 0 < pe.2.room) ∧
  (db.events.filter (fun pe => pe.2.hasState)).Pairwise
    (fun a b => ckey a.2 ≠ ckey b.2)

instance (db : ChainDB) : Decidable db.wf := by
  unfold ChainDB.wf
  infer_instance

/-- The eligible rows of the unrestricted main scan at a resume key, in table
order (the set the scan still has to index). -/
def eligList (db : ChainDB) (r : Nat) (d s : Int) : List (Nat × ChainEvent) :=
  db.events.filter (chainEligible db r d s false)

/-- Temporal wellformedness of a chain-cover action trace: whenever the
per-room flag is set, every stateful event of that room is already indexed in
the post-action state, and the very next action is the unlimited single-room
rescan of that room. -/
def TraceOK : List (ChainAction × ChainDB) → Prop
  | [] => True
  | (ChainAction.setFlag r, dbi) :: rest =>
    (∀ pe ∈ dbi.events, pe.2.hasState = true → pe.2.room = r → pe.1 ∈ dbi.indexed) ∧
    (∃ ids dbj rest2, rest = (ChainAction.rescan r ids, dbj) :: rest2) ∧ TraceOK rest
  | _ :: rest => TraceOK rest

/-! ## Joined-rooms backfill (`_sliding_sync_joined_rooms_backfill`)

Model of the write transaction `_backfill_table_txn`: the batch has already
gathered, per room, the derived summary columns and the stream positions
(including the stream id of the last state delta seen while gathering).
Inside the transaction each room is re-checked against the state deltas that
arrived after its data was gathered (`get_current_state_deltas_for_room_txn`
and `SLIDING_SYNC_RELEVANT_STATE_SET` live outside src/ and are modelled as
inputs); on a relevant delta the transaction issues a progress save (when at
least one room already succeeded) and raises, aborting the batch.  The model
records the operations the transaction issues; the enclosing interaction
rolls the transaction back when it raises. -/

/-- One current-state delta row. -/
structure StateDelta where
  eventType : Nat
  stateKey : Nat
  stream : Int
deriving DecidableEq, Repr

/-- External inputs of the stale-state re-check: the per-room state deltas
and the set of (event type, state key) pairs relevant to the summary
columns. -/
structure JoinedRoomsEnv where
  deltas : List (Nat × StateDelta)
  relevantStateSet : List (Nat × Nat)
deriving DecidableEq, Repr

/-- Whether some state delta relevant to the summary columns occurred in the
room after the given stream position. -/
def hasRelevantDeltaSince (env : JoinedRoomsEnv) (room : Nat) (fromStream : Int) : Bool :=
  env.deltas.any (fun rd =>
    decide (rd.1 = room) && decide (fromStream < rd.2.stream) &&
      decide ((rd.2.eventType, rd.2.stateKey) ∈ env.relevantStateSet))

/-- One room of the batch, with the data gathered before the transaction. -/
structure JoinedRoomTask where
  roomId : Nat
  insertMap : List (Nat × Int)
  eventStreamOrdering : Int
  bumpStamp : Int
  lastDeltaStreamId : Int
deriving DecidableEq, Repr

/-- Operations issued by the joined-rooms write transaction: either it runs
to completion with the given room upserts, or it aborts (raises) after
issuing the listed upserts and, possibly, one progress save. -/
inductive JoinedBackfillResult
  | committed (writes : List (Nat × (Int × Int × List (Nat × Int))))
  | aborted (progressSaved : Option Nat)
      (writesIssued : List (Nat × (Int × Int × List (Nat × Int))))
deriving DecidableEq, Repr

/-- Loop body of `_backfill_table_txn` over the batch rooms, carrying the
last successfully written room.  On a relevant delta the source saves
progress as the dictionary with last_room_id mapped to `room_id` -- the
room currently being checked -- provided some room already succeeded, and
then raises. -/
def joinedRoomsBackfillGo (env : JoinedRoomsEnv) (lastSuccessful : Option Nat)
    (written : List (Nat × (Int × Int × List (Nat × Int))))
    (tasks : List JoinedRoomTask) : JoinedBackfillResult :=
  match tasks with
  | [] => JoinedBackfillResult.committed written
  | task :: rest =>
    if hasRelevantDeltaSince env task.roomId task.lastDeltaStreamId then
      JoinedBackfillResult.aborted
        (if lastSuccessful.isSome then some task.roomId else none) written
    else
      joinedRoomsBackfillGo env (some task.roomId)
        (written ++ [(task.roomId,
          (task.eventStreamOrdering, task.bumpStamp, task.insertMap))]) rest

/-- The joined-rooms write transaction over one gathered batch. -/
def joinedRoomsBackfillTxn (env : JoinedRoomsEnv) (tasks : List JoinedRoomTask) :
    JoinedBackfillResult :=
  joinedRoomsBackfillGo env none [] tasks

/-! ## Membership-snapshot backfill (`_sliding_sync_membership_snapshots_backfill`)

The derivation dispatch on the membership kind is in src/; the two helpers
that turn a state map or a stripped-state payload into the concrete column
values (`PersistEventsStore._get_sliding_sync_insert_values_from_state_map`
and `..._from_stripped_state_txn`) are not.  `SnapshotValues` models them
from the spec: the derived columns are a function of their source data
(current state of the room, stripped state payload, or historical state at
the membership event), and a missing stripped-state payload is recorded as
no known state.  Stripped-state payloads are modelled as opaque lists. -/

/-- Membership kinds the backfill knows how to handle. -/
inductive MKind
  | join
  | invite
  | knock
  | leave
  | ban
deriving DecidableEq, Repr

/-- One `room_memberships` / `local_current_membership` row. -/
structure MembershipRow where
  roomId : Nat
  userId : Nat
  sender : Nat
  eventId : Nat
  membership : MKind
  streamOrdering : Int
  outlier : Bool
  forgotten : Bool
deriving DecidableEq, Repr

/-- The parts of a persisted event the backfill reads: the stripped-state
payloads carried on the unsigned part of invite/knock events. -/
structure MemEventContent where
  inviteRoomState : Option (List Nat)
  knockRoomState : Option (List Nat)
deriving DecidableEq, Repr

/-- The membership tables. -/
structure MemDB where
  roomMemberships : List MembershipRow
  events : List (Nat × MemEventContent)
deriving DecidableEq, Repr

/-- Modelled from the spec: the derived snapshot columns, represented by the
source data they are computed from (`_get_sliding_sync_insert_values_...`
helpers are not under src/).  `fromStripped none` is the no-known-state
record the source writes when the event carries no stripped state. -/
inductive SnapshotValues
  | fromStripped (raw : Option (List Nat))
  | fromCurrentState (roomId : Nat)
  | fromHistoricalState (eventId : Nat)
deriving DecidableEq, Repr

/-- Failures of the per-row derivation: the assertion that a previous
membership row exists, and a failing event fetch. -/
inductive DeriveError
  | missingPreviousMembership
  | missingEvent
deriving DecidableEq, Repr

/-- Query of `_find_previous_membership_txn`: the membership row of the
(room, user) pair with the largest stream ordering strictly before the given
one -- with no restriction on its membership kind. -/
def findPreviousMembership (db : MemDB) (roomId userId : Nat)
    (streamOrdering : Int) : Option (Nat × MKind) :=
  ((db.roomMemberships.filter (fun r =>
      decide (r.roomId = roomId) && decide (r.userId = userId) &&
        decide (r.streamOrdering < streamOrdering))).foldl
    (fun best r =>
      match best with
      | none => some r
      | some b => if b.streamOrdering < r.streamOrdering then some r else some b)
    none).map (fun r => (r.eventId, r.membership))

/-- The claim-side lookup, following the specification's words: the latest
prior membership row whose kind is invite or knock. -/
def findPreviousInviteOrKnock (db : MemDB) (roomId userId : Nat)
    (streamOrdering : Int) : Option (Nat × MKind) :=
  ((db.roomMemberships.filter (fun r =>
      decide (r.roomId = roomId) && decide (r.userId = userId) &&
        decide (r.streamOrdering < streamOrdering) &&
        (decide (r.membership = MKind.invite) || decide (r.membership = MKind.knock)))).foldl
    (fun best r =>
      match best with
      | none => some r
      | some b => if b.streamOrdering < r.streamOrdering then some r else some b)
    none).map (fun r => (r.eventId, r.membership))

/-- Stripped-state payload read off an event for a given membership kind:
invite_room_state for invites, knock_room_state for knocks, nothing
otherwise. -/
def strippedOf (mem : MKind) (ev : MemEventContent) : Option (List Nat) :=
  match mem with
  | MKind.invite => ev.inviteRoomState
  | MKind.knock => ev.knockRoomState
  | _ => none

/-- Per-row derivation of the snapshot columns, following the source's
branch order: JOIN from current state; INVITE/KNOCK, and LEAVE that is an
outlier, from a stripped-state payload (for the outlier LEAVE, the payload
of the previous membership event); remaining LEAVE/BAN from historical
state.  The five-kind assertion at the top of the loop is exhaustive over
`MKind`. -/
def deriveSnapshotValues (db : MemDB) (row : MembershipRow) :
    Except DeriveError SnapshotValues :=
  if row.membership = MKind.join then
    Except.ok (SnapshotValues.fromCurrentState row.roomId)
  else if row.membership = MKind.invite ∨ row.membership = MKind.knock ∨
      (row.membership = MKind.leave ∧ row.outlier = true) then do
    let (eid, mem) ←
      if row.membership = MKind.leave ∧ row.outlier = true then
        match findPreviousMembership db row.roomId row.userId row.streamOrdering with
        | none => Except.error DeriveError.missingPreviousMembership
        | some p => Except.ok p
      else
        Except.ok (row.eventId, row.membership)
    match rowLookup db.events eid with
    | none => Except.error DeriveError.missingEvent
    | some ev => Except.ok (SnapshotValues.fromStripped (strippedOf mem ev))
  else
    Except.ok (SnapshotValues.fromHistoricalState row.eventId)

/-- One row of `sliding_sync_membership_snapshots`. -/
structure SnapshotRow where
  sender : Nat
  membershipEventId : Nat
  membership : MKind
  forgotten : Option Bool
  eventStreamOrdering : Int
  values : SnapshotValues
deriving DecidableEq, Repr

/-- The subselect reading the live `forgotten` value inside the write
transaction: `(SELECT forgotten FROM room_memberships WHERE event_id = ?)`,
NULL when no row matches. -/
def lookupForgotten (db : MemDB) (eventId : Nat) : Option Bool :=
  ((db.roomMemberships.find? (fun r => decide (r.eventId = eventId))).map
    (fun r => r.forgotten))

/-- The non-derived columns of one snapshot insert
(`SlidingSyncMembershipInfo`). -/
structure SnapshotInfo where
  sender : Nat
  membershipEventId : Nat
  membership : MKind
  streamOrdering : Int
deriving DecidableEq, Repr

/-- Claim-side derivation following the specification's words: derive the
snapshot columns from the stripped state carried on the immediately
preceding invite/knock event of the (room, user) pair. -/
def specSnapshotFromPrevInviteKnock (db : MemDB) (row : MembershipRow) :
    Option SnapshotValues :=
  match findPreviousInviteOrKnock db row.roomId row.userId row.streamOrdering with
  | none => none
  | some (eid, mem) =>
    (rowLookup db.events eid).map
      (fun ev => SnapshotValues.fromStripped (strippedOf mem ev))

/-- One snapshot write of `_backfill_table_txn`: INSERT with the live
`forgotten` value, ON CONFLICT (room_id, user_id) DO UPDATE SET only the
`forgotten` column. -/
def writeMembershipSnapshot (db : MemDB) (table : List ((Nat × Nat) × SnapshotRow))
    (key : Nat × Nat) (info : SnapshotInfo) (vals : SnapshotValues) :
    List ((Nat × Nat) × SnapshotRow) :=
  let forg := lookupForgotten db info.membershipEventId
  if table.any (fun r => decide (r.1 = key)) then
    table.map (fun r => if r.1 = key then (r.1, { r.2 with forgotten := forg }) else r)
  else
    table ++ [(key,
      ⟨info.sender, info.membershipEventId, info.membership, forg,
        info.streamOrdering, vals⟩)]

/-! ## Association-list lemmas -/

theorem rowLookup_cons {κ ν : Type} [DecidableEq κ] (r : κ × ν) (rows : List (κ × ν))
    (k : κ) :
    rowLookup (r :: rows) k = if r.1 = k then some r.2 else rowLookup rows k := by
  by_cases h : r.1 = k <;> simp [rowLookup, List.find?_cons, h]

theorem rowLookup_append {κ ν : Type} [DecidableEq κ] (a b : List (κ × ν)) (k : κ) :
    rowLookup (a ++ b) k = (rowLookup a k).or (rowLookup b k) := by
  unfold rowLookup
  rw [List.find?_append]
  cases List.find? (fun r => decide (r.1 = k)) a <;> simp

theorem rowLookup_eq_some_of_mem {κ ν : Type} [DecidableEq κ] {rows : List (κ × ν)}
    {k : κ} {v : ν} (hnd : (rows.map (fun r => r.1)).Nodup) (h : (k, v) ∈ rows) :
    rowLookup rows k = some v := by
  induction rows with
  | nil => cases h
  | cons r rest ih =>
    rw [rowLookup_cons]
    rcases List.mem_cons.mp h with h | h
    · rw [← h]
      simp
    · have hk : r.1 ≠ k := by
        intro he
        have : k ∈ rest.map (fun r => r.1) :=
          List.mem_map.mpr ⟨(k, v), h, rfl⟩
        exact (List.nodup_cons.mp (by simpa using hnd)).1 (he ▸ this)
      simp only [hk, if_false]
      exact ih (List.nodup_cons.mp (by simpa using hnd)).2 h

theorem mem_of_rowLookup_eq_some {κ ν : Type} [DecidableEq κ] {rows : List (κ × ν)}
    {k : κ} {v : ν} (h : rowLookup rows k = some v) : (k, v) ∈ rows := by
  unfold rowLookup at h
  cases hf : rows.find? (fun r => decide (r.1 = k)) with
  | none => rw [hf] at h; cases h
  | some r =>
    rw [hf] at h
    have hr : r ∈ rows := List.mem_of_find?_eq_some hf
    have hk : r.1 = k := by simpa using List.find?_some hf
    have hv : r.2 = v := by simpa using h
    have : r = (k, v) := by
      cases r
      simp_all
    exact this ▸ hr

theorem rowLookup_isSome_of_mem {κ ν : Type} [DecidableEq κ] {rows : List (κ × ν)}
    {k : κ} {v : ν} (h : (k, v) ∈ rows) : (rowLookup rows k).isSome := by
  unfold rowLookup
  cases hf : rows.find? (fun r => decide (r.1 = k)) with
  | none =>
    have hcontra := List.find?_eq_none.mp hf (k, v) h
    simp at hcontra
  | some r => simp

theorem assoc_update_lookup_self {κ ν : Type} [DecidableEq κ] {rows : List (κ × ν)}
    {k : κ} {v : ν} (f : ν → ν) (hnd : (rows.map (fun r => r.1)).Nodup)
    (hmem : (k, v) ∈ rows) :
    rowLookup (rows.map (fun r => if r.1 = k then (r.1, f r.2) else r)) k =
      some (f v) := by
  induction rows with
  | nil => cases hmem
  | cons r rest ih =>
    simp only [List.map_cons]
    rw [rowLookup_cons]
    rcases List.mem_cons.mp hmem with h | h
    · subst h
      simp
    · have hk : r.1 ≠ k := by
        intro he
        have : k ∈ rest.map (fun r => r.1) := List.mem_map.mpr ⟨(k, v), h, rfl⟩
        exact (List.nodup_cons.mp (by simpa using hnd)).1 (he ▸ this)
      simp only [hk, if_false]
      exact ih (List.nodup_cons.mp (by simpa using hnd)).2 h

theorem assoc_update_lookup_other {κ ν : Type} [DecidableEq κ] (rows : List (κ × ν))
    (k k2 : κ) (f : ν → ν) (hne : k2 ≠ k) :
    rowLookup (rows.map (fun r => if r.1 = k then (r.1, f r.2) else r)) k2 =
      rowLookup rows k2 := by
  induction rows with
  | nil => rfl
  | cons r rest ih =>
    simp only [List.map_cons]
    rw [rowLookup_cons, rowLookup_cons]
    by_cases h : r.1 = k
    · have hkk2 : k ≠ k2 := fun he => hne he.symm
      simp [h, hkk2, ih]
    · simp [h, ih]

theorem assoc_update_map_fst {κ ν : Type} [DecidableEq κ] (rows : List (κ × ν))
    (k : κ) (f : ν → ν) :
    (rows.map (fun r => if r.1 = k then (r.1, f r.2) else r)).map (fun r => r.1) =
      rows.map (fun r => r.1) := by
  induction rows with
  | nil => rfl
  | cons r rest ih =>
    by_cases h : r.1 = k <;> simp [h, ih]

theorem assoc_filter_key_length_one {κ ν : Type} [DecidableEq κ]
    {rows : List (κ × ν)} {k : κ} {v : ν}
    (hnd : (rows.map (fun r => r.1)).Nodup) (hmem : (k, v) ∈ rows) :
    (rows.filter (fun x => decide (x.1 = k))).length = 1 := by
  induction rows with
  | nil => cases hmem
  | cons r rest ih =>
    rcases List.mem_cons.mp hmem with h | h
    · subst h
      have hnone : rest.filter (fun x => decide (x.1 = k)) = [] := by
        rw [List.filter_eq_nil_iff]
        intro x hx hxk
        have hk : x.1 = k := by simpa using hxk
        have : k ∈ rest.map (fun r => r.1) := List.mem_map.mpr ⟨x, hx, hk⟩
        exact (List.nodup_cons.mp (by simpa using hnd)).1 this
      simp [List.filter_cons, hnone]
    · have hk : r.1 ≠ k := by
        intro he
        have : k ∈ rest.map (fun r => r.1) := List.mem_map.mpr ⟨(k, v), h, rfl⟩
        exact (List.nodup_cons.mp (by simpa using hnd)).1 (he ▸ this)
      rw [List.filter_cons]
      simp only [hk, decide_eq_true_eq, if_false]
      exact ih (List.nodup_cons.mp (by simpa using hnd)).2 h

theorem rowLookup_eq_none_of_forall {κ ν : Type} [DecidableEq κ] {rows : List (κ × ν)}
    {k : κ} (h : ∀ r ∈ rows, r.1 ≠ k) : rowLookup rows k = none := by
  unfold rowLookup
  rw [List.find?_eq_none.mpr]
  · rfl
  · intro x hx
    simpa using h x hx

theorem assoc_value_unique {κ ν : Type} [DecidableEq κ] {rows : List (κ × ν)}
    {k : κ} {v1 v2 : ν} (hnd : (rows.map (fun r => r.1)).Nodup)
    (h1 : (k, v1) ∈ rows) (h2 : (k, v2) ∈ rows) : v1 = v2 := by
  have e1 := rowLookup_eq_some_of_mem hnd h1
  have e2 := rowLookup_eq_some_of_mem hnd h2
  rw [e1] at e2
  exact (Option.some.injEq _ _).mp e2

theorem rowLookup_map_const_self {κ ν : Type} [DecidableEq κ] {rows : List (κ × ν)}
    {k : κ} (v : ν) (h : rows.any (fun r => decide (r.1 = k)) = true) :
    rowLookup (rows.map (fun r => if r.1 = k then (k, v) else r)) k = some v := by
  induction rows with
  | nil => cases h
  | cons r rest ih =>
    by_cases hr : r.1 = k
    · simp only [List.map_cons, if_pos hr]
      rw [rowLookup_cons]
      simp
    · simp only [List.map_cons, if_neg hr]
      rw [rowLookup_cons]
      have h2 : rest.any (fun r => decide (r.1 = k)) = true := by
        rcases List.any_eq_true.mp h with ⟨x, hx, hxk⟩
        rcases List.mem_cons.mp hx with he | hx
        · rw [he] at hxk
          exact absurd (by simpa using hxk) hr
        · exact List.any_eq_true.mpr ⟨x, hx, hxk⟩
      simp [hr, ih h2]

theorem rowLookup_map_const_other {κ ν : Type} [DecidableEq κ] (rows : List (κ × ν))
    (k k2 : κ) (v : ν) (hne : k2 ≠ k) :
    rowLookup (rows.map (fun r => if r.1 = k then (k, v) else r)) k2 =
      rowLookup rows k2 := by
  induction rows with
  | nil => rfl
  | cons r rest ih =>
    by_cases hr : r.1 = k
    · simp only [List.map_cons, if_pos hr]
      rw [rowLookup_cons, rowLookup_cons]
      have hkk2 : k ≠ k2 := fun he => hne he.symm
      have hr2 : r.1 ≠ k2 := by rw [hr]; exact hkk2
      simp [hkk2, hr2, ih]
    · simp only [List.map_cons, if_neg hr]
      rw [rowLookup_cons, rowLookup_cons, ih]

theorem upsertRow_lookup_self {κ ν : Type} [DecidableEq κ] (rows : List (κ × ν))
    (k : κ) (v : ν) : rowLookup (upsertRow rows k v) k = some v := by
  unfold upsertRow
  by_cases h : rows.any (fun r => decide (r.1 = k)) = true
  · rw [if_pos h]
    exact rowLookup_map_const_self v h
  · rw [if_neg h, rowLookup_append]
    have hnone : rowLookup rows k = none := by
      refine rowLookup_eq_none_of_forall ?_
      intro x hx he
      exact h (List.any_eq_true.mpr ⟨x, hx, by simpa using he⟩)
    rw [hnone]
    simp [rowLookup_cons]

theorem upsertRow_lookup_other {κ ν : Type} [DecidableEq κ] (rows : List (κ × ν))
    (k k2 : κ) (v : ν) (hne : k2 ≠ k) :
    rowLookup (upsertRow rows k v) k2 = rowLookup rows k2 := by
  unfold upsertRow
  by_cases h : rows.any (fun r => decide (r.1 = k)) = true
  · rw [if_pos h]
    exact rowLookup_map_const_other rows k k2 v hne
  · rw [if_neg h, rowLookup_append]
    have hkk2 : ¬(k = k2) := fun he => hne he.symm
    have hnone2 : rowLookup [(k, v)] k2 = none := by
      rw [rowLookup_cons]
      rw [if_neg hkk2]
      rfl
    rw [hnone2]
    cases rowLookup rows k2 <;> rfl

theorem upsertRows_lookup_not_mem {κ ν : Type} [DecidableEq κ] (rows : List (κ × ν))
    (kvs : List (κ × ν)) (k : κ) (hk : ∀ kv ∈ kvs, kv.1 ≠ k) :
    rowLookup (upsertRows rows kvs) k = rowLookup rows k := by
  induction kvs generalizing rows with
  | nil => rfl
  | cons kv rest ih =>
    simp only [upsertRows, List.foldl_cons]
    rw [show List.foldl (fun acc kv => upsertRow acc kv.1 kv.2) (upsertRow rows kv.1 kv.2)
        rest = upsertRows (upsertRow rows kv.1 kv.2) rest from rfl]
    rw [ih _ (fun x hx => hk x (List.mem_cons_of_mem _ hx))]
    exact upsertRow_lookup_other rows kv.1 k kv.2
      (fun he => hk kv (List.mem_cons_self _ _) he.symm)

theorem upsertRows_lookup_mem {κ ν : Type} [DecidableEq κ] (rows : List (κ × ν))
    {kvs : List (κ × ν)} {k : κ} {v : ν}
    (hnd : (kvs.map (fun r => r.1)).Nodup) (hmem : (k, v) ∈ kvs) :
    rowLookup (upsertRows rows kvs) k = some v := by
  induction kvs generalizing rows with
  | nil => cases hmem
  | cons kv rest ih =>
    simp only [upsertRows, List.foldl_cons]
    rw [show List.foldl (fun acc kv => upsertRow acc kv.1 kv.2) (upsertRow rows kv.1 kv.2)
        rest = upsertRows (upsertRow rows kv.1 kv.2) rest from rfl]
    rcases List.mem_cons.mp hmem with h | h
    · subst h
      have hknotin : ∀ x ∈ rest, x.1 ≠ k := by
        intro x hx he
        have hkmem : k ∈ rest.map (fun r => r.1) := List.mem_map.mpr ⟨x, hx, he⟩
        exact (List.nodup_cons.mp (by simpa using hnd)).1 hkmem
      rw [upsertRows_lookup_not_mem _ _ _ hknotin]
      exact upsertRow_lookup_self rows k v
    · have hnd2 : (rest.map (fun r => r.1)).Nodup := by
        have hc := hnd
        simp only [List.map_cons] at hc
        exact (List.nodup_cons.mp hc).2
      exact ih _ hnd2 h

theorem mem_upsertRow {κ ν : Type} [DecidableEq κ] {rows : List (κ × ν)} {k : κ}
    {v : ν} {x : κ × ν} (hx : x ∈ upsertRow rows k v) : x ∈ rows ∨ x.1 = k := by
  unfold upsertRow at hx
  by_cases h : rows.any (fun r => decide (r.1 = k)) = true
  · rw [if_pos h] at hx
    rcases List.mem_map.mp hx with ⟨r, hr, he⟩
    by_cases hrk : r.1 = k
    · rw [if_pos hrk] at he
      right
      rw [← he]
    · rw [if_neg hrk] at he
      exact Or.inl (he ▸ hr)
  · rw [if_neg h] at hx
    rcases List.mem_append.mp hx with hx | hx
    · exact Or.inl hx
    · right
      rcases List.mem_singleton.mp hx with rfl
      rfl

theorem mem_upsertRows {κ ν : Type} [DecidableEq κ] {rows kvs : List (κ × ν)}
    {x : κ × ν} (hx : x ∈ upsertRows rows kvs) :
    x ∈ rows ∨ ∃ kv ∈ kvs, x.1 = kv.1 := by
  induction kvs generalizing rows with
  | nil => exact Or.inl hx
  | cons kv rest ih =>
    simp only [upsertRows, List.foldl_cons] at hx
    rcases ih hx with h | ⟨kv2, hkv2, he⟩
    · rcases mem_upsertRow h with h | h
      · exact Or.inl h
      · exact Or.inr ⟨kv, List.mem_cons_self _ _, h⟩
    · exact Or.inr ⟨kv2, List.mem_cons_of_mem _ hkv2, he⟩

theorem copyStreamRows_lookup (rows : List ((Nat × StreamKind × Nat) × HaveSentRoom))
    (p n : Nat) (k : StreamKind) (r : Nat) :
    rowLookup (copyStreamRows rows p n) (n, k, r) = rowLookup rows (p, k, r) := by
  induction rows with
  | nil => rfl
  | cons row rest ih =>
    obtain ⟨⟨pp, kk, rr⟩, val⟩ := row
    by_cases hp : pp = p
    · subst hp
      simp only [copyStreamRows, List.filter_cons, decide_eq_true_eq]
      simp only [if_true]
      simp only [List.map_cons]
      rw [rowLookup_cons, rowLookup_cons]
      simp only [Prod.mk.injEq, true_and]
      by_cases hkr : kk = k ∧ rr = r
      · simp [hkr.1, hkr.2]
      · rw [if_neg hkr, if_neg hkr]
        exact ih
    · simp only [copyStreamRows, List.filter_cons, decide_eq_true_eq]
      rw [if_neg hp]
      rw [rowLookup_cons]
      have : ¬(((pp, kk, rr) : Nat × StreamKind × Nat) = (p, k, r)) := by
        intro he
        exact hp (congrArg (fun x => x.1) he)
      rw [if_neg this]
      exact ih

theorem copyConfigRows_lookup (rows : List ((Nat × Nat) × (Nat × Nat)))
    (p n : Nat) (r : Nat) :
    rowLookup (copyConfigRows rows p n) (n, r) = rowLookup rows (p, r) := by
  induction rows with
  | nil => rfl
  | cons row rest ih =>
    obtain ⟨⟨pp, rr⟩, val⟩ := row
    by_cases hp : pp = p
    · subst hp
      simp only [copyConfigRows, List.filter_cons, decide_eq_true_eq]
      simp only [if_true]
      simp only [List.map_cons]
      rw [rowLookup_cons, rowLookup_cons]
      simp only [Prod.mk.injEq, true_and]
      by_cases hr : rr = r
      · simp [hr]
      · rw [if_neg hr, if_neg hr]
        exact ih
    · simp only [copyConfigRows, List.filter_cons, decide_eq_true_eq]
      rw [if_neg hp]
      rw [rowLookup_cons]
      have : ¬(((pp, rr) : Nat × Nat) = (p, r)) := by
        intro he
        exact hp (congrArg (fun x => x.1) he)
      rw [if_neg this]
      exact ih

theorem filterMap_keys_sublist {α β γ : Type} (f : α → Option (γ × β)) (g : α → γ)
    (hf : ∀ x v, f x = some v → v.1 = g x) (l : List α) :
    ((l.filterMap f).map (fun r => r.1)).Sublist (l.map g) := by
  induction l with
  | nil => exact List.Sublist.refl _
  | cons x rest ih =>
    rw [List.filterMap_cons]
    cases hfx : f x with
    | none =>
      exact (List.map_cons _ _ _ ▸ ih.cons (g x))
    | some v =>
      simp only [List.map_cons]
      rw [hf x v hfx]
      exact ih.cons₂ (g x)

/-! ## Required-state dedup lemmas -/

theorem dedup_fold_sound (existing : List (List (Nat × Nat) × Nat))
    (C : Nat → Nat → Prop) (D : Nat → List (Nat × Nat) → Prop) :
    ∀ (entries : List (Nat × RoomSyncConfigIn)) (acc : DedupAcc),
      (∀ rs ∈ acc.roomToStateIds, C rs.1 rs.2) →
      (∀ g ∈ acc.uniqueRequiredState, ∀ rm ∈ g.2, D rm g.1) →
      (∀ rm cfg sid, (rm, cfg) ∈ entries →
        (serializeRequiredState cfg.requiredStateMap, sid) ∈ existing → C rm sid) →
      (∀ rm cfg, (rm, cfg) ∈ entries → D rm (serializeRequiredState cfg.requiredStateMap)) →
      (∀ rs ∈ (entries.foldl (dedupStep existing) acc).roomToStateIds, C rs.1 rs.2) ∧
      (∀ g ∈ (entries.foldl (dedupStep existing) acc).uniqueRequiredState,
        ∀ rm ∈ g.2, D rm g.1) := by
  intro entries
  induction entries with
  | nil => exact fun acc h1 h2 _ _ => ⟨h1, h2⟩
  | cons e rest ih =>
    intro acc h1 h2 hC hD
    simp only [List.foldl_cons]
    refine ih (dedupStep existing acc e) ?_ ?_
      (fun rm cfg sid hm hex => hC rm cfg sid (List.mem_cons_of_mem _ hm) hex)
      (fun rm cfg hm => hD rm cfg (List.mem_cons_of_mem _ hm))
    · intro rs hrs
      simp only [dedupStep] at hrs
      cases hlook : rowLookup existing (serializeRequiredState e.2.requiredStateMap) with
      | some sid =>
        rw [hlook] at hrs
        simp only at hrs
        rcases List.mem_append.mp hrs with h | h
        · exact h1 rs h
        · rcases List.mem_singleton.mp h with rfl
          exact hC e.1 e.2 sid (List.mem_cons_self _ _) (mem_of_rowLookup_eq_some hlook)
      | none =>
        rw [hlook] at hrs
        simp only at hrs
        by_cases hany : acc.uniqueRequiredState.any
            (fun u => decide (u.1 = serializeRequiredState e.2.requiredStateMap)) = true
        · rw [if_pos hany] at hrs
          exact h1 rs hrs
        · rw [if_neg hany] at hrs
          exact h1 rs hrs
    · intro g hg rm hrm
      simp only [dedupStep] at hg
      cases hlook : rowLookup existing (serializeRequiredState e.2.requiredStateMap) with
      | some sid =>
        rw [hlook] at hg
        simp only at hg
        exact h2 g hg rm hrm
      | none =>
        rw [hlook] at hg
        simp only at hg
        by_cases hany : acc.uniqueRequiredState.any
            (fun u => decide (u.1 = serializeRequiredState e.2.requiredStateMap)) = true
        · rw [if_pos hany] at hg
          rcases List.mem_map.mp hg with ⟨u, hu, he⟩
          by_cases hus : u.1 = serializeRequiredState e.2.requiredStateMap
          · rw [if_pos hus] at he
            subst he
            rcases List.mem_append.mp hrm with h | h
            · exact h2 u hu rm h
            · rcases List.mem_singleton.mp h with rfl
              rw [hus]
              exact hD e.1 e.2 (List.mem_cons_self _ _)
          · rw [if_neg hus] at he
            exact h2 g (he ▸ hu) rm hrm
        · rw [if_neg hany] at hg
          rcases List.mem_append.mp hg with h | h
          · exact h2 g h rm hrm
          · rcases List.mem_singleton.mp h with rfl
            rcases List.mem_singleton.mp hrm with rfl
            exact hD e.1 e.2 (List.mem_cons_self _ _)

theorem dedup_fold_mono (existing : List (List (Nat × Nat) × Nat)) :
    ∀ (entries : List (Nat × RoomSyncConfigIn)) (acc : DedupAcc),
      (∀ rs ∈ acc.roomToStateIds,
        rs ∈ (entries.foldl (dedupStep existing) acc).roomToStateIds) ∧
      (∀ g ∈ acc.uniqueRequiredState, ∃ g2 ∈
        (entries.foldl (dedupStep existing) acc).uniqueRequiredState,
        g2.1 = g.1 ∧ ∀ rm ∈ g.2, rm ∈ g2.2) := by
  intro entries
  induction entries with
  | nil =>
    exact fun acc => ⟨fun rs h => h, fun g h => ⟨g, h, rfl, fun rm hm => hm⟩⟩
  | cons e rest ih =>
    intro acc
    simp only [List.foldl_cons]
    constructor
    · intro rs hrs
      refine (ih (dedupStep existing acc e)).1 rs ?_
      simp only [dedupStep]
      cases rowLookup existing (serializeRequiredState e.2.requiredStateMap) with
      | some sid => exact List.mem_append_left _ hrs
      | none =>
        by_cases hany : acc.uniqueRequiredState.any
            (fun u => decide (u.1 = serializeRequiredState e.2.requiredStateMap)) = true
        · simp only [if_pos hany]
          exact hrs
        · simp only [if_neg hany]
          exact hrs
    · intro g hg
      have hstep : ∃ g1 ∈ (dedupStep existing acc e).uniqueRequiredState,
          g1.1 = g.1 ∧ ∀ rm ∈ g.2, rm ∈ g1.2 := by
        simp only [dedupStep]
        cases rowLookup existing (serializeRequiredState e.2.requiredStateMap) with
        | some sid => exact ⟨g, hg, rfl, fun rm hm => hm⟩
        | none =>
          by_cases hany : acc.uniqueRequiredState.any
              (fun u => decide (u.1 = serializeRequiredState e.2.requiredStateMap)) = true
          · simp only [if_pos hany]
            by_cases hus : g.1 = serializeRequiredState e.2.requiredStateMap
            · refine ⟨(g.1, g.2 ++ [e.1]), List.mem_map.mpr ⟨g, hg, by rw [if_pos hus]⟩,
                rfl, fun rm hm => List.mem_append_left _ hm⟩
            · exact ⟨g, List.mem_map.mpr ⟨g, hg, by rw [if_neg hus]⟩, rfl,
                fun rm hm => hm⟩
          · simp only [if_neg hany]
            exact ⟨g, List.mem_append_left _ hg, rfl, fun rm hm => hm⟩
      rcases hstep with ⟨g1, hg1, he1, hsub1⟩
      rcases (ih (dedupStep existing acc e)).2 g1 hg1 with ⟨g2, hg2, he2, hsub2⟩
      exact ⟨g2, hg2, he2.trans he1, fun rm hm => hsub2 rm (hsub1 rm hm)⟩

theorem dedup_fold_complete (existing : List (List (Nat × Nat) × Nat)) :
    ∀ (entries : List (Nat × RoomSyncConfigIn)) (acc : DedupAcc) (rm : Nat)
      (cfg : RoomSyncConfigIn), (rm, cfg) ∈ entries →
      (∃ sid, (rm, sid) ∈ (entries.foldl (dedupStep existing) acc).roomToStateIds) ∨
      (∃ g ∈ (entries.foldl (dedupStep existing) acc).uniqueRequiredState,
        g.1 = serializeRequiredState cfg.requiredStateMap ∧ rm ∈ g.2) := by
  intro entries
  induction entries with
  | nil =>
    intro acc rm cfg h
    cases h
  | cons e rest ih =>
    intro acc rm cfg h
    rcases List.mem_cons.mp h with h | h
    · have he : e = (rm, cfg) := h.symm
      subst he
      simp only [List.foldl_cons]
      cases hlook : rowLookup existing (serializeRequiredState cfg.requiredStateMap) with
      | some sid =>
        left
        refine ⟨sid, (dedup_fold_mono existing rest _).1 _ ?_⟩
        simp only [dedupStep, hlook]
        exact List.mem_append_right _ (List.mem_singleton.mpr rfl)
      | none =>
        right
        by_cases hany : acc.uniqueRequiredState.any
            (fun u => decide (u.1 = serializeRequiredState cfg.requiredStateMap)) = true
        · rcases List.any_eq_true.mp hany with ⟨u, hu, hus0⟩
          have hus : u.1 = serializeRequiredState cfg.requiredStateMap := by
            simpa using hus0
          have hmem : (u.1, u.2 ++ [rm]) ∈
              (dedupStep existing acc (rm, cfg)).uniqueRequiredState := by
            simp only [dedupStep, hlook, if_pos hany]
            exact List.mem_map.mpr ⟨u, hu, by rw [if_pos hus]⟩
          rcases (dedup_fold_mono existing rest
              (dedupStep existing acc (rm, cfg))).2 _ hmem with ⟨g2, hg2, he2, hsub2⟩
          exact ⟨g2, hg2, by rw [he2, hus], hsub2 rm (List.mem_append_right _
            (List.mem_singleton.mpr rfl))⟩
        · have hmem : (serializeRequiredState cfg.requiredStateMap, [rm]) ∈
              (dedupStep existing acc (rm, cfg)).uniqueRequiredState := by
            simp only [dedupStep, hlook, if_neg hany]
            exact List.mem_append_right _ (List.mem_singleton.mpr rfl)
          rcases (dedup_fold_mono existing rest
              (dedupStep existing acc (rm, cfg))).2 _ hmem with ⟨g2, hg2, he2, hsub2⟩
          exact ⟨g2, hg2, he2, hsub2 rm (List.mem_singleton.mpr rfl)⟩
    · exact ih (dedupStep existing acc e) rm cfg h

theorem insertUniqueRequiredState_complete (key : Nat) :
    ∀ (uniq : List (List (Nat × Nat) × List Nat)) (start : Nat)
      (g : List (Nat × Nat) × List Nat) (rm : Nat), g ∈ uniq → rm ∈ g.2 →
      ∃ i, (rm, i) ∈ (insertUniqueRequiredState key start uniq).2.1 ∧
        (i, (key, g.1)) ∈ (insertUniqueRequiredState key start uniq).1 := by
  intro uniq
  induction uniq with
  | nil =>
    intro start g rm hg
    cases hg
  | cons u rest ih =>
    intro start g rm hg hrm
    obtain ⟨s, roomIds⟩ := u
    rcases List.mem_cons.mp hg with h | h
    · subst h
      refine ⟨start, ?_, ?_⟩
      · simp only [insertUniqueRequiredState]
        exact List.mem_append_left _ (List.mem_map.mpr ⟨rm, hrm, rfl⟩)
      · simp only [insertUniqueRequiredState]
        exact List.mem_cons_self _ _
    · rcases ih (start + 1) g rm h hrm with ⟨i, hi1, hi2⟩
      refine ⟨i, ?_, ?_⟩
      · simp only [insertUniqueRequiredState]
        exact List.mem_append_right _ hi1
      · simp only [insertUniqueRequiredState]
        exact List.mem_cons_of_mem _ hi2

theorem insertUniqueRequiredState_sound (key : Nat) :
    ∀ (uniq : List (List (Nat × Nat) × List Nat)) (start : Nat) (rm i : Nat),
      (rm, i) ∈ (insertUniqueRequiredState key start uniq).2.1 →
      ∃ g ∈ uniq, rm ∈ g.2 ∧
        (i, (key, g.1)) ∈ (insertUniqueRequiredState key start uniq).1 := by
  intro uniq
  induction uniq with
  | nil =>
    intro start rm i h
    cases h
  | cons u rest ih =>
    intro start rm i h
    obtain ⟨s, roomIds⟩ := u
    simp only [insertUniqueRequiredState] at h
    rcases List.mem_append.mp h with h | h
    · rcases List.mem_map.mp h with ⟨r, hr, he⟩
      have hrm : rm = r := congrArg (fun x => x.1) he.symm
      have hi : i = start := congrArg (fun x => x.2) he.symm
      subst hrm
      subst hi
      refine ⟨(s, roomIds), List.mem_cons_self _ _, hr, ?_⟩
      simp only [insertUniqueRequiredState]
      exact List.mem_cons_self _ _
    · rcases ih (start + 1) rm i h with ⟨g, hg, hrm, hrow⟩
      refine ⟨g, List.mem_cons_of_mem _ hg, hrm, ?_⟩
      simp only [insertUniqueRequiredState]
      exact List.mem_cons_of_mem _ hrow

/-! ## Connection-state store lemmas -/

theorem except_bind_ok {ε α β : Type} {x : Except ε α} {f : α → Except ε β} {y : β}
    (h : x.bind f = Except.ok y) : ∃ v, x = Except.ok v ∧ f v = Except.ok y := by
  cases x with
  | error e => simp [Except.bind] at h
  | ok v => exact ⟨v, rfl, by simpa [Except.bind] using h⟩

theorem persist_some_shape {db : SSDb} {t : ConnTriple} {p : Nat} {upd : PerConnStateIn}
    {db2 : SSDb} {n : Nat}
    (hok : persistPerConnectionState db t (some p) upd = Except.ok (db2, n)) :
    ∃ key, lookupPositionKey db p t = some key ∧
      db2 = (persistAtKey db key (some p) upd).1 ∧ n = db.nextPosition := by
  unfold persistPerConnectionState at hok
  simp only [Bind.bind, Except.bind, pure] at hok
  cases hl : lookupPositionKey db p t with
  | none =>
    rw [hl] at hok
    simp only at hok
    exact absurd hok (by simp)
  | some key =>
    rw [hl] at hok
    simp only at hok
    have h1 : (persistAtKey db key (some p) upd) = (db2, n) := by injection hok
    refine ⟨key, rfl, ?_, ?_⟩
    · rw [h1]
    · have h2 : (persistAtKey db key (some p) upd).2 = n := by rw [h1]
      exact h2.symm

theorem persistStreamKvs_key_pos {pos : Nat} {upd : PerConnStateIn}
    {kv : (Nat × StreamKind × Nat) × HaveSentRoom}
    (h : kv ∈ persistStreamKvs pos upd) :
    kv.1.1 = pos ∧ kv.1.2.2 ∈ upd.mentionedRooms := by
  unfold persistStreamKvs at h
  rcases List.mem_append.mp h with h | h
  · rcases List.mem_map.mp h with ⟨ru, hru, he⟩
    refine ⟨by rw [← he], ?_⟩
    rw [← he]
    simp only [PerConnStateIn.mentionedRooms, List.mem_append, List.mem_map]
    exact Or.inl (Or.inl ⟨ru, hru, rfl⟩)
  · rcases List.mem_map.mp h with ⟨ru, hru, he⟩
    refine ⟨by rw [← he], ?_⟩
    rw [← he]
    simp only [PerConnStateIn.mentionedRooms, List.mem_append, List.mem_map]
    exact Or.inl (Or.inr ⟨ru, hru, rfl⟩)

theorem persistConfigKvs_key_pos {pos : Nat} {upd : PerConnStateIn}
    {rts : List (Nat × Nat)} {kv : (Nat × Nat) × (Nat × Nat)}
    (h : kv ∈ persistConfigKvs pos upd rts) :
    kv.1.1 = pos ∧ kv.1.2 ∈ upd.mentionedRooms := by
  unfold persistConfigKvs at h
  rcases List.mem_filterMap.mp h with ⟨rc, hrc, he⟩
  cases hlook : rowLookup rts rc.1 with
  | none => rw [hlook] at he; cases he
  | some sid =>
    rw [hlook] at he
    simp only [Option.map] at he
    have hkv : ((pos, rc.1), (rc.2.timelineLimit, sid)) = kv := Option.some.inj he
    subst hkv
    refine ⟨rfl, ?_⟩
    simp only [PerConnStateIn.mentionedRooms, List.mem_append, List.mem_map]
    exact Or.inr ⟨rc, hrc, rfl⟩

theorem persistStreamKvs_keys_nodup (pos : Nat) (upd : PerConnStateIn)
    (h1 : (upd.rooms.map (fun r => r.1)).Nodup)
    (h2 : (upd.receipts.map (fun r => r.1)).Nodup) :
    ((persistStreamKvs pos upd).map (fun r => r.1)).Nodup := by
  unfold persistStreamKvs
  rw [List.map_append, List.nodup_append]
  refine ⟨?_, ?_, ?_⟩
  · rw [List.map_map]
    have he : ((fun (r : (Nat × StreamKind × Nat) × HaveSentRoom) => r.1) ∘
        (fun (ru : Nat × HaveSentRoom) => ((pos, StreamKind.rooms, ru.1), ru.2))) =
        (fun (x : Nat) => (pos, StreamKind.rooms, x)) ∘ (fun ru => ru.1) := rfl
    rw [he, ← List.map_map]
    refine List.Nodup.map ?_ h1
    intro a b hab
    exact congrArg (fun (x : Nat × StreamKind × Nat) => x.2.2) hab
  · rw [List.map_map]
    have he : ((fun (r : (Nat × StreamKind × Nat) × HaveSentRoom) => r.1) ∘
        (fun (ru : Nat × HaveSentRoom) => ((pos, StreamKind.receipts, ru.1), ru.2))) =
        (fun (x : Nat) => (pos, StreamKind.receipts, x)) ∘ (fun ru => ru.1) := rfl
    rw [he, ← List.map_map]
    refine List.Nodup.map ?_ h2
    intro a b hab
    exact congrArg (fun (x : Nat × StreamKind × Nat) => x.2.2) hab
  · intro a ha hb
    rcases List.mem_map.mp ha with ⟨x, hx, hxa⟩
    rcases List.mem_map.mp hx with ⟨ru, _, hru⟩
    rcases List.mem_map.mp hb with ⟨y, hy, hya⟩
    rcases List.mem_map.mp hy with ⟨rv, _, hrv⟩
    have ha2 : a.2.1 = StreamKind.rooms := by rw [← hxa, ← hru]
    have hb2 : a.2.1 = StreamKind.receipts := by rw [← hya, ← hrv]
    rw [ha2] at hb2
    cases hb2

theorem persistConfigKvs_keys_nodup (pos : Nat) (upd : PerConnStateIn)
    (rts : List (Nat × Nat))
    (h : (upd.roomConfigs.map (fun r => r.1)).Nodup) :
    ((persistConfigKvs pos upd rts).map (fun r => r.1)).Nodup := by
  have hsub : ((persistConfigKvs pos upd rts).map (fun r => r.1)).Sublist
      (upd.roomConfigs.map (fun rc => (pos, rc.1))) := by
    refine filterMap_keys_sublist _ _ ?_ _
    intro rc v hv
    cases hlook : rowLookup rts rc.1 with
    | none => rw [hlook] at hv; cases hv
    | some sid =>
      rw [hlook] at hv
      simp only [Option.map] at hv
      rw [← Option.some.inj hv]
  refine hsub.nodup ?_
  have he : (fun (rc : Nat × RoomSyncConfigIn) => ((pos, rc.1) : Nat × Nat)) =
      (fun (x : Nat) => (pos, x)) ∘ (fun rc => rc.1) := rfl
  rw [he, ← List.map_map]
  refine List.Nodup.map ?_ h
  intro a b hab
  exact congrArg (fun (x : Nat × Nat) => x.2) hab

theorem requiredStateToId_mem {db : SSDb} {key : Nat} {s : List (Nat × Nat)} {sid : Nat}
    (h : (s, sid) ∈ requiredStateToId db key) :
    (sid, (key, s)) ∈ db.requiredStateRows := by
  unfold requiredStateToId at h
  rcases List.mem_map.mp h with ⟨row, hrow, he⟩
  have hkey : row.2.1 = key := by
    have := List.of_mem_filter hrow
    simpa using this
  have h1 : row.2.2 = s := congrArg (fun x => x.1) he
  have h2 : row.1 = sid := congrArg (fun x => x.2) he
  have hrow2 : row ∈ db.requiredStateRows := List.mem_of_mem_filter hrow
  have : row = (sid, (key, s)) := by
    obtain ⟨a, b, c⟩ := row
    simp only at hkey h1 h2
    rw [hkey, h1, h2]
  rw [← this]
  exact hrow2

/-- Every room of the caller's room configs is assigned a blob id whose
stored content is the canonical serialization of that room's required-state
map. -/
theorem persistRequiredState_assigns (db : SSDb) (key : Nat)
    (existing : List (List (Nat × Nat) × Nat)) (upd : PerConnStateIn)
    (hnd : (upd.roomConfigs.map (fun r => r.1)).Nodup)
    (hex : ∀ s sid, (s, sid) ∈ existing → (sid, (key, s)) ∈ db.requiredStateRows)
    {r : Nat} {cfg : RoomSyncConfigIn} (hmem : (r, cfg) ∈ upd.roomConfigs) :
    ∃ sid, rowLookup (persistRequiredState db key existing upd).2.1 r = some sid ∧
      (sid, (key, serializeRequiredState cfg.requiredStateMap)) ∈
        db.requiredStateRows ++ (persistRequiredState db key existing upd).1 := by
  have hsome : (rowLookup (persistRequiredState db key existing upd).2.1 r).isSome := by
    rcases dedup_fold_complete existing upd.roomConfigs ⟨[], []⟩ r cfg hmem with
      ⟨sid, hsid⟩ | ⟨g, hg, _, hrm⟩
    · exact rowLookup_isSome_of_mem (List.mem_append_left _ hsid)
    · rcases insertUniqueRequiredState_complete key _ db.nextRequiredStateId g r hg hrm
        with ⟨i, hi, _⟩
      exact rowLookup_isSome_of_mem (List.mem_append_right _ hi)
  rcases Option.isSome_iff_exists.mp hsome with ⟨sid, hlook⟩
  refine ⟨sid, hlook, ?_⟩
  have hmemrts := mem_of_rowLookup_eq_some hlook
  have hsound := dedup_fold_sound existing
    (fun rm sid2 => ∃ cfg2, (rm, cfg2) ∈ upd.roomConfigs ∧
      (serializeRequiredState cfg2.requiredStateMap, sid2) ∈ existing)
    (fun rm s => ∃ cfg2, (rm, cfg2) ∈ upd.roomConfigs ∧
      serializeRequiredState cfg2.requiredStateMap = s)
    upd.roomConfigs ⟨[], []⟩ (by intro rs h; cases h) (by intro g h; cases h)
    (fun rm cfg2 sid2 hm he => ⟨cfg2, hm, he⟩)
    (fun rm cfg2 hm => ⟨cfg2, hm, rfl⟩)
  rcases List.mem_append.mp hmemrts with hacc | hins
  · rcases hsound.1 _ hacc with ⟨cfg2, hmem2, hex2⟩
    have : cfg2 = cfg := assoc_value_unique hnd hmem2 hmem
    subst this
    exact List.mem_append_left _ (hex _ _ hex2)
  · rcases insertUniqueRequiredState_sound key _ db.nextRequiredStateId r sid hins with
      ⟨g, hg, hrm, hrow⟩
    rcases hsound.2 g hg r hrm with ⟨cfg2, hmem2, heq⟩
    have : cfg2 = cfg := assoc_value_unique hnd hmem2 hmem
    subst this
    rw [heq]
    exact List.mem_append_right _ hrow

theorem copyStreamRows_pos {rows : List ((Nat × StreamKind × Nat) × HaveSentRoom)}
    {p n : Nat} {row : (Nat × StreamKind × Nat) × HaveSentRoom}
    (h : row ∈ copyStreamRows rows p n) : row.1.1 = n := by
  unfold copyStreamRows at h
  rcases List.mem_map.mp h with ⟨x, _, he⟩
  rw [← he]

theorem copyConfigRows_pos {rows : List ((Nat × Nat) × (Nat × Nat))}
    {p n : Nat} {row : (Nat × Nat) × (Nat × Nat)}
    (h : row ∈ copyConfigRows rows p n) : row.1.1 = n := by
  unfold copyConfigRows at h
  rcases List.mem_map.mp h with ⟨x, _, he⟩
  rw [← he]

/-- Full analysis of one valid write: the new position is the generator
value, wellformedness is preserved, rows of unmentioned rooms are copied
forward unchanged, and mentioned rooms carry the upserted values. -/
theorem persist_frame_core (db : SSDb) (t : ConnTriple) (p : Nat)
    (upd : PerConnStateIn) {db2 : SSDb} {n : Nat}
    (hwf : db.wf)
    (h1 : (upd.rooms.map (fun r => r.1)).Nodup)
    (h2 : (upd.receipts.map (fun r => r.1)).Nodup)
    (h3 : (upd.roomConfigs.map (fun r => r.1)).Nodup)
    (hok : persistPerConnectionState db t (some p) upd = Except.ok (db2, n)) :
    n = db.nextPosition ∧ db2.wf ∧
    (∀ k r, r ∉ upd.mentionedRooms → db2.streamRow n k r = db.streamRow p k r) ∧
    (∀ r, r ∉ upd.mentionedRooms → db2.configRow n r = db.configRow p r) ∧
    (∀ r hs, (r, hs) ∈ upd.rooms → db2.streamRow n StreamKind.rooms r = some hs) ∧
    (∀ r hs, (r, hs) ∈ upd.receipts →
      db2.streamRow n StreamKind.receipts r = some hs) ∧
    (∀ r cfg, (r, cfg) ∈ upd.roomConfigs → ∃ sid,
      db2.configRow n r = some (cfg.timelineLimit, sid) ∧
      ∃ key2, (sid, (key2, serializeRequiredState cfg.requiredStateMap)) ∈
        db2.requiredStateRows) := by
  obtain ⟨key, hkey, hdb2, hn⟩ := persist_some_shape hok
  subst hdb2
  subst hn
  have hstream : (persistAtKey db key (some p) upd).1.streamRows =
      upsertRows (db.streamRows ++ copyStreamRows db.streamRows p db.nextPosition)
        (persistStreamKvs db.nextPosition upd) := rfl
  have hconfig : (persistAtKey db key (some p) upd).1.roomConfigRows =
      upsertRows (db.roomConfigRows ++ copyConfigRows db.roomConfigRows p db.nextPosition)
        (persistConfigKvs db.nextPosition upd
          (persistRequiredState db key (requiredStateToId db key) upd).2.1) := rfl
  have hreq : (persistAtKey db key (some p) upd).1.requiredStateRows =
      db.requiredStateRows ++
        (persistRequiredState db key (requiredStateToId db key) upd).1 := rfl
  have hpos : (persistAtKey db key (some p) upd).1.positions =
      db.positions ++ [(db.nextPosition, key)] := rfl
  have hnext : (persistAtKey db key (some p) upd).1.nextPosition =
      db.nextPosition + 1 := rfl
  refine ⟨rfl, ?_, ?_, ?_, ?_, ?_, ?_⟩
  · -- Wellformedness is preserved.
    refine ⟨?_, ?_, ?_, ?_⟩
    · intro q hq
      rw [hnext]
      rw [hpos] at hq
      rcases List.mem_append.mp hq with h | h
      · exact Nat.lt_trans (hwf.1 q h) (Nat.lt_succ_self _)
      · rcases List.mem_singleton.mp h with rfl
        exact Nat.lt_succ_self _
    · intro row hrow
      rw [hnext]
      rw [hstream] at hrow
      rcases mem_upsertRows hrow with h | ⟨kv, hkv, he⟩
      · rcases List.mem_append.mp h with h | h
        · exact Nat.lt_trans (hwf.2.1 row h) (Nat.lt_succ_self _)
        · rw [copyStreamRows_pos h]
          exact Nat.lt_succ_self _
      · rw [he, (persistStreamKvs_key_pos hkv).1]
        exact Nat.lt_succ_self _
    · intro row hrow
      rw [hnext]
      rw [hconfig] at hrow
      rcases mem_upsertRows hrow with h | ⟨kv, hkv, he⟩
      · rcases List.mem_append.mp h with h | h
        · exact Nat.lt_trans (hwf.2.2.1 row h) (Nat.lt_succ_self _)
        · rw [copyConfigRows_pos h]
          exact Nat.lt_succ_self _
      · rw [he, (persistConfigKvs_key_pos hkv).1]
        exact Nat.lt_succ_self _
    · rw [hpos, List.map_append, List.nodup_append]
      refine ⟨hwf.2.2.2, List.nodup_singleton _, ?_⟩
      intro q hq hq2
      rcases List.mem_map.mp hq with ⟨x, hx, he⟩
      rcases List.mem_singleton.mp hq2 with rfl
      exact absurd (he ▸ hwf.1 x hx) (lt_irrefl _)
  · -- Frame: stream rows of unmentioned rooms are the previous position's.
    intro k r hr
    unfold SSDb.streamRow
    rw [hstream]
    rw [upsertRows_lookup_not_mem]
    · rw [rowLookup_append]
      have hnone : rowLookup db.streamRows (db.nextPosition, k, r) = none := by
        refine rowLookup_eq_none_of_forall ?_
        intro row hrow he
        have hlt := hwf.2.1 row hrow
        rw [he] at hlt
        exact absurd hlt (lt_irrefl _)
      rw [hnone, Option.none_or]
      exact copyStreamRows_lookup db.streamRows p db.nextPosition k r
    · intro kv hkv he
      rcases persistStreamKvs_key_pos hkv with ⟨_, hmem⟩
      rw [he] at hmem
      exact hr hmem
  · -- Frame: config rows of unmentioned rooms are the previous position's.
    intro r hr
    unfold SSDb.configRow
    rw [hconfig]
    rw [upsertRows_lookup_not_mem]
    · rw [rowLookup_append]
      have hnone : rowLookup db.roomConfigRows (db.nextPosition, r) = none := by
        refine rowLookup_eq_none_of_forall ?_
        intro row hrow he
        have hlt := hwf.2.2.1 row hrow
        rw [he] at hlt
        exact absurd hlt (lt_irrefl _)
      rw [hnone, Option.none_or]
      exact copyConfigRows_lookup db.roomConfigRows p db.nextPosition r
    · intro kv hkv he
      rcases persistConfigKvs_key_pos hkv with ⟨_, hmem⟩
      rw [he] at hmem
      exact hr hmem
  · -- Upserted rooms stream values.
    intro r hs hmem
    unfold SSDb.streamRow
    rw [hstream]
    refine upsertRows_lookup_mem _ (persistStreamKvs_keys_nodup _ _ h1 h2) ?_
    unfold persistStreamKvs
    exact List.mem_append_left _ (List.mem_map.mpr ⟨(r, hs), hmem, rfl⟩)
  · -- Upserted receipts stream values.
    intro r hs hmem
    unfold SSDb.streamRow
    rw [hstream]
    refine upsertRows_lookup_mem _ (persistStreamKvs_keys_nodup _ _ h1 h2) ?_
    unfold persistStreamKvs
    exact List.mem_append_right _ (List.mem_map.mpr ⟨(r, hs), hmem, rfl⟩)
  · -- Upserted room configs, with the blob holding the serialized content.
    intro r cfg hmem
    obtain ⟨sid, hlook, hblob⟩ := persistRequiredState_assigns db key
      (requiredStateToId db key) upd h3
      (fun s sid h => requiredStateToId_mem h) hmem
    refine ⟨sid, ?_, key, ?_⟩
    · unfold SSDb.configRow
      rw [hconfig]
      refine upsertRows_lookup_mem _ (persistConfigKvs_keys_nodup _ _ _ h3) ?_
      unfold persistConfigKvs
      refine List.mem_filterMap.mpr ⟨(r, cfg), hmem, ?_⟩
      rw [hlook]
      rfl
    · rw [hreq]
      exact hblob

/-! ## Claim C4: copy-forward frame property of the write path -/

/-- Claim C4: when `PersistPerConnectionState` is called with a valid
previous position P, every per-room stream row and room-config row of P
whose room is not mentioned in the update set is present at the new
position with identical contents, rooms mentioned in the update carry the
upserted values (for configs: the caller's timeline limit plus a blob id
holding the canonical serialization of the caller's required-state map), and
a second sequential call with unrelated room updates yields a position whose
unmentioned rooms and configs equal the first new position's.  The update
sets are keyed dictionaries in the source, hence the duplicate-free key
hypotheses. -/
theorem persist_copy_forward_and_upsert (db : SSDb) (t : ConnTriple) (p : Nat)
    (upd : PerConnStateIn) (db2 : SSDb) (n : Nat)
    (hwf : db.wf)
    (h1 : (upd.rooms.map (fun r => r.1)).Nodup)
    (h2 : (upd.receipts.map (fun r => r.1)).Nodup)
    (h3 : (upd.roomConfigs.map (fun r => r.1)).Nodup)
    (hok : persistPerConnectionState db t (some p) upd = Except.ok (db2, n)) :
    (∀ k r, r ∉ upd.mentionedRooms → db2.streamRow n k r = db.streamRow p k r) ∧
    (∀ r, r ∉ upd.mentionedRooms → db2.configRow n r = db.configRow p r) ∧
    (∀ r hs, (r, hs) ∈ upd.rooms → db2.streamRow n StreamKind.rooms r = some hs) ∧
    (∀ r hs, (r, hs) ∈ upd.receipts →
      db2.streamRow n StreamKind.receipts r = some hs) ∧
    (∀ r cfg, (r, cfg) ∈ upd.roomConfigs → ∃ sid,
      db2.configRow n r = some (cfg.timelineLimit, sid) ∧
      ∃ key2, (sid, (key2, serializeRequiredState cfg.requiredStateMap)) ∈
        db2.requiredStateRows) ∧
    (∀ (upd2 : PerConnStateIn) (db3 : SSDb) (n2 : Nat),
      (upd2.rooms.map (fun r => r.1)).Nodup →
      (upd2.receipts.map (fun r => r.1)).Nodup →
      (upd2.roomConfigs.map (fun r => r.1)).Nodup →
      persistPerConnectionState db2 t (some n) upd2 = Except.ok (db3, n2) →
      ∀ k r, r ∉ upd2.mentionedRooms →
        db3.streamRow n2 k r = db2.streamRow n k r ∧
        db3.configRow n2 r = db2.configRow n r) := by
  obtain ⟨hn, hwf2, hf1, hf2, hu1, hu2, hu3⟩ :=
    persist_frame_core db t p upd hwf h1 h2 h3 hok
  refine ⟨hf1, hf2, hu1, hu2, hu3, ?_⟩
  intro upd2 db3 n2 g1 g2 g3 hok2 k r hr
  obtain ⟨_, _, hf1b, hf2b, _, _, _⟩ :=
    persist_frame_core db2 t n upd2 hwf2 g1 g2 g3 hok2
  exact ⟨hf1b k r hr, hf2b r hr⟩

/-- Witness for claim C4: one connection with position 0 holding a stream row
and a config row for room 5; an update mentioning only room 6 copies room 5
forward into position 1 unchanged and upserts room 6. -/
theorem persist_copy_forward_and_upsert_witness :
    (persistPerConnectionState
        ⟨1, 1, 1, [(0, ⟨1, 2, 3⟩)], [(0, 0)], [(0, (0, [(1, 1)]))],
          [((0, StreamKind.rooms, 5), ⟨SentFlag.live, some 3⟩)], [((0, 5), (10, 0))]⟩
        ⟨1, 2, 3⟩ (some 0)
        ⟨[(6, ⟨SentFlag.live, some 4⟩)], [], [(6, ⟨15, [(1, [1])]⟩)]⟩ =
      Except.ok
        (⟨1, 2, 1, [(0, ⟨1, 2, 3⟩)], [(0, 0), (1, 0)], [(0, (0, [(1, 1)]))],
          [((0, StreamKind.rooms, 5), ⟨SentFlag.live, some 3⟩),
           ((1, StreamKind.rooms, 5), ⟨SentFlag.live, some 3⟩),
           ((1, StreamKind.rooms, 6), ⟨SentFlag.live, some 4⟩)],
          [((0, 5), (10, 0)), ((1, 5), (10, 0)), ((1, 6), (15, 0))]⟩, 1)) ∧
    SSDb.streamRow
        ⟨1, 2, 1, [(0, ⟨1, 2, 3⟩)], [(0, 0), (1, 0)], [(0, (0, [(1, 1)]))],
          [((0, StreamKind.rooms, 5), ⟨SentFlag.live, some 3⟩),
           ((1, StreamKind.rooms, 5), ⟨SentFlag.live, some 3⟩),
           ((1, StreamKind.rooms, 6), ⟨SentFlag.live, some 4⟩)],
          [((0, 5), (10, 0)), ((1, 5), (10, 0)), ((1, 6), (15, 0))]⟩
        1 StreamKind.rooms 5 =
      SSDb.streamRow
        ⟨1, 1, 1, [(0, ⟨1, 2, 3⟩)], [(0, 0)], [(0, (0, [(1, 1)]))],
          [((0, StreamKind.rooms, 5), ⟨SentFlag.live, some 3⟩)], [((0, 5), (10, 0))]⟩
        0 StreamKind.rooms 5 := by
  refine ⟨by rfl, ?_⟩
  have h := persist_copy_forward_and_upsert
    ⟨1, 1, 1, [(0, ⟨1, 2, 3⟩)], [(0, 0)], [(0, (0, [(1, 1)]))],
      [((0, StreamKind.rooms, 5), ⟨SentFlag.live, some 3⟩)], [((0, 5), (10, 0))]⟩
    ⟨1, 2, 3⟩ 0
    ⟨[(6, ⟨SentFlag.live, some 4⟩)], [], [(6, ⟨15, [(1, [1])]⟩)]⟩
    ⟨1, 2, 1, [(0, ⟨1, 2, 3⟩)], [(0, 0), (1, 0)], [(0, (0, [(1, 1)]))],
      [((0, StreamKind.rooms, 5), ⟨SentFlag.live, some 3⟩),
       ((1, StreamKind.rooms, 5), ⟨SentFlag.live, some 3⟩),
       ((1, StreamKind.rooms, 6), ⟨SentFlag.live, some 4⟩)],
      [((0, 5), (10, 0)), ((1, 5), (10, 0)), ((1, 6), (15, 0))]⟩ 1
    (by decide) (by decide) (by decide) (by decide) (by rfl)
  exact h.1 StreamKind.rooms 5 (by decide)

/-! ## Claims C5 and C6: read-path compaction -/

theorem get_some_shape {db : SSDb} {t : ConnTriple} {pos : Nat} {db2 : SSDb}
    {out : PerConnStateOut}
    (hok : getPerConnectionState db t pos = Except.ok (db2, out)) :
    ∃ key, lookupPositionKey db pos t = some key ∧
      db2 = compactPositions db key pos := by
  unfold getPerConnectionState at hok
  split at hok
  · exact absurd hok (by simp)
  next key hl =>
    simp only at hok
    split at hok
    · exact absurd hok (by simp)
    next roomConfigs hrc =>
      refine ⟨key, hl, ?_⟩
      have h1 := Except.ok.inj hok
      exact (congrArg (fun x => x.1) h1).symm

theorem lookupPositionKey_inv {db : SSDb} {t : ConnTriple} {p key : Nat}
    (h : lookupPositionKey db p t = some key) :
    rowLookup db.positions p = some key ∧ rowLookup db.connections key = some t := by
  unfold lookupPositionKey at h
  cases h1 : rowLookup db.positions p with
  | none => rw [h1] at h; cases h
  | some k1 =>
    rw [h1] at h
    simp only at h
    cases h2 : rowLookup db.connections k1 with
    | none => rw [h2] at h; simp at h
    | some trip =>
      rw [h2] at h
      simp only at h
      by_cases h3 : trip = t
      · rw [if_pos h3] at h
        have hk := Option.some.inj h
        rw [hk, h3] at h2
        exact ⟨by rw [hk], h2⟩
      · rw [if_neg h3] at h
        cases h

theorem lookupPositionKey_eq_none {db : SSDb} (t : ConnTriple) {q : Nat}
    (h : rowLookup db.positions q = none) : lookupPositionKey db q t = none := by
  unfold lookupPositionKey
  rw [h]

theorem get_error_of_no_position {db : SSDb} {t : ConnTriple} {q : Nat}
    (h : lookupPositionKey db q t = none) :
    getPerConnectionState db t q = Except.error SSError.unknownPosition := by
  unfold getPerConnectionState
  rw [h]

/-- Claim C5: a successful `GetPerConnectionState` on position P leaves P as
the only position stored under P's connection key, and a subsequent call
naming any other (hence any older, now-deleted) position that the key held
fails with UnknownPosition. -/
theorem compact_filter_spec {key pos : Nat} {row : Nat × Nat}
    (h : (!(decide (row.2 = key) && !(decide (row.1 = pos)))) = true) :
    row.2 = key → row.1 = pos := by
  intro hk
  by_cases hp : row.1 = pos
  · exact hp
  · exfalso
    simp [hk, hp] at h

theorem get_compaction_single_position (db : SSDb) (t : ConnTriple) (p : Nat)
    (db2 : SSDb) (out : PerConnStateOut) (key : Nat)
    (hwf : db.wf)
    (hok : getPerConnectionState db t p = Except.ok (db2, out))
    (hkey : lookupPositionKey db p t = some key) :
    (∀ q, q ∈ db2.positionsOfKey key ↔ q = p) ∧
    (∀ q, q ≠ p → (q, key) ∈ db.positions →
      getPerConnectionState db2 t q = Except.error SSError.unknownPosition) := by
  obtain ⟨key2, hkey2, hdb2⟩ := get_some_shape hok
  rw [hkey] at hkey2
  have hk : key = key2 := Option.some.inj hkey2
  subst hk
  subst hdb2
  have hpmem : (p, key) ∈ db.positions :=
    mem_of_rowLookup_eq_some (lookupPositionKey_inv hkey).1
  constructor
  · intro q
    constructor
    · intro hq
      unfold SSDb.positionsOfKey at hq
      rcases List.mem_map.mp hq with ⟨row, hrow, he⟩
      have h2 : row ∈ (compactPositions db key p).positions :=
        List.mem_of_mem_filter hrow
      unfold compactPositions at h2
      have h3 := List.of_mem_filter h2
      have h1 := List.of_mem_filter hrow
      simp only [decide_eq_true_eq] at h1
      rw [← he]
      exact compact_filter_spec h3 h1
    · intro hq
      subst hq
      unfold SSDb.positionsOfKey
      refine List.mem_map.mpr ⟨(q, key), ?_, rfl⟩
      refine List.mem_filter.mpr ⟨?_, by simp⟩
      unfold compactPositions
      refine List.mem_filter.mpr ⟨hpmem, by simp⟩
  · intro q hne hqmem
    refine get_error_of_no_position (lookupPositionKey_eq_none t ?_)
    refine rowLookup_eq_none_of_forall ?_
    intro row hrow he
    unfold compactPositions at hrow
    have h3 := List.of_mem_filter hrow
    have hrowdb : row ∈ db.positions := List.mem_of_mem_filter hrow
    have hrow2 : row.2 = key := by
      have hmemq : (q, row.2) ∈ db.positions := by
        have hre : row = (q, row.2) := by
          obtain ⟨a, b⟩ := row
          simp only at he
          rw [he]
        exact hre ▸ hrowdb
      exact assoc_value_unique hwf.2.2.2 hmemq hqmem
    have hqp : row.1 = p := compact_filter_spec h3 hrow2
    rw [he] at hqp
    exact hne hqp

/-- Witness for claim C5: a key with positions 0 and 1; reading position 1
compacts the key down to position 1 and a read of position 0 then fails. -/
theorem get_compaction_single_position_witness :
    (∀ q, q ∈ SSDb.positionsOfKey
        ⟨1, 2, 0, [(0, ⟨1, 2, 3⟩)], [(1, 0)], [],
          [((1, StreamKind.rooms, 7), ⟨SentFlag.live, some 2⟩)], []⟩ 0 ↔ q = 1) ∧
    (∀ q, q ≠ 1 → (q, 0) ∈
        (⟨1, 2, 0, [(0, ⟨1, 2, 3⟩)], [(0, 0), (1, 0)], [],
          [((1, StreamKind.rooms, 7), ⟨SentFlag.live, some 2⟩)], []⟩ : SSDb).positions →
      getPerConnectionState
        ⟨1, 2, 0, [(0, ⟨1, 2, 3⟩)], [(1, 0)], [],
          [((1, StreamKind.rooms, 7), ⟨SentFlag.live, some 2⟩)], []⟩ ⟨1, 2, 3⟩ q =
        Except.error SSError.unknownPosition) :=
  get_compaction_single_position
    ⟨1, 2, 0, [(0, ⟨1, 2, 3⟩)], [(0, 0), (1, 0)], [],
      [((1, StreamKind.rooms, 7), ⟨SentFlag.live, some 2⟩)], []⟩ ⟨1, 2, 3⟩ 1
    ⟨1, 2, 0, [(0, ⟨1, 2, 3⟩)], [(1, 0)], [],
      [((1, StreamKind.rooms, 7), ⟨SentFlag.live, some 2⟩)], []⟩
    ⟨[(7, ⟨SentFlag.live, some 2⟩)], [], []⟩ 0
    (by decide) (by rfl) (by rfl)

/-- Counterexample to claim C6 as stated: the compaction delete of the read
path removes positions *newer* than the validated one as well.  With
positions 1 and 2 under one key, reading position 1 leaves only position 1:
position 2, strictly newer, is deleted. -/
theorem get_compaction_deletes_newer_counterexample :
    ((getPerConnectionState
        ⟨1, 3, 0, [(0, ⟨1, 2, 3⟩)], [(1, 0), (2, 0)], [], [], []⟩
        ⟨1, 2, 3⟩ 1).toOption.map (fun x => x.1.positions)) = some [(1, 0)] ∧
    ((2, 0) ∈ (⟨1, 3, 0, [(0, ⟨1, 2, 3⟩)], [(1, 0), (2, 0)], [], [], []⟩ :
      SSDb).positions) ∧ (1 : Nat) < 2 := by
  refine ⟨by rfl, by decide, by decide⟩

/-- Amended claim C6: the compaction delete removes *every* position under
the validated position's key other than the validated one -- older and newer
alike (the DELETE has no ordering constraint); in particular a position
strictly newer than the validated one is deleted too. -/
theorem get_compaction_deletes_all_siblings (db : SSDb) (t : ConnTriple) (p : Nat)
    (db2 : SSDb) (out : PerConnStateOut) (key : Nat)
    (hok : getPerConnectionState db t p = Except.ok (db2, out))
    (hkey : lookupPositionKey db p t = some key) :
    ∀ q, (q, key) ∈ db.positions → q ≠ p → (q, key) ∉ db2.positions := by
  obtain ⟨key2, hkey2, hdb2⟩ := get_some_shape hok
  rw [hkey] at hkey2
  have hk : key = key2 := Option.some.inj hkey2
  subst hk
  subst hdb2
  intro q hq hne hmem
  unfold compactPositions at hmem
  have h3 := List.of_mem_filter hmem
  exact hne (compact_filter_spec h3 rfl)

/-- Witness for the amended claim C6: reading position 1 deletes the newer
sibling position 2. -/
theorem get_compaction_deletes_all_siblings_witness :
    (2, 0) ∉ (⟨1, 3, 0, [(0, ⟨1, 2, 3⟩)], [(1, 0)], [], [], []⟩ : SSDb).positions :=
  get_compaction_deletes_all_siblings
    ⟨1, 3, 0, [(0, ⟨1, 2, 3⟩)], [(1, 0), (2, 0)], [], [], []⟩ ⟨1, 2, 3⟩ 1
    ⟨1, 3, 0, [(0, ⟨1, 2, 3⟩)], [(1, 0)], [], [], []⟩ ⟨[], [], []⟩ 0
    (by rfl) (by rfl) 2 (by decide) (by decide)

/-! ## Worklist-closure lemmas -/

theorem closureAux_visited_subset (step : Nat → List Nat) :
    ∀ (fuel : Nat) (visited frontier : List Nat),
      visited ⊆ closureAux step fuel visited frontier := by
  intro fuel
  induction fuel with
  | zero =>
    intro visited frontier a ha
    exact ha
  | succ fuel ih =>
    intro visited frontier a ha
    cases frontier with
    | nil => exact ha
    | cons x rest =>
      exact ih _ _ (List.mem_append_left _ ha)

theorem closureAux_sound (step : Nat → List Nat) (P : Nat → Prop)
    (hstep : ∀ x y, P x → y ∈ step x → P y) :
    ∀ (fuel : Nat) (visited frontier : List Nat),
      (∀ v ∈ visited, P v) → (∀ v ∈ frontier, P v) →
      ∀ y ∈ closureAux step fuel visited frontier, P y := by
  intro fuel
  induction fuel with
  | zero =>
    intro visited frontier hv _ y hy
    exact hv y hy
  | succ fuel ih =>
    intro visited frontier hv hf y hy
    cases frontier with
    | nil => exact hv y hy
    | cons x rest =>
      refine ih _ _ ?_ ?_ y hy
      · intro v hvmem
        rcases List.mem_append.mp hvmem with h | h
        · exact hv v h
        · have hvstep : v ∈ step x :=
            List.mem_of_mem_filter (List.mem_dedup.mp h)
          exact hstep x v (hf x (List.mem_cons_self _ _)) hvstep
      · intro v hvmem
        rcases List.mem_append.mp hvmem with h | h
        · exact hf v (List.mem_cons_of_mem _ h)
        · have hvstep : v ∈ step x :=
            List.mem_of_mem_filter (List.mem_dedup.mp h)
          exact hstep x v (hf x (List.mem_cons_self _ _)) hvstep

theorem closureAux_closed (step : Nat → List Nat) (U : List Nat)
    (hU : ∀ x y, y ∈ step x → y ∈ U) :
    ∀ (fuel : Nat) (visited frontier : List Nat),
      ClosureInv step visited frontier →
      frontier.length +
        (U.dedup.filter (fun u => !(decide (u ∈ visited)))).length ≤ fuel →
      ∀ x ∈ closureAux step fuel visited frontier,
        ∀ y ∈ step x, y ∈ closureAux step fuel visited frontier := by
  intro fuel
  induction fuel with
  | zero =>
    intro visited frontier hinv hfuel x hx y hy
    have hf : frontier = [] :=
      List.length_eq_zero.mp (Nat.le_zero.mp
        (le_trans (Nat.le_add_right _ _) hfuel))
    subst hf
    rcases hinv x hx with h | h
    · cases h
    · exact h y hy
  | succ fuel ih =>
    intro visited frontier hinv hfuel x hx y hy
    cases frontier with
    | nil =>
      rcases hinv x hx with h | h
      · cases h
      · exact h y hy
    | cons z rest =>
      show y ∈ closureAux step fuel
        (visited ++ ((step z).filter (fun w => !(decide (w ∈ visited)))).dedup)
        (rest ++ ((step z).filter (fun w => !(decide (w ∈ visited)))).dedup)
      have hx2 : x ∈ closureAux step fuel
          (visited ++ ((step z).filter (fun w => !(decide (w ∈ visited)))).dedup)
          (rest ++ ((step z).filter (fun w => !(decide (w ∈ visited)))).dedup) := hx
      refine ih _ _ ?_ ?_ x hx2 y hy
      · -- The invariant is preserved by expanding one frontier node.
        intro v hv
        rcases List.mem_append.mp hv with h | h
        · rcases hinv v h with h2 | h2
          · rcases List.mem_cons.mp h2 with h3 | h3
            · subst h3
              right
              intro w hw
              by_cases hwv : w ∈ visited
              · exact List.mem_append_left _ hwv
              · refine List.mem_append_right _ ?_
                exact List.mem_dedup.mpr
                  (List.mem_filter.mpr ⟨hw, by simpa using hwv⟩)
            · exact Or.inl (List.mem_append_left _ h3)
          · exact Or.inr (fun w hw => List.mem_append_left _ (h2 w hw))
        · exact Or.inl (List.mem_append_right _ h)
      · -- The fuel bound is maintained: every enqueued node is a fresh
        -- element of the universe.
        have hys_sub : ∀ w ∈ ((step z).filter
            (fun w => !(decide (w ∈ visited)))).dedup,
            w ∈ U.dedup.filter (fun u => !(decide (u ∈ visited))) := by
          intro w hw
          have hw2 := List.mem_dedup.mp hw
          refine List.mem_filter.mpr ⟨?_, (List.mem_filter.mp hw2).2⟩
          exact List.mem_dedup.mpr (hU z w (List.mem_of_mem_filter hw2))
        have hys_nodup := List.nodup_dedup
          ((step z).filter (fun w => !(decide (w ∈ visited))))
        have hb : ((step z).filter (fun w => !(decide (w ∈ visited)))).dedup.length +
            (U.dedup.filter (fun u => !(decide (u ∈ visited ++
              ((step z).filter (fun w => !(decide (w ∈ visited)))).dedup)))).length ≤
            (U.dedup.filter (fun u => !(decide (u ∈ visited)))).length := by
          have hpart := List.length_eq_length_filter_add
            (l := U.dedup.filter (fun u => !(decide (u ∈ visited))))
            (fun u => decide (u ∈ ((step z).filter
              (fun w => !(decide (w ∈ visited)))).dedup))
          have hle1 : ((step z).filter (fun w => !(decide (w ∈ visited)))).dedup.length ≤
              ((U.dedup.filter (fun u => !(decide (u ∈ visited)))).filter
                (fun u => decide (u ∈ ((step z).filter
                  (fun w => !(decide (w ∈ visited)))).dedup))).length := by
            refine List.Subperm.length_le ?_
            refine List.subperm_of_subset hys_nodup ?_
            intro w hw
            exact List.mem_filter.mpr ⟨hys_sub w hw, by simpa using hw⟩
          have hle2 : (U.dedup.filter (fun u => !(decide (u ∈ visited ++
              ((step z).filter (fun w => !(decide (w ∈ visited)))).dedup)))).length ≤
              ((U.dedup.filter (fun u => !(decide (u ∈ visited)))).filter
                (fun u => !(decide (u ∈ ((step z).filter
                  (fun w => !(decide (w ∈ visited)))).dedup)))).length := by
            refine List.Subperm.length_le ?_
            refine List.subperm_of_subset
              ((List.nodup_dedup U).filter _) ?_
            intro w hw
            have hw1 := List.mem_of_mem_filter hw
            have hw2 := List.of_mem_filter hw
            simp only [Bool.not_eq_true', decide_eq_false_iff_not,
              List.mem_append] at hw2
            refine List.mem_filter.mpr ⟨List.mem_filter.mpr ⟨hw1, ?_⟩, ?_⟩
            · simp only [Bool.not_eq_true', decide_eq_false_iff_not]
              intro hc
              exact hw2 (Or.inl hc)
            · simp only [Bool.not_eq_true', decide_eq_false_iff_not]
              intro hc
              exact hw2 (Or.inr hc)
          omega
        simp only [List.length_append, List.length_cons] at hfuel ⊢
        omega

theorem closureRun_spec (step : Nat → List Nat) (U start : List Nat)
    (hU : ∀ x y, y ∈ step x → y ∈ U) (z : Nat) :
    z ∈ closureRun step U start ↔ StepReach step start z := by
  constructor
  · intro hz
    exact closureAux_sound step (StepReach step start)
      (fun x y hx hy => StepReach.next hx hy) _ _ _
      (fun v hv => StepReach.base hv) (fun v hv => StepReach.base hv) z hz
  · intro hz
    induction hz with
    | base h => exact closureAux_visited_subset step _ _ _ h
    | next hx hy ih =>
      refine closureAux_closed step U hU _ _ _
        (fun v hv => Or.inl hv) ?_ _ ih _ hy
      have := List.length_filter_le
        (fun u => !(decide (u ∈ start))) U.dedup
      omega

/-! ## Extremity-cleanup characterization (claims C1 and C10) -/

theorem frontierCheck_spec {db : EventDB} {e : Nat} :
    (match db.find e with
      | some ev => !ev.outlier && (ev.softFailed || ev.rejected)
      | none => false) = true ↔
      ∃ ev, db.find e = some ev ∧ ev.outlier = false ∧
        (ev.softFailed = true ∨ ev.rejected = true) := by
  cases hev : db.find e with
  | none => simp [hev]
  | some ev => simp [hev, and_assoc]

theorem nonOutlierCheck_spec {db : EventDB} {e : Nat} :
    (match db.find e with
      | some ev => !ev.outlier
      | none => false) = true ↔ presentNonOutlier db e := by
  cases hev : db.find e with
  | none => simp [presentNonOutlier, hev]
  | some ev => simp [presentNonOutlier, hev]

theorem liveCheck_spec {db : EventDB} {e : Nat} :
    (match db.find e with
      | some ev => !ev.outlier && !ev.softFailed && !ev.rejected
      | none => false) = true ↔ isLiveNonOutlier db e := by
  cases hev : db.find e with
  | none => simp [isLiveNonOutlier, hev]
  | some ev => simp [isLiveNonOutlier, hev, and_assoc]

theorem mem_stepFrontier {db : EventDB} {x y : Nat} :
    y ∈ stepFrontier db x ↔ (x, y) ∈ db.edges ∧
      ∃ ev, db.find y = some ev ∧ ev.outlier = false ∧
        (ev.softFailed = true ∨ ev.rejected = true) := by
  unfold stepFrontier
  rw [List.mem_filter, List.mem_map]
  constructor
  · rintro ⟨⟨pe, hpe, rfl⟩, hcond⟩
    have h1 := List.mem_of_mem_filter hpe
    have h2 : pe.1 = x := by simpa using List.of_mem_filter hpe
    refine ⟨?_, frontierCheck_spec.mp hcond⟩
    rw [← h2]
    exact h1
  · rintro ⟨hxy, hev⟩
    exact ⟨⟨(x, y), List.mem_filter.mpr ⟨hxy, by simp⟩, rfl⟩,
      frontierCheck_spec.mpr hev⟩

theorem mem_stepAll {db : EventDB} {x y : Nat} :
    y ∈ stepAll db x ↔ (x, y) ∈ db.edges := by
  unfold stepAll
  rw [List.mem_map]
  constructor
  · rintro ⟨pe, hpe, rfl⟩
    have h1 := List.mem_of_mem_filter hpe
    have h2 : pe.1 = x := by simpa using List.of_mem_filter hpe
    rw [← h2]
    exact h1
  · intro h
    exact ⟨(x, y), List.mem_filter.mpr ⟨h, by simp⟩, rfl⟩

theorem mem_stepBack {recorded : List (Nat × Nat)} {x y : Nat} :
    y ∈ stepBack recorded x ↔ (y, x) ∈ recorded := by
  unfold stepBack
  rw [List.mem_map]
  constructor
  · rintro ⟨pe, hpe, rfl⟩
    have h1 := List.mem_of_mem_filter hpe
    have h2 : pe.2 = x := by simpa using List.of_mem_filter hpe
    rw [← h2]
    exact h1
  · intro h
    exact ⟨(y, x), List.mem_filter.mpr ⟨h, by simp⟩, rfl⟩

theorem mem_recordedEdges {db : EventDB} {s : List Nat} {p e : Nat} :
    (p, e) ∈ recordedEdges db s ↔
      (p, e) ∈ db.edges ∧ p ∈ s ∧ presentNonOutlier db e := by
  unfold recordedEdges
  rw [List.mem_filter]
  constructor
  · rintro ⟨h1, h2⟩
    replace h2 : (decide (p ∈ s) &&
        (match db.find e with
          | some ev => !ev.outlier
          | none => false)) = true := h2
    simp only [Bool.and_eq_true, decide_eq_true_eq] at h2
    exact ⟨h1, h2.1, nonOutlierCheck_spec.mp h2.2⟩
  · rintro ⟨h1, h2, hpres⟩
    refine ⟨h1, ?_⟩
    show (decide (p ∈ s) &&
        (match db.find e with
          | some ev => !ev.outlier
          | none => false)) = true
    simp only [Bool.and_eq_true, decide_eq_true_eq]
    exact ⟨h2, nonOutlierCheck_spec.mpr hpres⟩

theorem mem_nonRejectedLeaves {db : EventDB} {s : List Nat} {e : Nat} :
    e ∈ nonRejectedLeaves db s ↔
      (∃ p, p ∈ s ∧ (p, e) ∈ db.edges) ∧ isLiveNonOutlier db e := by
  unfold nonRejectedLeaves
  rw [List.mem_filter, List.mem_map]
  constructor
  · rintro ⟨⟨pe, hpe, rfl⟩, hcond⟩
    have h1 := List.mem_of_mem_filter hpe
    have h2 : pe.1 ∈ s := by simpa using List.of_mem_filter hpe
    exact ⟨⟨pe.1, h2, h1⟩, liveCheck_spec.mp hcond⟩
  · rintro ⟨⟨p, hp, hedge⟩, hlive⟩
    exact ⟨⟨(p, e), List.mem_filter.mpr ⟨hedge, by simpa using hp⟩, rfl⟩,
      liveCheck_spec.mpr hlive⟩

theorem stepFrontier_universe {db : EventDB} :
    ∀ x y, y ∈ stepFrontier db x → y ∈ db.edges.map (fun pe => pe.2) := by
  intro x y hy
  rcases mem_stepFrontier.mp hy with ⟨hxy, -⟩
  exact List.mem_map.mpr ⟨(x, y), hxy, rfl⟩

theorem mem_scannedSet {db : EventDB} {cands : List Nat} {z : Nat} :
    z ∈ scannedSet db cands ↔ StepReach (stepFrontier db) cands z :=
  closureRun_spec _ _ _ stepFrontier_universe z

theorem stepBack_universe {db : EventDB} {s : List Nat} :
    ∀ x y, y ∈ stepBack (recordedEdges db s) x →
      y ∈ db.edges.map (fun pe => pe.1) := by
  intro x y hy
  rcases List.mem_map.mp hy with ⟨pe, hpe, he⟩
  have h1 : pe ∈ recordedEdges db s := List.mem_of_mem_filter hpe
  have h2 : pe ∈ db.edges := List.mem_of_mem_filter h1
  exact List.mem_map.mpr ⟨pe, h2, he⟩

theorem mem_cleanupDeleted_core {db : EventDB} {cands : List Nat} {c : Nat} :
    c ∈ cleanupDeleted db cands ↔
      c ∈ cands ∧ ∃ z, (c, z) ∈ recordedEdges db (scannedSet db cands) ∧
        StepReach (stepBack (recordedEdges db (scannedSet db cands)))
          (nonRejectedLeaves db (scannedSet db cands)) z := by
  have hshape : c ∈ cleanupDeleted db cands ↔
      c ∈ cands ∧ ((recordedEdges db (scannedSet db cands)).filter
        (fun pe => decide (pe.2 ∈ closureRun
          (stepBack (recordedEdges db (scannedSet db cands)))
          (db.edges.map (fun pe => pe.1))
          (nonRejectedLeaves db (scannedSet db cands))))).any
        (fun pe => decide (pe.1 = c)) = true := List.mem_filter
  rw [hshape]
  constructor
  · rintro ⟨hc, hany⟩
    rw [List.any_eq_true] at hany
    rcases hany with ⟨pe, hpe, hp1⟩
    have hp1' : pe.1 = c := by simpa using hp1
    have h1 := List.mem_of_mem_filter hpe
    have h2 : pe.2 ∈ closureRun (stepBack (recordedEdges db (scannedSet db cands)))
        (db.edges.map (fun pe => pe.1)) (nonRejectedLeaves db (scannedSet db cands)) := by
      simpa using List.of_mem_filter hpe
    refine ⟨hc, pe.2, ?_, ?_⟩
    · rw [← hp1']
      exact h1
    · exact (closureRun_spec _ _ _ stepBack_universe pe.2).mp h2
  · rintro ⟨hc, z, hrec, hz⟩
    refine ⟨hc, ?_⟩
    rw [List.any_eq_true]
    refine ⟨(c, z), List.mem_filter.mpr ⟨hrec, ?_⟩, by simp⟩
    simp only [decide_eq_true_eq]
    exact (closureRun_spec _ _ _ stepBack_universe z).mpr hz

theorem reachesLive_of_edge {db : EventDB} {p e : Nat} {ev : EventFlags}
    (hedge : (p, e) ∈ db.edges) (hfind : db.find e = some ev)
    (ho : ev.outlier = false) (h : isLiveNonOutlier db e ∨ ReachesLive db e) :
    ReachesLive db p := by
  rcases h with hlive | hrl
  · rcases hlive with ⟨ev2, hfind2, ho2, hsf2, hrej2⟩
    exact ReachesLive.direct hedge hfind2 ho2 hsf2 hrej2
  · cases hsf : ev.softFailed with
    | false =>
      cases hrej : ev.rejected with
      | false => exact ReachesLive.direct hedge hfind ho hsf hrej
      | true => exact ReachesLive.step hedge hfind ho (Or.inr hrej) hrl
    | true => exact ReachesLive.step hedge hfind ho (Or.inl hsf) hrl

theorem reachesLive_recorded {db : EventDB} {cands : List Nat} {c : Nat}
    (hrl : ReachesLive db c) :
    c ∈ scannedSet db cands →
      ∃ z, (c, z) ∈ recordedEdges db (scannedSet db cands) ∧
        StepReach (stepBack (recordedEdges db (scannedSet db cands)))
          (nonRejectedLeaves db (scannedSet db cands)) z := by
  induction hrl with
  | @direct p e ev hedge hfind ho hsf hrej =>
    intro hs
    refine ⟨e, mem_recordedEdges.mpr ⟨hedge, hs, ev, hfind, ho⟩, ?_⟩
    exact StepReach.base (mem_nonRejectedLeaves.mpr
      ⟨⟨p, hs, hedge⟩, ev, hfind, ho, hsf, hrej⟩)
  | @step p e ev hedge hfind ho hsr hrle ih =>
    intro hs
    have hes : e ∈ scannedSet db cands :=
      mem_scannedSet.mpr (StepReach.next (mem_scannedSet.mp hs)
        (mem_stepFrontier.mpr ⟨hedge, ev, hfind, ho, hsr⟩))
    rcases ih hes with ⟨z, hrec, hz⟩
    exact ⟨e, mem_recordedEdges.mpr ⟨hedge, hs, ev, hfind, ho⟩,
      StepReach.next hz (mem_stepBack.mpr hrec)⟩

theorem backward_reachesLive {db : EventDB} {cands : List Nat} {z : Nat}
    (hz : StepReach (stepBack (recordedEdges db (scannedSet db cands)))
      (nonRejectedLeaves db (scannedSet db cands)) z) :
    isLiveNonOutlier db z ∨ ReachesLive db z := by
  induction hz with
  | base h =>
    exact Or.inl (mem_nonRejectedLeaves.mp h).2
  | @next x y hx hy ih =>
    have hrec := mem_stepBack.mp hy
    rcases mem_recordedEdges.mp hrec with ⟨hedge, -, ev, hfind, ho⟩
    exact Or.inr (reachesLive_of_edge hedge hfind ho ih)

theorem descAny_of_descNonOutlier {db : EventDB} {p e : Nat}
    (h : DescNonOutlier db p e) : DescAny db p e := by
  induction h with
  | @head q hedge hpres => exact DescAny.head hedge
  | @tail q r hd2 hedge hpres ih => exact DescAny.tail ih hedge

theorem descAny_target_mem {db : EventDB} {p e : Nat} (h : DescAny db p e) :
    e ∈ db.edges.map (fun pe => pe.2) := by
  cases h with
  | @head q hedge => exact List.mem_map.mpr ⟨_, hedge, rfl⟩
  | @tail q r hd2 hedge => exact List.mem_map.mpr ⟨_, hedge, rfl⟩

theorem reachesLive_extend {db : EventDB} {c e : Nat}
    (hd : DescNonOutlier db c e) :
    ReachesLive db e → ReachesLive db c := by
  induction hd with
  | @head q hedge hpres =>
    intro hrl
    rcases hpres with ⟨ev, hfind, ho⟩
    exact reachesLive_of_edge hedge hfind ho (Or.inr hrl)
  | @tail q r hde hedge hpres ih =>
    intro hrl
    rcases hpres with ⟨ev, hfind, ho⟩
    exact ih (reachesLive_of_edge hedge hfind ho (Or.inr hrl))

theorem reachesLive_of_desc_live {db : EventDB} {c e : Nat}
    (hd : DescNonOutlier db c e) (hlive : isLiveNonOutlier db e) :
    ReachesLive db c := by
  cases hd with
  | @head q hedge hpres =>
    rcases hlive with ⟨ev, hfind, ho, hsf, hrej⟩
    exact ReachesLive.direct hedge hfind ho hsf hrej
  | @tail q r hde hedge hpres =>
    rcases hlive with ⟨ev, hfind, ho, hsf, hrej⟩
    exact reachesLive_extend hde (ReachesLive.direct hedge hfind ho hsf hrej)

theorem desc_prepend {db : EventDB} {c e f : Nat}
    (hd : DescNonOutlier db e f) :
    (c, e) ∈ db.edges → presentNonOutlier db e → DescNonOutlier db c f := by
  induction hd with
  | @head q hpq hpres2 =>
    intro hedge hpres
    exact DescNonOutlier.tail (DescNonOutlier.head hedge hpres) hpq hpres2
  | @tail q r hd2 hqr hpres2 ih =>
    intro hedge hpres
    exact DescNonOutlier.tail (ih hedge hpres) hqr hpres2

theorem desc_of_reachesLive {db : EventDB} {c : Nat} (hrl : ReachesLive db c) :
    ∃ e, DescNonOutlier db c e ∧ isLiveNonOutlier db e := by
  induction hrl with
  | @direct p e ev hedge hfind ho hsf hrej =>
    exact ⟨e, DescNonOutlier.head hedge ⟨ev, hfind, ho⟩, ev, hfind, ho, hsf, hrej⟩
  | @step p e ev hedge hfind ho hsr hrle ih =>
    rcases ih with ⟨f, hdf, hlivef⟩
    exact ⟨f, desc_prepend hdf hedge ⟨ev, hfind, ho⟩, hlivef⟩

/-- **C1** (corrected): a candidate extremity is deleted by one cleanup round
iff some live (non-soft-failed, non-rejected) event is reachable from it
through persisted **non-outlier** events.  The claim's reachability notion —
raw successor edges, any live event — is too weak: outlier successors are
skipped entirely (see the counterexample).  The claim's retention half is a
consequence: if every descendant path is soft-failed or rejected, no such
live event exists and the extremity is retained. -/
theorem cleanup_deleted_iff_live_nonoutlier_reachable (db : EventDB)
    (cands : List Nat) (c : Nat) :
    c ∈ cleanupDeleted db cands ↔
      c ∈ cands ∧ ∃ e, DescNonOutlier db c e ∧ isLiveNonOutlier db e := by
  rw [mem_cleanupDeleted_core]
  constructor
  · rintro ⟨hc, z, hrec, hz⟩
    refine ⟨hc, ?_⟩
    rcases mem_recordedEdges.mp hrec with ⟨hedge, -, ev, hfind, ho⟩
    exact desc_of_reachesLive
      (reachesLive_of_edge hedge hfind ho (backward_reachesLive hz))
  · rintro ⟨hc, e, hd, hlive⟩
    exact ⟨hc, reachesLive_recorded (reachesLive_of_desc_live hd hlive)
      (mem_scannedSet.mpr (StepReach.base hc))⟩

/-- **C1** counterexample to the claim as stated: extremity 10 has one
successor 11 that is live (neither soft-failed nor rejected) but an outlier.
A live event is reachable from 10 along successor edges, yet the cleanup
retains 10, because the phase-1 successor query skips outlier events. -/
theorem cleanup_deleted_iff_counterexample :
    (∃ e, DescAny (EventDB.mk [(10, ⟨false, false, false⟩), (11, ⟨false, false, true⟩)]
        [(10, 11)]) 10 e ∧
      isLiveEvent (EventDB.mk [(10, ⟨false, false, false⟩), (11, ⟨false, false, true⟩)]
        [(10, 11)]) e) ∧
    10 ∈ [10] ∧
    10 ∉ cleanupDeleted (EventDB.mk [(10, ⟨false, false, false⟩), (11, ⟨false, false, true⟩)]
        [(10, 11)]) [10] := by
  refine ⟨⟨11, DescAny.head (by decide), ⟨⟨false, false, true⟩, rfl, rfl, rfl⟩⟩,
    by decide, by decide⟩

/-- **C10**: outlier successors are ignored entirely by the cleanup — if every
event reachable from a candidate extremity along raw successor edges is an
outlier, the extremity is retained, regardless of the outliers' soft-failed
or rejected status. -/
theorem cleanup_retains_outlier_only_descendants (db : EventDB)
    (cands : List Nat) (c : Nat)
    (h : ∀ e, DescAny db c e → ∃ ev, db.find e = some ev ∧ ev.outlier = true) :
    c ∉ cleanupDeleted db cands := by
  intro hdel
  rcases mem_cleanupDeleted_core.mp hdel with ⟨-, z, hrec, hz⟩
  rcases mem_recordedEdges.mp hrec with ⟨hedge, -, ev, hfind, ho⟩
  rcases desc_of_reachesLive
      (reachesLive_of_edge hedge hfind ho (backward_reachesLive hz)) with
    ⟨e, hd, ev2, hfind2, ho2, -, -⟩
  rcases h e (descAny_of_descNonOutlier hd) with ⟨ev3, hfind3, ho3⟩
  have hev : ev2 = ev3 := Option.some.inj (hfind2.symm.trans hfind3)
  subst hev
  rw [ho2] at ho3
  cases ho3

/-- Witness for C10: extremity 1 whose only descendant is the live outlier 3
is retained. -/
theorem cleanup_retains_outlier_only_descendants_witness :
    1 ∉ cleanupDeleted
      (EventDB.mk [(1, ⟨false, false, false⟩), (3, ⟨false, false, true⟩)] [(1, 3)])
      [1] :=
  cleanup_retains_outlier_only_descendants
    (EventDB.mk [(1, ⟨false, false, false⟩), (3, ⟨false, false, true⟩)] [(1, 3)])
    [1] 1 (by
      intro e he
      have h3 : e = 3 := by simpa using descAny_target_mem he
      subst h3
      exact ⟨⟨false, false, true⟩, rfl, rfl⟩)

/-! ## Chain-cover ordering and table lemmas (claims C2 and C3) -/

theorem keyLtb_iff {a b : Nat × Int × Int} :
    keyLtb a b = true ↔
      a.1 < b.1 ∨ (a.1 = b.1 ∧ (a.2.1 < b.2.1 ∨ (a.2.1 = b.2.1 ∧ a.2.2 < b.2.2))) := by
  unfold keyLtb
  simp [Bool.or_eq_true, Bool.and_eq_true, decide_eq_true_eq, beq_iff_eq]

theorem keyLtb_eq_false_iff {a b : Nat × Int × Int} :
    keyLtb a b = false ↔
      ¬(a.1 < b.1 ∨ (a.1 = b.1 ∧ (a.2.1 < b.2.1 ∨ (a.2.1 = b.2.1 ∧ a.2.2 < b.2.2)))) := by
  rw [Bool.eq_false_iff]
  exact not_congr keyLtb_iff

theorem keyLtb_trans {a b c : Nat × Int × Int} (h1 : keyLtb a b = true)
    (h2 : keyLtb b c = true) : keyLtb a c = true := by
  rw [keyLtb_iff] at h1 h2 ⊢
  obtain ⟨a1, a2, a3⟩ := a
  obtain ⟨b1, b2, b3⟩ := b
  obtain ⟨c1, c2, c3⟩ := c
  simp only at h1 h2 ⊢
  omega

theorem keyLtb_false_trans {a b c : Nat × Int × Int} (h1 : keyLtb a b = false)
    (h2 : keyLtb b c = false) : keyLtb a c = false := by
  rw [keyLtb_eq_false_iff] at h1 h2 ⊢
  obtain ⟨a1, a2, a3⟩ := a
  obtain ⟨b1, b2, b3⟩ := b
  obtain ⟨c1, c2, c3⟩ := c
  simp only at h1 h2 ⊢
  omega

theorem keyLtb_antisymm_eq {a b : Nat × Int × Int} (h1 : keyLtb a b = false)
    (h2 : keyLtb b a = false) : a = b := by
  rw [keyLtb_eq_false_iff] at h1 h2
  obtain ⟨a1, a2, a3⟩ := a
  obtain ⟨b1, b2, b3⟩ := b
  simp only at h1 h2
  simp only [Prod.mk.injEq]
  omega

theorem keyLtb_irrefl (a : Nat × Int × Int) : keyLtb a a = false := by
  obtain ⟨a1, a2, a3⟩ := a
  rw [keyLtb_eq_false_iff]
  simp only
  omega

theorem keyLtb_of_le_ne {x y : Nat × Int × Int} (h : keyLtb y x = false)
    (hne : x ≠ y) : keyLtb x y = true := by
  cases h2 : keyLtb x y with
  | true => rfl
  | false => exact absurd (keyLtb_antisymm_eq h2 h) hne

theorem keyLtb_room_le {x y : Nat × Int × Int} (h : keyLtb x y = true) :
    x.1 ≤ y.1 := by
  rw [keyLtb_iff] at h
  omega

theorem keyLtb_false_room_le {x y : Nat × Int × Int} (h : keyLtb x y = false) :
    y.1 ≤ x.1 := by
  rw [keyLtb_eq_false_iff] at h
  omega

theorem keyLtb_of_room_lt {x y : Nat × Int × Int} (h : x.1 < y.1) :
    keyLtb x y = true := by
  rw [keyLtb_iff]
  exact Or.inl h

instance : IsTotal (Nat × ChainEvent) chainRowLe :=
  ⟨fun a b => by
    unfold chainRowLe keyLeb
    cases h1 : keyLtb (ckey b.2) (ckey a.2) with
    | false => exact Or.inl rfl
    | true =>
      right
      cases h2 : keyLtb (ckey a.2) (ckey b.2) with
      | false => rfl
      | true =>
        have h3 := keyLtb_trans h1 h2
        rw [keyLtb_irrefl] at h3
        cases h3⟩

instance : IsTrans (Nat × ChainEvent) chainRowLe :=
  ⟨fun a b c hab hbc => by
    unfold chainRowLe keyLeb at hab hbc ⊢
    rw [Bool.not_eq_true'] at hab hbc ⊢
    exact keyLtb_false_trans hbc hab⟩

theorem chainEligible_iff {db : ChainDB} {r : Nat} {d s : Int} {sr : Bool}
    {pe : Nat × ChainEvent} :
    chainEligible db r d s sr pe = true ↔
      pe.2.hasState = true ∧ pe.1 ∉ db.indexed ∧
        keyLtb (r, d, s) (ckey pe.2) = true ∧ (sr = true → pe.2.room = r) := by
  unfold chainEligible
  cases sr with
  | false =>
    simp [Bool.and_eq_true, Bool.not_eq_true', decide_eq_true_eq, and_assoc]
  | true =>
    simp [Bool.and_eq_true, Bool.not_eq_true', decide_eq_true_eq, and_assoc]

theorem chainEligible_congr {db1 db2 : ChainDB} (h : db1.indexed = db2.indexed)
    (r : Nat) (d s : Int) (sr : Bool) (pe : Nat × ChainEvent) :
    chainEligible db1 r d s sr pe = chainEligible db2 r d s sr pe := by
  unfold chainEligible
  rw [h]

theorem mem_upsertRow_map_fst {κ ν : Type} [DecidableEq κ]
    {rows : List (κ × ν)} {k x : κ} {v : ν} :
    x ∈ (upsertRow rows k v).map Prod.fst ↔ x ∈ rows.map Prod.fst ∨ x = k := by
  unfold upsertRow
  split
  · rename_i h
    rw [List.any_eq_true] at h
    rcases h with ⟨q, hq, hqk⟩
    have hqk' : q.1 = k := by simpa using hqk
    rw [List.map_map]
    constructor
    · intro hx
      rcases List.mem_map.mp hx with ⟨p, hp, hpx⟩
      by_cases hpk : p.1 = k
      · right
        rw [← hpx]
        simp [Function.comp, hpk]
      · left
        rw [← hpx]
        simp only [Function.comp, hpk, if_neg hpk]
        exact List.mem_map.mpr ⟨p, hp, rfl⟩
    · rintro (hx | rfl)
      · rcases List.mem_map.mp hx with ⟨p, hp, hpx⟩
        refine List.mem_map.mpr ⟨p, hp, ?_⟩
        by_cases hpk : p.1 = k
        · simp [Function.comp, hpk, ← hpx]
        · simp only [Function.comp]
          rw [if_neg hpk]
          exact hpx
      · refine List.mem_map.mpr ⟨q, hq, ?_⟩
        simp [Function.comp, hqk']
  · rw [List.map_append]
    simp [List.mem_append]

theorem foldl_upsert_keys {α : Type} (f : α → Nat) (g : α → Int × Int) :
    ∀ (l : List α) (acc : List (Nat × (Int × Int))) (x : Nat),
      x ∈ (l.foldl (fun a r => upsertRow a (f r) (g r)) acc).map Prod.fst ↔
        x ∈ acc.map Prod.fst ∨ x ∈ l.map f := by
  intro l
  induction l with
  | nil => simp
  | cons hd tl ih =>
    intro acc x
    rw [List.foldl_cons, ih, mem_upsertRow_map_fst]
    simp only [List.map_cons, List.mem_cons]
    tauto

theorem rowLookup_isNone_iff {κ ν : Type} [DecidableEq κ]
    {rows : List (κ × ν)} {k : κ} :
    (rowLookup rows k).isNone = true ↔ k ∉ rows.map Prod.fst := by
  unfold rowLookup
  rw [Option.isNone_iff_eq_none, Option.map_eq_none', List.find?_eq_none]
  constructor
  · intro h hk
    rcases List.mem_map.mp hk with ⟨p, hp, hpk⟩
    exact absurd hpk (by simpa using h p hp)
  · intro h p hp hc
    exact h (List.mem_map.mpr ⟨p, hp, by simpa using hc⟩)

theorem flagRoom_events (db : ChainDB) (r : Nat) :
    (flagRoom db r).events = db.events := by
  unfold flagRoom
  split <;> rfl

theorem flagRoom_indexed (db : ChainDB) (r : Nat) :
    (flagRoom db r).indexed = db.indexed := by
  unfold flagRoom
  split <;> rfl

theorem mem_flagRoom_flags {db : ChainDB} {r x : Nat} :
    x ∈ (flagRoom db r).flags ↔ x ∈ db.flags ∨ x = r := by
  unfold flagRoom
  split
  · rename_i h
    constructor
    · exact fun hx => Or.inl hx
    · rintro (hx | rfl)
      · exact hx
      · exact h
  · show x ∈ db.flags ++ [r] ↔ _
    simp [List.mem_append]

theorem mem_finishedRooms_keys {rows : List (Nat × ChainEvent)} {nlr x : Nat} :
    x ∈ (finishedRoomsOfRows rows nlr).map Prod.fst ↔
      (∃ pe ∈ rows, pe.2.room = x) ∧ x ≠ nlr := by
  unfold finishedRoomsOfRows
  rw [foldl_upsert_keys]
  constructor
  · rintro (h | h)
    · simp at h
    · rcases List.mem_map.mp h with ⟨pe, hpe, hx⟩
      have h1 := List.mem_of_mem_filter hpe
      have h2 : ¬(pe.2.room = nlr) := by simpa using List.of_mem_filter hpe
      exact ⟨⟨pe, h1, hx⟩, by rw [← hx]; exact h2⟩
  · rintro ⟨⟨pe, hpe, hx⟩, hne⟩
    right
    refine List.mem_map.mpr ⟨pe, List.mem_filter.mpr ⟨hpe, ?_⟩, hx⟩
    simp only [Bool.not_eq_true', decide_eq_false_iff_not]
    rw [hx]
    exact hne

theorem ChainDB.wf_congr {db1 db2 : ChainDB} (h : db1.events = db2.events)
    (hwf : db2.wf) : db1.wf := by
  unfold ChainDB.wf at hwf ⊢
  rw [h]
  exact hwf

theorem TraceOK.append {t1 t2 : List (ChainAction × ChainDB)}
    (h1 : TraceOK t1) (h2 : TraceOK t2) : TraceOK (t1 ++ t2) := by
  induction t1 with
  | nil => exact h2
  | cons hd tl ih =>
    obtain ⟨a, dbi⟩ := hd
    cases a with
    | batchScan ids => exact ih h1
    | rescan r ids => exact ih h1
    | setFlag r =>
      obtain ⟨hcov, ⟨ids, dbj, rest2, hrest⟩, htl⟩ := h1
      refine ⟨hcov, ⟨ids, dbj, rest2 ++ t2, ?_⟩, ih htl⟩
      rw [hrest]
      rfl

theorem pairwise_rel_getLast {α : Type} {R : α → α → Prop} :
    ∀ (l : List α), l.Pairwise R → ∀ (h : l ≠ []) (x : α), x ∈ l →
      x = l.getLast h ∨ R x (l.getLast h) := by
  intro l
  induction l with
  | nil => intro _ h; cases h rfl
  | cons a tl ih =>
    intro hp h x hx
    cases tl with
    | nil =>
      rcases List.mem_cons.mp hx with rfl | hx2
      · exact Or.inl rfl
      · cases hx2
    | cons b tl2 =>
      have hlast : (a :: b :: tl2).getLast h = (b :: tl2).getLast (by simp) :=
        List.getLast_cons (by simp)
      rcases List.mem_cons.mp hx with rfl | hx2
      · right
        rw [hlast]
        exact (List.pairwise_cons.mp hp).1 _ (List.getLast_mem (by simp))
      · rw [hlast]
        exact ih (List.pairwise_cons.mp hp).2 (by simp) x hx2

theorem chainSorted_perm (db : ChainDB) (r : Nat) (d s : Int) (sr : Bool) :
    (chainSorted db r d s sr).Perm (db.events.filter (chainEligible db r d s sr)) :=
  List.perm_insertionSort _ _

theorem chainSorted_sorted (db : ChainDB) (r : Nat) (d s : Int) (sr : Bool) :
    (chainSorted db r d s sr).Sorted chainRowLe :=
  List.sorted_insertionSort _ _

theorem chainSorted_pairwise_keys {db : ChainDB} (hwf : db.wf) (r : Nat)
    (d s : Int) (sr : Bool) :
    (chainSorted db r d s sr).Pairwise (fun a b => ckey a.2 ≠ ckey b.2) := by
  have hsub : List.Sublist (db.events.filter (chainEligible db r d s sr))
      (db.events.filter (fun pe => pe.2.hasState)) :=
    List.monotone_filter_right db.events
      (fun pe hpe => (chainEligible_iff.mp hpe).1)
  have hp := List.Pairwise.sublist hsub hwf.2.2
  exact ((chainSorted_perm db r d s sr).pairwise_iff
    (fun h => Ne.symm h)).mpr hp

theorem chainSorted_ids_nodup {db : ChainDB} (hwf : db.wf) (r : Nat)
    (d s : Int) (sr : Bool) :
    ((chainSorted db r d s sr).map (fun pe => pe.1)).Nodup := by
  have hsub : List.Sublist (db.events.filter (chainEligible db r d s sr)) db.events :=
    List.filter_sublist _
  have h1 : ((db.events.filter (chainEligible db r d s sr)).map
      (fun pe => pe.1)).Nodup :=
    List.Nodup.sublist (List.Sublist.map _ hsub) hwf.1
  exact (((chainSorted_perm db r d s sr).map _).nodup_iff).mpr h1

theorem chainRows_eq_take (db : ChainDB) (r : Nat) (d s : Int) (bs : Option Nat)
    (hbs : bs = none ∨ ∃ b, bs = some b ∧ 1 ≤ b) :
    ∃ nb, chainRows db r d s bs false = (chainSorted db r d s false).take nb ∧
      (chainSorted db r d s false ≠ [] → chainRows db r d s bs false ≠ []) := by
  rcases hbs with rfl | ⟨b, rfl, hb⟩
  · exact ⟨(chainSorted db r d s false).length, (List.take_length _).symm, fun h => h⟩
  · refine ⟨b, rfl, ?_⟩
    intro hL hcontra
    rcases List.take_eq_nil_iff.mp hcontra with h | h
    all_goals first
    | exact absurd h (by omega)
    | exact hL h

/-- Core facts about one nonempty main-scan batch, stated over the prefix
`take nb` of the sorted eligible rows: the new resume key advances, the
post-batch unindexed stateful events all lie strictly after it, the residual
eligible set shrinks and decomposes, the finished rooms all precede the new
last room, and the flagged-room sets decompose. -/
theorem chainStep_aux (db : ChainDB) (q : Nat) (d s : Int) (nb : Nat)
    (hwf : db.wf)
    (hp2 : ∀ pe ∈ db.events, pe.2.hasState = true → pe.1 ∉ db.indexed →
      keyLtb (q, d, s) (ckey pe.2) = true)
    (hne : (chainSorted db q d s false).take nb ≠ []) :
    keyLtb (q, d, s)
        (calcNewLastRoom ((chainSorted db q d s false).take nb),
         calcNewLastDepth ((chainSorted db q d s false).take nb) d,
         calcNewLastStream ((chainSorted db q d s false).take nb) s) = true ∧
    0 < calcNewLastRoom ((chainSorted db q d s false).take nb) ∧
    (∀ pe ∈ db.events, pe.2.hasState = true →
      pe.1 ∉ (chainNextDB db ((chainSorted db q d s false).take nb)).indexed →
      keyLtb
        (calcNewLastRoom ((chainSorted db q d s false).take nb),
         calcNewLastDepth ((chainSorted db q d s false).take nb) d,
         calcNewLastStream ((chainSorted db q d s false).take nb) s)
        (ckey pe.2) = true) ∧
    (eligList (chainNextDB db ((chainSorted db q d s false).take nb))
        (calcNewLastRoom ((chainSorted db q d s false).take nb))
        (calcNewLastDepth ((chainSorted db q d s false).take nb) d)
        (calcNewLastStream ((chainSorted db q d s false).take nb) s)).length <
      (eligList db q d s).length ∧
    (∀ x, x ∈ ((eligList (chainNextDB db ((chainSorted db q d s false).take nb))
        (calcNewLastRoom ((chainSorted db q d s false).take nb))
        (calcNewLastDepth ((chainSorted db q d s false).take nb) d)
        (calcNewLastStream ((chainSorted db q d s false).take nb) s)).map
          (fun pe => pe.1)) ↔
      (x ∈ (eligList db q d s).map (fun pe => pe.1) ∧
        x ∉ ((chainSorted db q d s false).take nb).map (fun pe => pe.1))) ∧
    (∀ x, x ∈ ((chainSorted db q d s false).take nb).map (fun pe => pe.1) →
      x ∈ (eligList db q d s).map (fun pe => pe.1)) ∧
    (∀ x, (x ∈ (calcFin ((chainSorted db q d s false).take nb) q d s).map Prod.fst ∨
        x = calcNewLastRoom ((chainSorted db q d s false).take nb) ∨
        x ∈ (eligList (chainNextDB db ((chainSorted db q d s false).take nb))
          (calcNewLastRoom ((chainSorted db q d s false).take nb))
          (calcNewLastDepth ((chainSorted db q d s false).take nb) d)
          (calcNewLastStream ((chainSorted db q d s false).take nb) s)).map
            (fun pe => pe.2.room)) ↔
      (x = q ∨ x ∈ (eligList db q d s).map (fun pe => pe.2.room))) ∧
    (∀ r2 ∈ (calcFin ((chainSorted db q d s false).take nb) q d s).map Prod.fst,
      r2 < calcNewLastRoom ((chainSorted db q d s false).take nb)) := by
  have hperm := chainSorted_perm db q d s false
  have hsorted := chainSorted_sorted db q d s false
  have hpkeys := chainSorted_pairwise_keys hwf q d s false
  have hids := chainSorted_ids_nodup hwf q d s false
  set L := chainSorted db q d s false with hLdef
  set R := L.take nb with hRdef
  set D := L.drop nb with hDdef
  have hsplit : R ++ D = L := List.take_append_drop nb L
  -- the last row of the batch and the new resume key
  have hlastq : R.getLast? = some (R.getLast hne) :=
    List.getLast?_eq_getLast_of_ne_nil hne
  have hkey : (calcNewLastRoom R, calcNewLastDepth R d, calcNewLastStream R s)
      = ckey (R.getLast hne).2 := by
    unfold calcNewLastRoom calcNewLastDepth calcNewLastStream ckey
    rw [hlastq]
    rfl
  have hlr_mem : R.getLast hne ∈ R := List.getLast_mem hne
  have hRsubL : ∀ a ∈ R, a ∈ L := by
    rw [← hsplit]
    exact fun a ha => List.mem_append_left _ ha
  have hmemE : ∀ a ∈ R, a ∈ eligList db q d s :=
    fun a ha => hperm.mem_iff.mp (hRsubL a ha)
  have hElig : ∀ a ∈ R, chainEligible db q d s false a = true :=
    fun a ha => List.of_mem_filter (hmemE a ha)
  have hpairL : (R ++ D).Pairwise chainRowLe := by rw [hsplit]; exact hsorted
  have hpairK : (R ++ D).Pairwise (fun a b => ckey a.2 ≠ ckey b.2) := by
    rw [hsplit]; exact hpkeys
  have hpair2 : ∀ a ∈ R, ∀ c ∈ D, chainRowLe a c ∧ ckey a.2 ≠ ckey c.2 :=
    fun a ha c hc => ⟨(List.pairwise_append.mp hpairL).2.2 a ha c hc,
      (List.pairwise_append.mp hpairK).2.2 a ha c hc⟩
  have hidsplit : List.Disjoint (R.map (fun pe => pe.1)) (D.map (fun pe => pe.1)) := by
    have h1 : ((R ++ D).map (fun pe => pe.1)).Nodup := by rw [hsplit]; exact hids
    rw [List.map_append] at h1
    exact (List.nodup_append.mp h1).2.2
  have hwithinR : R.Pairwise chainRowLe := (List.pairwise_append.mp hpairL).1
  have hDgt : ∀ c ∈ D, keyLtb (ckey (R.getLast hne).2) (ckey c.2) = true := by
    intro c hc
    obtain ⟨hle, hnekey⟩ := hpair2 _ hlr_mem c hc
    have hfalse : keyLtb (ckey c.2) (ckey (R.getLast hne).2) = false := by
      unfold chainRowLe keyLeb at hle
      rwa [Bool.not_eq_true'] at hle
    exact keyLtb_of_le_ne hfalse hnekey
  have hDin : ∀ c ∈ D, c ∈ L := by
    rw [← hsplit]
    exact fun c hc => List.mem_append_right _ hc
  have hgoal1 : keyLtb (q, d, s)
      (calcNewLastRoom R, calcNewLastDepth R d, calcNewLastStream R s) = true := by
    rw [hkey]
    exact (chainEligible_iff.mp (hElig _ hlr_mem)).2.2.1
  have hlr_events : R.getLast hne ∈ db.events :=
    List.mem_of_mem_filter (hmemE _ hlr_mem)
  have hNR : calcNewLastRoom R = (R.getLast hne).2.room := congrArg Prod.fst hkey
  have hgoal2 : 0 < calcNewLastRoom R := by
    rw [hNR]
    exact hwf.2.1 _ hlr_events
  -- the advanced-progress invariant after the batch
  have hgoal3 : ∀ pe ∈ db.events, pe.2.hasState = true →
      pe.1 ∉ (chainNextDB db R).indexed →
      keyLtb (calcNewLastRoom R, calcNewLastDepth R d, calcNewLastStream R s)
        (ckey pe.2) = true := by
    intro pe hpe hst hunidx
    have hun : pe.1 ∉ db.indexed ∧ pe.1 ∉ R.map (fun r => r.1) := by
      constructor
      · exact fun h => hunidx (List.mem_append_left _ h)
      · exact fun h => hunidx (List.mem_append_right _ h)
    have hpeE : pe ∈ eligList db q d s :=
      List.mem_filter.mpr ⟨hpe, chainEligible_iff.mpr
        ⟨hst, hun.1, hp2 pe hpe hst hun.1, fun h => Bool.noConfusion h⟩⟩
    have hpeL : pe ∈ L := hperm.mem_iff.mpr hpeE
    rw [← hsplit] at hpeL
    rcases List.mem_append.mp hpeL with h | h
    · exact absurd (List.mem_map.mpr ⟨pe, h, rfl⟩) hun.2
    · rw [hkey]
      exact hDgt pe h
  -- residual eligible rows imply prior eligibility
  have hptless : ∀ pe, chainEligible (chainNextDB db R) (calcNewLastRoom R)
      (calcNewLastDepth R d) (calcNewLastStream R s) false pe = true →
      chainEligible db q d s false pe = true := by
    intro pe h
    rcases chainEligible_iff.mp h with ⟨hst, hunidx, hkeygt, -⟩
    refine chainEligible_iff.mpr ⟨hst, ?_, keyLtb_trans hgoal1 hkeygt,
      fun h2 => Bool.noConfusion h2⟩
    exact fun h2 => hunidx (List.mem_append_left _ h2)
  have hsubE : List.Sublist (eligList (chainNextDB db R) (calcNewLastRoom R)
      (calcNewLastDepth R d) (calcNewLastStream R s)) (eligList db q d s) :=
    List.monotone_filter_right db.events (fun pe h => hptless pe h)
  have hlrE : R.getLast hne ∈ eligList db q d s := hmemE _ hlr_mem
  have hlrnotE1 : R.getLast hne ∉ eligList (chainNextDB db R) (calcNewLastRoom R)
      (calcNewLastDepth R d) (calcNewLastStream R s) := by
    intro hmem
    have h2 := List.of_mem_filter hmem
    have h3 := (chainEligible_iff.mp h2).2.1
    exact h3 (List.mem_append_right _ (List.mem_map.mpr ⟨_, hlr_mem, rfl⟩))
  have hgoal4 : (eligList (chainNextDB db R) (calcNewLastRoom R)
      (calcNewLastDepth R d) (calcNewLastStream R s)).length <
      (eligList db q d s).length := by
    rcases Nat.lt_or_ge (eligList (chainNextDB db R) (calcNewLastRoom R)
        (calcNewLastDepth R d) (calcNewLastStream R s)).length
        (eligList db q d s).length with h | h
    · exact h
    · exfalso
      have hle := hsubE.length_le
      have heq := hsubE.eq_of_length (le_antisymm hle h)
      rw [heq] at hlrnotE1
      exact hlrnotE1 hlrE
  -- membership in the residual eligible set
  have hmemE1 : ∀ pe, pe ∈ eligList (chainNextDB db R) (calcNewLastRoom R)
      (calcNewLastDepth R d) (calcNewLastStream R s) ↔
      (pe ∈ eligList db q d s ∧ pe.1 ∉ R.map (fun r => r.1)) := by
    intro pe
    constructor
    · intro h
      have hev : pe ∈ db.events := List.mem_of_mem_filter h
      have helig := List.of_mem_filter h
      refine ⟨List.mem_filter.mpr ⟨hev, hptless pe helig⟩, ?_⟩
      exact fun h2 => (chainEligible_iff.mp helig).2.1 (List.mem_append_right _ h2)
    · rintro ⟨hE, hnotR⟩
      have hev : pe ∈ db.events := List.mem_of_mem_filter hE
      have heligE := List.of_mem_filter hE
      have hpeL : pe ∈ L := hperm.mem_iff.mpr hE
      rw [← hsplit] at hpeL
      rcases List.mem_append.mp hpeL with h | h
      · exact absurd (List.mem_map.mpr ⟨pe, h, rfl⟩) hnotR
      · refine List.mem_filter.mpr ⟨hev, chainEligible_iff.mpr
          ⟨(chainEligible_iff.mp heligE).1, ?_, ?_, fun h2 => Bool.noConfusion h2⟩⟩
        · intro h2
          rcases List.mem_append.mp h2 with h3 | h3
          · exact (chainEligible_iff.mp heligE).2.1 h3
          · exact hnotR h3
        · rw [hkey]
          exact hDgt pe h
  have hgoal5 : ∀ x, x ∈ ((eligList (chainNextDB db R) (calcNewLastRoom R)
      (calcNewLastDepth R d) (calcNewLastStream R s)).map (fun pe => pe.1)) ↔
      (x ∈ (eligList db q d s).map (fun pe => pe.1) ∧
        x ∉ R.map (fun pe => pe.1)) := by
    intro x
    constructor
    · intro h
      rcases List.mem_map.mp h with ⟨pe, hpe, rfl⟩
      rcases (hmemE1 pe).mp hpe with ⟨hE, hnotR⟩
      exact ⟨List.mem_map.mpr ⟨pe, hE, rfl⟩, hnotR⟩
    · rintro ⟨h, hnotR⟩
      rcases List.mem_map.mp h with ⟨pe, hpe, rfl⟩
      exact List.mem_map.mpr ⟨pe, (hmemE1 pe).mpr ⟨hpe, hnotR⟩, rfl⟩
  have hgoal6 : ∀ x, x ∈ R.map (fun pe => pe.1) →
      x ∈ (eligList db q d s).map (fun pe => pe.1) := by
    intro x h
    rcases List.mem_map.mp h with ⟨pe, hpe, rfl⟩
    exact List.mem_map.mpr ⟨pe, hmemE pe hpe, rfl⟩
  -- room bounds inside the batch
  have hroomsR_le : ∀ a ∈ R, a.2.room ≤ (R.getLast hne).2.room := by
    intro a ha
    rcases pairwise_rel_getLast R hwithinR hne a ha with h | hrel
    · rw [h]
    · unfold chainRowLe keyLeb at hrel
      rw [Bool.not_eq_true'] at hrel
      exact keyLtb_false_room_le hrel
  have hqle : q ≤ calcNewLastRoom R := by
    have := keyLtb_room_le hgoal1
    exact this
  -- flagged-room set decomposition
  have hgoal7 : ∀ x, (x ∈ (calcFin R q d s).map Prod.fst ∨
      x = calcNewLastRoom R ∨
      x ∈ (eligList (chainNextDB db R) (calcNewLastRoom R)
        (calcNewLastDepth R d) (calcNewLastStream R s)).map (fun pe => pe.2.room)) ↔
      (x = q ∨ x ∈ (eligList db q d s).map (fun pe => pe.2.room)) := by
    intro x
    have hfinmem : ∀ y, y ∈ (finishedRoomsOfRows R (calcNewLastRoom R)).map Prod.fst →
        y ∈ (calcFin R q d s).map Prod.fst := by
      intro y hy
      unfold calcFin
      split
      · rw [List.map_append]
        exact List.mem_append_left _ hy
      · exact hy
    constructor
    · rintro (h | rfl | h)
      · -- a finished room is the room of some batch row, or the carried room
        unfold calcFin at h
        have hfin0 : x ∈ (finishedRoomsOfRows R (calcNewLastRoom R)).map Prod.fst →
            x = q ∨ x ∈ (eligList db q d s).map (fun pe => pe.2.room) := by
          intro h0
          rcases (mem_finishedRooms_keys.mp h0).1 with ⟨pe, hpe, hroom⟩
          exact Or.inr (List.mem_map.mpr ⟨pe, hmemE pe hpe, hroom⟩)
        by_cases hcond : ((rowLookup (finishedRoomsOfRows R (calcNewLastRoom R)) q).isNone
            && !(decide (q = calcNewLastRoom R))) = true
        · rw [if_pos hcond] at h
          rw [List.map_append, List.mem_append] at h
          rcases h with h | h
          · exact hfin0 h
          · left
            simpa using h
        · rw [if_neg hcond] at h
          exact hfin0 h
      · rw [hNR]
        exact Or.inr (List.mem_map.mpr ⟨_, hlrE, rfl⟩)
      · rcases List.mem_map.mp h with ⟨pe, hpe, rfl⟩
        exact Or.inr (List.mem_map.mpr ⟨pe, ((hmemE1 pe).mp hpe).1, rfl⟩)
    · rintro (rfl | h)
      · -- the previous resume room ends up flagged one way or another
        by_cases hqnr : x = calcNewLastRoom R
        · exact Or.inr (Or.inl hqnr)
        by_cases hlook : (rowLookup (finishedRoomsOfRows R (calcNewLastRoom R)) x).isNone = true
        · left
          unfold calcFin
          rw [if_pos (by rw [hlook, decide_eq_false hqnr]; rfl)]
          rw [List.map_append]
          refine List.mem_append_right _ ?_
          simp
        · left
          rw [rowLookup_isNone_iff] at hlook
          exact hfinmem x (not_not.mp hlook)
      · rcases List.mem_map.mp h with ⟨pe, hpeE, rfl⟩
        have hpeL : pe ∈ L := hperm.mem_iff.mpr hpeE
        rw [← hsplit] at hpeL
        rcases List.mem_append.mp hpeL with hR2 | hD2
        · by_cases hxnr : pe.2.room = calcNewLastRoom R
          · exact Or.inr (Or.inl hxnr)
          · exact Or.inl (hfinmem _ (mem_finishedRooms_keys.mpr
              ⟨⟨pe, hR2, rfl⟩, hxnr⟩))
        · refine Or.inr (Or.inr (List.mem_map.mpr ⟨pe, ?_, rfl⟩))
          refine (hmemE1 pe).mpr ⟨hpeE, ?_⟩
          exact fun hmm => hidsplit hmm (List.mem_map.mpr ⟨pe, hD2, rfl⟩)
  have hgoal8 : ∀ r2 ∈ (calcFin R q d s).map Prod.fst,
      r2 < calcNewLastRoom R := by
    intro r2 h
    have hfin0lt : ∀ y, y ∈ (finishedRoomsOfRows R (calcNewLastRoom R)).map Prod.fst →
        y < calcNewLastRoom R := by
      intro y h0
      obtain ⟨⟨pe, hpe, hroom⟩, hne2⟩ := mem_finishedRooms_keys.mp h0
      have hle2 := hroomsR_le pe hpe
      rw [hroom] at hle2
      rw [hNR] at hne2 ⊢
      omega
    unfold calcFin at h
    by_cases hcond : ((rowLookup (finishedRoomsOfRows R (calcNewLastRoom R)) q).isNone
        && !(decide (q = calcNewLastRoom R))) = true
    · rw [if_pos hcond] at h
      rw [List.map_append, List.mem_append] at h
      rcases h with h | h
      · exact hfin0lt r2 h
      · have hr2 : r2 = q := by simpa using h
        subst hr2
        rw [Bool.and_eq_true] at hcond
        have hne3 : r2 ≠ calcNewLastRoom R := by
          have h5 := hcond.2
          rw [Bool.not_eq_true', decide_eq_false_iff_not] at h5
          exact h5
        omega
    · rw [if_neg hcond] at h
      exact hfin0lt r2 h
  exact ⟨hgoal1, hgoal2, hgoal3, hgoal4, hgoal5, hgoal6, hgoal7, hgoal8⟩

/-- The finished-rooms loop, run when no unindexed stateful event remains in
any of the listed rooms: the rescans find nothing, the flags gain exactly the
listed rooms, and the trace pairs each flag flip with its immediate rescan. -/
theorem chainFlagLoop_spec :
    ∀ (entries : List (Nat × (Int × Int))) (db : ChainDB),
      (∀ e ∈ entries, ∀ pe ∈ db.events, pe.2.hasState = true →
        pe.1 ∉ db.indexed → pe.2.room ≠ e.1) →
      ((chainFlagLoop db entries).1.events = db.events ∧
       (chainFlagLoop db entries).1.indexed = db.indexed ∧
       (∀ x, x ∈ (chainFlagLoop db entries).1.flags ↔
          x ∈ db.flags ∨ x ∈ entries.map Prod.fst) ∧
       TraceOK (chainFlagLoop db entries).2) := by
  intro entries
  induction entries with
  | nil =>
    intro db hpre
    refine ⟨rfl, rfl, fun x => ?_, trivial⟩
    show x ∈ db.flags ↔ _
    simp
  | cons e rest ih =>
    obtain ⟨r, dd, ss⟩ := e
    intro db hpre
    have hfilter : (flagRoom db r).events.filter
        (chainEligible (flagRoom db r) r dd ss true) = [] := by
      rw [List.filter_eq_nil_iff]
      intro pe hpe hcontra
      rcases chainEligible_iff.mp hcontra with ⟨hst, hunidx, -, hroom⟩
      rw [flagRoom_indexed] at hunidx
      rw [flagRoom_events] at hpe
      exact hpre (r, dd, ss) (List.mem_cons_self _ _) pe hpe hst hunidx (hroom rfl)
    have hrows : chainRows (flagRoom db r) r dd ss none true = [] := by
      show List.insertionSort chainRowLe ((flagRoom db r).events.filter
        (chainEligible (flagRoom db r) r dd ss true)) = []
      rw [hfilter]
      rfl
    have hdb2idx : (calculateChainCover (flagRoom db r) r dd ss none true).1.indexed
        = db.indexed := by
      show (flagRoom db r).indexed ++
        (chainRows (flagRoom db r) r dd ss none true).map (fun r => r.1) = db.indexed
      rw [hrows, flagRoom_indexed]
      simp
    have hdb2ev : (calculateChainCover (flagRoom db r) r dd ss none true).1.events
        = db.events := flagRoom_events db r
    have hpre2 : ∀ e ∈ rest,
        ∀ pe ∈ (calculateChainCover (flagRoom db r) r dd ss none true).1.events,
          pe.2.hasState = true →
          pe.1 ∉ (calculateChainCover (flagRoom db r) r dd ss none true).1.indexed →
          pe.2.room ≠ e.1 := by
      intro e2 he2 pe hpe hst hunidx
      rw [hdb2ev] at hpe
      rw [hdb2idx] at hunidx
      exact hpre e2 (List.mem_cons_of_mem _ he2) pe hpe hst hunidx
    obtain ⟨ihev, ihidx, ihflags, ihtr⟩ :=
      ih (calculateChainCover (flagRoom db r) r dd ss none true).1 hpre2
    refine ⟨?_, ?_, ?_, ?_⟩
    · rw [show (chainFlagLoop db ((r, dd, ss) :: rest)).1 =
        (chainFlagLoop (calculateChainCover (flagRoom db r) r dd ss none true).1 rest).1
        from rfl]
      rw [ihev, hdb2ev]
    · rw [show (chainFlagLoop db ((r, dd, ss) :: rest)).1 =
        (chainFlagLoop (calculateChainCover (flagRoom db r) r dd ss none true).1 rest).1
        from rfl]
      rw [ihidx, hdb2idx]
    · intro x
      rw [show (chainFlagLoop db ((r, dd, ss) :: rest)).1 =
        (chainFlagLoop (calculateChainCover (flagRoom db r) r dd ss none true).1 rest).1
        from rfl]
      rw [ihflags x]
      have hfl : x ∈ (calculateChainCover (flagRoom db r) r dd ss none true).1.flags ↔
          x ∈ db.flags ∨ x = r := mem_flagRoom_flags
      rw [hfl]
      simp only [List.map_cons, List.mem_cons]
      tauto
    · show TraceOK ((ChainAction.setFlag r, flagRoom db r) ::
        (ChainAction.rescan r
            (calculateChainCover (flagRoom db r) r dd ss none true).2.ids,
          (calculateChainCover (flagRoom db r) r dd ss none true).1) ::
        (chainFlagLoop (calculateChainCover (flagRoom db r) r dd ss none true).1 rest).2)
      refine ⟨?_, ⟨_, _, _, rfl⟩, ?_⟩
      · intro pe hpe hst hroom
        rw [flagRoom_events] at hpe
        rw [flagRoom_indexed]
        by_contra hnot
        exact hpre (r, dd, ss) (List.mem_cons_self _ _) pe hpe hst hnot hroom
      · exact ihtr

set_option maxHeartbeats 1600000 in
/-- Characterization of a complete chain-cover run from any resume key: the
events are untouched, the indexed set gains exactly the remaining eligible
events, the flags gain the resume room together with the rooms of the
remaining eligible events (or just the non-sentinel resume room when nothing
remains), and the trace is temporally wellformed. -/
theorem chainCoverRun_spec (bs : Option Nat)
    (hbs : bs = none ∨ ∃ b, bs = some b ∧ 1 ≤ b) :
    ∀ (fuel : Nat) (db : ChainDB) (rr : Nat) (dd ss : Int),
      db.wf →
      (∀ pe ∈ db.events, pe.2.hasState = true → pe.1 ∉ db.indexed →
        keyLtb (rr, dd, ss) (ckey pe.2) = true) →
      (eligList db rr dd ss).length < fuel →
      ((chainCoverRun bs fuel db ⟨rr, dd, ss⟩).1.events = db.events ∧
       (∀ x, x ∈ (chainCoverRun bs fuel db ⟨rr, dd, ss⟩).1.indexed ↔
         x ∈ db.indexed ∨ x ∈ (eligList db rr dd ss).map (fun pe => pe.1)) ∧
       (∀ x, x ∈ (chainCoverRun bs fuel db ⟨rr, dd, ss⟩).1.flags ↔
         x ∈ db.flags ∨
         (eligList db rr dd ss ≠ [] ∧
           (x = rr ∨ x ∈ (eligList db rr dd ss).map (fun pe => pe.2.room))) ∨
         (eligList db rr dd ss = [] ∧ rr ≠ 0 ∧ x = rr)) ∧
       TraceOK (chainCoverRun bs fuel db ⟨rr, dd, ss⟩).2) := by
  intro fuel
  induction fuel with
  | zero =>
    intro db rr dd ss hwf hp2 hfuel
    omega
  | succ fuel ih =>
    intro db rr dd ss hwf hp2 hfuel
    by_cases hrows : chainRows db rr dd ss bs false = []
    · -- nothing remains: the run flags the carried resume room and stops
      have hL : chainSorted db rr dd ss false = [] := by
        obtain ⟨nb, hReq, hne2⟩ := chainRows_eq_take db rr dd ss bs hbs
        by_contra hcon
        exact (hne2 hcon) hrows
      have hE : eligList db rr dd ss = [] := by
        have hperm := chainSorted_perm db rr dd ss false
        rw [hL] at hperm
        exact hperm.symm.eq_nil
      have hcount : (calculateChainCover db rr dd ss bs false).2.processedCount = 0 := by
        show ((chainRows db rr dd ss bs false).map (fun r => r.1)).length = 0
        rw [hrows]
        rfl
      have hopt : (chainCoverStep db ⟨rr, dd, ss⟩ bs).2.1 = none := by
        show (if (calculateChainCover db rr dd ss bs false).2.processedCount = 0
          then none
          else some (⟨(calculateChainCover db rr dd ss bs false).2.roomId,
            (calculateChainCover db rr dd ss bs false).2.depth,
            (calculateChainCover db rr dd ss bs false).2.stream⟩ : ChainProgress)) =
          (none : Option ChainProgress)
        rw [if_pos hcount]
      have hrun : chainCoverRun bs (fuel + 1) db ⟨rr, dd, ss⟩ =
          ((chainCoverStep db ⟨rr, dd, ss⟩ bs).1,
            (chainCoverStep db ⟨rr, dd, ss⟩ bs).2.2) := by
        conv_lhs => rw [chainCoverRun, hopt]
      -- no unindexed stateful event remains at all
      have hnostate : ∀ pe ∈ db.events, pe.2.hasState = true →
          pe.1 ∉ db.indexed → False := by
        intro pe hpe hst hunidx
        have hmem : pe ∈ eligList db rr dd ss := List.mem_filter.mpr ⟨hpe,
          chainEligible_iff.mpr ⟨hst, hunidx, hp2 pe hpe hst hunidx,
            fun h => Bool.noConfusion h⟩⟩
        rw [hE] at hmem
        cases hmem
      have hdb1idx : (calculateChainCover db rr dd ss bs false).1.indexed
          = db.indexed := by
        show db.indexed ++ (chainRows db rr dd ss bs false).map (fun r => r.1)
          = db.indexed
        rw [hrows]
        simp
      have hpre1 : ∀ e ∈ calcFin (chainRows db rr dd ss bs false) rr dd ss,
          ∀ pe ∈ (calculateChainCover db rr dd ss bs false).1.events,
            pe.2.hasState = true →
            pe.1 ∉ (calculateChainCover db rr dd ss bs false).1.indexed →
            pe.2.room ≠ e.1 := by
        intro e2 he2 pe hpe hst hunidx
        rw [hdb1idx] at hunidx
        exact absurd (hnostate pe hpe hst hunidx) (fun h => h)
      obtain ⟨hfev, hfidx, hfflags, hftr⟩ :=
        chainFlagLoop_spec (calcFin (chainRows db rr dd ss bs false) rr dd ss)
          (calculateChainCover db rr dd ss bs false).1 hpre1
      have hfinkeys : ∀ x, x ∈ (calcFin (chainRows db rr dd ss bs false) rr dd ss).map
          Prod.fst ↔ (rr ≠ 0 ∧ x = rr) := by
        intro x
        rw [hrows]
        by_cases hr0 : rr = 0
        · subst hr0
          constructor
          · intro h
            have : calcFin ([] : List (Nat × ChainEvent)) 0 dd ss = [] := rfl
            rw [this] at h
            cases h
          · rintro ⟨h, -⟩
            exact absurd rfl h
        · have hcond : ((rowLookup (finishedRoomsOfRows ([] : List (Nat × ChainEvent))
              (calcNewLastRoom ([] : List (Nat × ChainEvent)))) rr).isNone
              && !(decide (rr = calcNewLastRoom ([] : List (Nat × ChainEvent))))) = true := by
            rw [show calcNewLastRoom ([] : List (Nat × ChainEvent)) = 0 from rfl]
            rw [decide_eq_false hr0]
            rfl
          have hfin : calcFin ([] : List (Nat × ChainEvent)) rr dd ss
              = [(rr, (dd, ss))] := by
            unfold calcFin
            rw [if_pos hcond]
            rfl
          rw [hfin]
          simp [hr0]
      rw [hrun]
      refine ⟨?_, ?_, ?_, ?_⟩
      · rw [show (chainCoverStep db ⟨rr, dd, ss⟩ bs).1 =
          (chainFlagLoop (calculateChainCover db rr dd ss bs false).1
            (calcFin (chainRows db rr dd ss bs false) rr dd ss)).1 from rfl]
        rw [hfev]
        rfl
      · intro x
        rw [show (chainCoverStep db ⟨rr, dd, ss⟩ bs).1 =
          (chainFlagLoop (calculateChainCover db rr dd ss bs false).1
            (calcFin (chainRows db rr dd ss bs false) rr dd ss)).1 from rfl]
        rw [hfidx, hdb1idx, hE]
        simp
      · intro x
        rw [show (chainCoverStep db ⟨rr, dd, ss⟩ bs).1 =
          (chainFlagLoop (calculateChainCover db rr dd ss bs false).1
            (calcFin (chainRows db rr dd ss bs false) rr dd ss)).1 from rfl]
        rw [hfflags x, hfinkeys x, hE]
        have hdb1fl : (calculateChainCover db rr dd ss bs false).1.flags = db.flags := rfl
        rw [hdb1fl]
        simp only [ne_eq, not_true_eq_false, false_and, false_or]
        tauto
      · show TraceOK ((ChainAction.batchScan
            (calculateChainCover db rr dd ss bs false).2.ids,
          (calculateChainCover db rr dd ss bs false).1) ::
          (chainFlagLoop (calculateChainCover db rr dd ss bs false).1
            (calcFin (chainRows db rr dd ss bs false) rr dd ss)).2)
        exact hftr
    · -- a nonempty batch: index it, flag the finished rooms, recurse
      obtain ⟨nb, hReq, -⟩ := chainRows_eq_take db rr dd ss bs hbs
      have hne2 : (chainSorted db rr dd ss false).take nb ≠ [] := by
        rw [← hReq]
        exact hrows
      have hcore := chainStep_aux db rr dd ss nb hwf hp2 hne2
      rw [← hReq] at hcore
      obtain ⟨hc1, hc2, hc3, hc4, hc5, hc6, hc7, hc8⟩ := hcore
      have hEne : eligList db rr dd ss ≠ [] := by
        intro hcon
        have hperm2 : List.Perm (chainSorted db rr dd ss false)
            (eligList db rr dd ss) := chainSorted_perm db rr dd ss false
        rw [hcon] at hperm2
        have hL : chainSorted db rr dd ss false = [] := hperm2.eq_nil
        have hcon2 : chainRows db rr dd ss bs false = [] := by
          rw [hReq, hL]
          simp
        exact hrows hcon2
      have hcount : (calculateChainCover db rr dd ss bs false).2.processedCount ≠ 0 := by
        show ((chainRows db rr dd ss bs false).map (fun r => r.1)).length ≠ 0
        intro hc
        rw [List.length_eq_zero, List.map_eq_nil_iff] at hc
        exact hrows hc
      have hopt : (chainCoverStep db ⟨rr, dd, ss⟩ bs).2.1 =
          some ⟨calcNewLastRoom (chainRows db rr dd ss bs false),
                calcNewLastDepth (chainRows db rr dd ss bs false) dd,
                calcNewLastStream (chainRows db rr dd ss bs false) ss⟩ := by
        show (if (calculateChainCover db rr dd ss bs false).2.processedCount = 0
          then none
          else some (⟨(calculateChainCover db rr dd ss bs false).2.roomId,
            (calculateChainCover db rr dd ss bs false).2.depth,
            (calculateChainCover db rr dd ss bs false).2.stream⟩ : ChainProgress)) = _
        rw [if_neg hcount]
        rfl
      have hrun : chainCoverRun bs (fuel + 1) db ⟨rr, dd, ss⟩ =
          ((chainCoverRun bs fuel (chainCoverStep db ⟨rr, dd, ss⟩ bs).1
              ⟨calcNewLastRoom (chainRows db rr dd ss bs false),
               calcNewLastDepth (chainRows db rr dd ss bs false) dd,
               calcNewLastStream (chainRows db rr dd ss bs false) ss⟩).1,
            (chainCoverStep db ⟨rr, dd, ss⟩ bs).2.2 ++
              (chainCoverRun bs fuel (chainCoverStep db ⟨rr, dd, ss⟩ bs).1
                ⟨calcNewLastRoom (chainRows db rr dd ss bs false),
                 calcNewLastDepth (chainRows db rr dd ss bs false) dd,
                 calcNewLastStream (chainRows db rr dd ss bs false) ss⟩).2) := by
        conv_lhs => rw [chainCoverRun, hopt]
      have hpre1 : ∀ e ∈ calcFin (chainRows db rr dd ss bs false) rr dd ss,
          ∀ pe ∈ (chainNextDB db (chainRows db rr dd ss bs false)).events,
            pe.2.hasState = true →
            pe.1 ∉ (chainNextDB db (chainRows db rr dd ss bs false)).indexed →
            pe.2.room ≠ e.1 := by
        intro e2 he2 pe hpe hst hunidx hcontra
        have hkeygt := hc3 pe hpe hst hunidx
        have hroomge : calcNewLastRoom (chainRows db rr dd ss bs false) ≤ pe.2.room :=
          keyLtb_room_le hkeygt
        have hlt := hc8 e2.1 (List.mem_map.mpr ⟨e2, he2, rfl⟩)
        rw [hcontra] at hroomge
        omega
      obtain ⟨hfev, hfidx, hfflags, hftr⟩ :=
        chainFlagLoop_spec (calcFin (chainRows db rr dd ss bs false) rr dd ss)
          (chainNextDB db (chainRows db rr dd ss bs false)) hpre1
      have hstep1 : (chainCoverStep db ⟨rr, dd, ss⟩ bs).1 =
          (chainFlagLoop (chainNextDB db (chainRows db rr dd ss bs false))
            (calcFin (chainRows db rr dd ss bs false) rr dd ss)).1 := rfl
      have hwf2 : (chainFlagLoop (chainNextDB db (chainRows db rr dd ss bs false))
          (calcFin (chainRows db rr dd ss bs false) rr dd ss)).1.wf :=
        ChainDB.wf_congr (hfev.trans rfl) hwf
      have hEfinal : eligList (chainFlagLoop (chainNextDB db (chainRows db rr dd ss bs false))
            (calcFin (chainRows db rr dd ss bs false) rr dd ss)).1
          (calcNewLastRoom (chainRows db rr dd ss bs false))
          (calcNewLastDepth (chainRows db rr dd ss bs false) dd)
          (calcNewLastStream (chainRows db rr dd ss bs false) ss) =
          eligList (chainNextDB db (chainRows db rr dd ss bs false))
          (calcNewLastRoom (chainRows db rr dd ss bs false))
          (calcNewLastDepth (chainRows db rr dd ss bs false) dd)
          (calcNewLastStream (chainRows db rr dd ss bs false) ss) := by
        unfold eligList
        rw [hfev]
        exact List.filter_congr (fun pe _ => chainEligible_congr hfidx _ _ _ _ pe)
      have hp2next : ∀ pe ∈ (chainFlagLoop (chainNextDB db (chainRows db rr dd ss bs false))
            (calcFin (chainRows db rr dd ss bs false) rr dd ss)).1.events,
          pe.2.hasState = true →
          pe.1 ∉ (chainFlagLoop (chainNextDB db (chainRows db rr dd ss bs false))
            (calcFin (chainRows db rr dd ss bs false) rr dd ss)).1.indexed →
          keyLtb (calcNewLastRoom (chainRows db rr dd ss bs false),
            calcNewLastDepth (chainRows db rr dd ss bs false) dd,
            calcNewLastStream (chainRows db rr dd ss bs false) ss) (ckey pe.2) = true := by
        intro pe hpe hst hunidx
        rw [hfev] at hpe
        rw [hfidx] at hunidx
        exact hc3 pe hpe hst hunidx
      have hlen2 : (eligList (chainFlagLoop (chainNextDB db (chainRows db rr dd ss bs false))
            (calcFin (chainRows db rr dd ss bs false) rr dd ss)).1
          (calcNewLastRoom (chainRows db rr dd ss bs false))
          (calcNewLastDepth (chainRows db rr dd ss bs false) dd)
          (calcNewLastStream (chainRows db rr dd ss bs false) ss)).length < fuel := by
        rw [hEfinal]
        omega
      obtain ⟨ihev, ihidx, ihflags, ihtr⟩ :=
        ih (chainFlagLoop (chainNextDB db (chainRows db rr dd ss bs false))
            (calcFin (chainRows db rr dd ss bs false) rr dd ss)).1
          (calcNewLastRoom (chainRows db rr dd ss bs false))
          (calcNewLastDepth (chainRows db rr dd ss bs false) dd)
          (calcNewLastStream (chainRows db rr dd ss bs false) ss)
          hwf2 hp2next hlen2
      rw [hrun]
      refine ⟨?_, ?_, ?_, ?_⟩
      · rw [hstep1]
        rw [ihev, hfev]
        rfl
      · intro x
        rw [hstep1]
        rw [ihidx x, hEfinal, hfidx]
        have hidx1 : x ∈ (chainNextDB db (chainRows db rr dd ss bs false)).indexed ↔
            x ∈ db.indexed ∨ x ∈ (chainRows db rr dd ss bs false).map (fun pe => pe.1) := by
          show x ∈ db.indexed ++ (chainRows db rr dd ss bs false).map (fun r => r.1) ↔ _
          exact List.mem_append
        rw [hidx1, hc5 x]
        have hsubid := hc6 x
        constructor
        · rintro ((h | h) | ⟨h, -⟩)
          · exact Or.inl h
          · exact Or.inr (hsubid h)
          · exact Or.inr h
        · rintro (h | h)
          · exact Or.inl (Or.inl h)
          · by_cases hR2 : x ∈ (chainRows db rr dd ss bs false).map (fun pe => pe.1)
            · exact Or.inl (Or.inr hR2)
            · exact Or.inr ⟨h, hR2⟩
      · intro x
        rw [hstep1]
        rw [ihflags x, hEfinal, hfflags x]
        have hfl1 : (chainNextDB db (chainRows db rr dd ss bs false)).flags
            = db.flags := rfl
        rw [hfl1]
        have hA := hc7 x
        have hnr0 : calcNewLastRoom (chainRows db rr dd ss bs false) ≠ 0 := by omega
        constructor
        · rintro ((h | h) | ⟨-, (h | h)⟩ | ⟨-, -, h⟩)
          · exact Or.inl h
          · exact Or.inr (Or.inl ⟨hEne, hA.mp (Or.inl h)⟩)
          · exact Or.inr (Or.inl ⟨hEne, hA.mp (Or.inr (Or.inl h))⟩)
          · exact Or.inr (Or.inl ⟨hEne, hA.mp (Or.inr (Or.inr h))⟩)
          · exact Or.inr (Or.inl ⟨hEne, hA.mp (Or.inr (Or.inl h))⟩)
        · rintro (h | ⟨-, h⟩ | ⟨hEeq, -, -⟩)
          · exact Or.inl (Or.inl h)
          · rcases hA.mpr h with h2 | h2 | h2
            · exact Or.inl (Or.inr h2)
            · by_cases hE2 : eligList (chainNextDB db (chainRows db rr dd ss bs false))
                  (calcNewLastRoom (chainRows db rr dd ss bs false))
                  (calcNewLastDepth (chainRows db rr dd ss bs false) dd)
                  (calcNewLastStream (chainRows db rr dd ss bs false) ss) = []
              · exact Or.inr (Or.inr ⟨hE2, hnr0, h2⟩)
              · exact Or.inr (Or.inl ⟨hE2, Or.inl h2⟩)
            · refine Or.inr (Or.inl ⟨?_, Or.inr h2⟩)
              intro hE2
              rw [hE2] at h2
              simp at h2
          · exact absurd hEeq hEne
      · refine TraceOK.append ?_ ihtr
        show TraceOK ((ChainAction.batchScan
            (calculateChainCover db rr dd ss bs false).2.ids,
          (calculateChainCover db rr dd ss bs false).1) ::
          (chainFlagLoop (chainNextDB db (chainRows db rr dd ss bs false))
            (calcFin (chainRows db rr dd ss bs false) rr dd ss)).2)
        exact hftr

/-- Batch-size independence of a complete job run from the fresh sentinel
checkpoint `("", -1, -1)`: batched and unbounded runs produce the same final
set of chain-cover entries and per-room flags (special case of the
arbitrary-checkpoint statement below). -/
theorem chain_cover_batch_independent (db : ChainDB) (b : Nat)
    (hwf : db.wf) (hb : 1 ≤ b) :
    (∀ x, x ∈ (chainCoverJob db (some b)).1.indexed ↔
      x ∈ (chainCoverJob db none).1.indexed) ∧
    (∀ x, x ∈ (chainCoverJob db (some b)).1.flags ↔
      x ∈ (chainCoverJob db none).1.flags) := by
  have hp2 : ∀ pe ∈ db.events, pe.2.hasState = true → pe.1 ∉ db.indexed →
      keyLtb (0, -1, -1) (ckey pe.2) = true := by
    intro pe hpe h1 h2
    exact keyLtb_of_room_lt (hwf.2.1 pe hpe)
  have hfuel : (eligList db 0 (-1) (-1)).length < db.events.length + 1 := by
    have h1 := List.length_filter_le (chainEligible db 0 (-1) (-1) false) db.events
    have h2 : (eligList db 0 (-1) (-1)).length =
        (db.events.filter (chainEligible db 0 (-1) (-1) false)).length := rfl
    omega
  obtain ⟨-, hidx1, hfl1, -⟩ := chainCoverRun_spec (some b) (Or.inr ⟨b, rfl, hb⟩)
    (db.events.length + 1) db 0 (-1) (-1) hwf hp2 hfuel
  obtain ⟨-, hidx2, hfl2, -⟩ := chainCoverRun_spec none (Or.inl rfl)
    (db.events.length + 1) db 0 (-1) (-1) hwf hp2 hfuel
  constructor
  · intro x
    rw [show (chainCoverJob db (some b)).1 =
      (chainCoverRun (some b) (db.events.length + 1) db ⟨0, -1, -1⟩).1 from rfl]
    rw [show (chainCoverJob db none).1 =
      (chainCoverRun none (db.events.length + 1) db ⟨0, -1, -1⟩).1 from rfl]
    rw [hidx1 x, hidx2 x]
  · intro x
    rw [show (chainCoverJob db (some b)).1 =
      (chainCoverRun (some b) (db.events.length + 1) db ⟨0, -1, -1⟩).1 from rfl]
    rw [show (chainCoverJob db none).1 =
      (chainCoverRun none (db.events.length + 1) db ⟨0, -1, -1⟩).1 from rfl]
    rw [hfl1 x, hfl2 x]

/-- Witness for the sentinel-checkpoint corollary on a one-event database
with batch size 1. -/
theorem chain_cover_batch_independent_witness :
    (∀ x, x ∈ (chainCoverJob ⟨[(5, ⟨1, 1, 1, true⟩)], [], []⟩ (some 1)).1.indexed ↔
      x ∈ (chainCoverJob ⟨[(5, ⟨1, 1, 1, true⟩)], [], []⟩ none).1.indexed) ∧
    (∀ x, x ∈ (chainCoverJob ⟨[(5, ⟨1, 1, 1, true⟩)], [], []⟩ (some 1)).1.flags ↔
      x ∈ (chainCoverJob ⟨[(5, ⟨1, 1, 1, true⟩)], [], []⟩ none).1.flags) :=
  chain_cover_batch_independent ⟨[(5, ⟨1, 1, 1, true⟩)], [], []⟩ 1
    (by decide) (by decide)

/-- **C2**: for every wellformed database, every starting checkpoint
`(rr, dd, ss)` that the job can actually resume from — one at or before all
still-unindexed stateful events, the invariant of every progress row the job
persists, since a batch indexes each eligible row it passes — and every
batch size `b ≥ 1`, driving the job to completion in batches of `b` produces
the same final *set* of chain-cover entries and the same final *set* of
per-room `has_auth_chain_index` flags as driving it to completion with no
batch limit, whatever sufficient iteration fuel either side is given.  The
insertion orders differ, but the job's cumulative effect is batch-size
independent from every checkpoint. -/
theorem chain_cover_batch_independent_from_checkpoint (db : ChainDB)
    (rr : Nat) (dd ss : Int) (b f1 f2 : Nat)
    (hwf : db.wf) (hb : 1 ≤ b)
    (hp2 : ∀ pe ∈ db.events, pe.2.hasState = true → pe.1 ∉ db.indexed →
      keyLtb (rr, dd, ss) (ckey pe.2) = true)
    (hf1 : (eligList db rr dd ss).length < f1)
    (hf2 : (eligList db rr dd ss).length < f2) :
    (∀ x, x ∈ (chainCoverRun (some b) f1 db ⟨rr, dd, ss⟩).1.indexed ↔
      x ∈ (chainCoverRun none f2 db ⟨rr, dd, ss⟩).1.indexed) ∧
    (∀ x, x ∈ (chainCoverRun (some b) f1 db ⟨rr, dd, ss⟩).1.flags ↔
      x ∈ (chainCoverRun none f2 db ⟨rr, dd, ss⟩).1.flags) := by
  obtain ⟨-, hidx1, hfl1, -⟩ := chainCoverRun_spec (some b) (Or.inr ⟨b, rfl, hb⟩)
    f1 db rr dd ss hwf hp2 hf1
  obtain ⟨-, hidx2, hfl2, -⟩ := chainCoverRun_spec none (Or.inl rfl)
    f2 db rr dd ss hwf hp2 hf2
  constructor
  · intro x
    rw [hidx1 x, hidx2 x]
  · intro x
    rw [hfl1 x, hfl2 x]

/-- Witness for C2 at a mid-job checkpoint: room 1's event is already
indexed, the checkpoint (1, 5, 5) lies beyond it, and room 2's event is
still to come; batch size 1 and unbounded runs agree whatever fuel each is
given. -/
theorem chain_cover_batch_independent_from_checkpoint_witness :
    (∀ x, x ∈ (chainCoverRun (some 1) 3
        ⟨[(5, ⟨1, 1, 1, true⟩), (6, ⟨2, 1, 1, true⟩)], [5], []⟩
        ⟨1, 5, 5⟩).1.indexed ↔
      x ∈ (chainCoverRun none 4
        ⟨[(5, ⟨1, 1, 1, true⟩), (6, ⟨2, 1, 1, true⟩)], [5], []⟩
        ⟨1, 5, 5⟩).1.indexed) ∧
    (∀ x, x ∈ (chainCoverRun (some 1) 3
        ⟨[(5, ⟨1, 1, 1, true⟩), (6, ⟨2, 1, 1, true⟩)], [5], []⟩
        ⟨1, 5, 5⟩).1.flags ↔
      x ∈ (chainCoverRun none 4
        ⟨[(5, ⟨1, 1, 1, true⟩), (6, ⟨2, 1, 1, true⟩)], [5], []⟩
        ⟨1, 5, 5⟩).1.flags) :=
  chain_cover_batch_independent_from_checkpoint
    ⟨[(5, ⟨1, 1, 1, true⟩), (6, ⟨2, 1, 1, true⟩)], [5], []⟩ 1 5 5 1 3 4
    (by decide) (by decide) (by decide) (by decide) (by decide)

/-- **C3** counterexample to the claim as stated: on a one-event database the
complete job trace flips the flag of room 1 (fourth action) with *no* rescan
of room 1 anywhere earlier in the trace — the flag update runs before the
single-room rescan, not after it. -/
theorem chain_flag_before_rescan_counterexample :
    ((chainCoverJob ⟨[(5, ⟨1, 1, 1, true⟩)], [], []⟩ none).2.map (fun e => e.1)) =
      [ChainAction.batchScan [5], ChainAction.setFlag 0, ChainAction.rescan 0 [],
       ChainAction.batchScan [], ChainAction.setFlag 1, ChainAction.rescan 1 []] ∧
    (((chainCoverJob ⟨[(5, ⟨1, 1, 1, true⟩)], [], []⟩ none).2.map
        (fun e => e.1)).take 4).all
      (fun a => match a with
        | ChainAction.rescan r2 _ => !(r2 == 1)
        | _ => true) = true := by
  refine ⟨by decide, by decide⟩

/-- **C3** (corrected): along every complete run of the chain-cover job, at
the moment `has_auth_chain_index` is flipped for a room every stateful event
of that room is already chain-cover indexed, and the flip is immediately
*followed* by the unlimited single-room rescan of that room.  The claim's
"set only after re-scanning" inverts the order: the code flips the flag
first and rescans right after (the rescan closes the race the comment
describes). -/
theorem chain_flag_covered_then_rescan (db : ChainDB) (bs : Option Nat)
    (hwf : db.wf) (hbs : bs = none ∨ ∃ b, bs = some b ∧ 1 ≤ b) :
    TraceOK (chainCoverJob db bs).2 := by
  have hp2 : ∀ pe ∈ db.events, pe.2.hasState = true → pe.1 ∉ db.indexed →
      keyLtb (0, -1, -1) (ckey pe.2) = true := by
    intro pe hpe h1 h2
    exact keyLtb_of_room_lt (hwf.2.1 pe hpe)
  have hfuel : (eligList db 0 (-1) (-1)).length < db.events.length + 1 := by
    have h1 := List.length_filter_le (chainEligible db 0 (-1) (-1) false) db.events
    have h2 : (eligList db 0 (-1) (-1)).length =
        (db.events.filter (chainEligible db 0 (-1) (-1) false)).length := rfl
    omega
  exact (chainCoverRun_spec bs hbs (db.events.length + 1) db 0 (-1) (-1)
    hwf hp2 hfuel).2.2.2

/-- Witness for C3 on a one-event database with no batch limit. -/
theorem chain_flag_covered_then_rescan_witness :
    TraceOK (chainCoverJob ⟨[(5, ⟨1, 1, 1, true⟩)], [], []⟩ none).2 :=
  chain_flag_covered_then_rescan ⟨[(5, ⟨1, 1, 1, true⟩)], [], []⟩ none
    (by decide) (Or.inl rfl)

/-! ## Claim C7: joined-rooms backfill stale-state abort -/

/-- Claim C7.  The claim states that on detecting a relevant post-gather
state delta the job persists progress up to the previous (last successfully
written) room and aborts.  Evaluating the transaction on a batch of two
rooms where only the second is stale shows the code instead issues the
progress save naming the stale room itself (room 2, not room 1): on retry
the pagination `room_id > last_room_id` would then skip the stale room
forever, contradicting the claim's (and the code comment's) intent of
re-running the batch.  No upsert is issued for the stale room. -/
theorem joined_backfill_progress_names_failing_room :
    joinedRoomsBackfillTxn
        ⟨[(2, ⟨5, 6, 10⟩)], [(5, 6)]⟩
        [⟨1, [(0, 1)], 3, 4, 9⟩, ⟨2, [(0, 2)], 3, 4, 9⟩] =
      JoinedBackfillResult.aborted (some 2) [(1, (3, 4, [(0, 1)]))] ∧
    (2 : Nat) ≠ 1 := by
  constructor
  · rfl
  · decide

/-! ## Claim C8: outlier-LEAVE snapshot derivation -/

/-- Counterexample to claim C8 as stated: for a (room, user) with membership
history knock (stream 1, carrying stripped state [7]), join (stream 2),
outlier leave (stream 3), the code derives the snapshot from the stripped
state of the *immediately preceding membership row* -- the join, which
carries none -- while the claim says it is derived from the stripped state
of the immediately preceding invite/knock event, i.e. from [7]. -/
theorem snapshot_leave_outlier_counterexample :
    deriveSnapshotValues
        ⟨[⟨1, 2, 3, 10, MKind.knock, 1, false, false⟩,
          ⟨1, 2, 3, 11, MKind.join, 2, false, false⟩,
          ⟨1, 2, 3, 12, MKind.leave, 3, true, false⟩],
         [(10, ⟨none, some [7]⟩), (11, ⟨none, none⟩), (12, ⟨none, none⟩)]⟩
        ⟨1, 2, 3, 12, MKind.leave, 3, true, false⟩ =
      Except.ok (SnapshotValues.fromStripped none) ∧
    specSnapshotFromPrevInviteKnock
        ⟨[⟨1, 2, 3, 10, MKind.knock, 1, false, false⟩,
          ⟨1, 2, 3, 11, MKind.join, 2, false, false⟩,
          ⟨1, 2, 3, 12, MKind.leave, 3, true, false⟩],
         [(10, ⟨none, some [7]⟩), (11, ⟨none, none⟩), (12, ⟨none, none⟩)]⟩
        ⟨1, 2, 3, 12, MKind.leave, 3, true, false⟩ =
      some (SnapshotValues.fromStripped (some [7])) ∧
    SnapshotValues.fromStripped (none : Option (List Nat)) ≠
      SnapshotValues.fromStripped (some [7]) := by
  refine ⟨by rfl, by rfl, by decide⟩

/-- Amended claim C8: for a LEAVE row that is an outlier, the snapshot's
derived columns are computed from the stripped state carried on the
immediately preceding *membership* event of that (room, user) -- which the
code does not require to be an invite/knock -- so whenever that immediately
preceding event is an invite or knock, its stripped state is used (and the
LEAVE event's own payload is never consulted). -/
theorem snapshot_leave_outlier_uses_previous_membership (db : MemDB)
    (row : MembershipRow) (eid : Nat) (mem : MKind) (ev : MemEventContent)
    (hleave : row.membership = MKind.leave) (hout : row.outlier = true)
    (hprev : findPreviousMembership db row.roomId row.userId row.streamOrdering =
      some (eid, mem))
    (hev : rowLookup db.events eid = some ev) :
    deriveSnapshotValues db row =
      Except.ok (SnapshotValues.fromStripped (strippedOf mem ev)) := by
  obtain ⟨rid, uid, snd, reid, memb, so, outl, forg⟩ := row
  simp only at hleave hout hprev
  subst hleave
  subst hout
  unfold deriveSnapshotValues
  simp only [reduceCtorEq, if_false, reduceIte]
  rw [hprev]
  simp [hev, Bind.bind, Except.bind]

/-- Witness for the amended claim C8: a knock (carrying stripped state [9])
immediately followed by an outlier leave. -/
theorem snapshot_leave_outlier_uses_previous_membership_witness :
    deriveSnapshotValues
        ⟨[⟨1, 2, 3, 20, MKind.knock, 1, false, false⟩,
          ⟨1, 2, 3, 21, MKind.leave, 2, true, false⟩],
         [(20, ⟨none, some [9]⟩), (21, ⟨none, none⟩)]⟩
        ⟨1, 2, 3, 21, MKind.leave, 2, true, false⟩ =
      Except.ok (SnapshotValues.fromStripped
        (strippedOf MKind.knock ⟨none, some [9]⟩)) :=
  snapshot_leave_outlier_uses_previous_membership
    ⟨[⟨1, 2, 3, 20, MKind.knock, 1, false, false⟩,
      ⟨1, 2, 3, 21, MKind.leave, 2, true, false⟩],
     [(20, ⟨none, some [9]⟩), (21, ⟨none, none⟩)]⟩
    ⟨1, 2, 3, 21, MKind.leave, 2, true, false⟩ 20 MKind.knock ⟨none, some [9]⟩
    (by decide) (by decide) (by decide) (by decide)

/-! ## Claim C9: snapshot upsert touches only the forgotten column -/

/-- Claim C9: a membership-snapshot write hitting an existing (room, user)
row updates only the `forgotten` column, whose value is read transactionally
from the live `room_memberships` row keyed by the membership event id; every
other column of the existing row and every other row is unchanged, and
exactly one snapshot row exists for the key afterwards. -/
theorem snapshot_upsert_updates_only_forgotten (db : MemDB)
    (table : List ((Nat × Nat) × SnapshotRow)) (key : Nat × Nat)
    (info : SnapshotInfo) (vals : SnapshotValues) (r : SnapshotRow)
    (hnd : (table.map (fun x => x.1)).Nodup) (hmem : (key, r) ∈ table) :
    rowLookup (writeMembershipSnapshot db table key info vals) key =
        some { r with forgotten := lookupForgotten db info.membershipEventId } ∧
    (∀ k2, k2 ≠ key →
      rowLookup (writeMembershipSnapshot db table key info vals) k2 =
        rowLookup table k2) ∧
    ((writeMembershipSnapshot db table key info vals).filter
        (fun x => decide (x.1 = key))).length = 1 := by
  have hany : table.any (fun x => decide (x.1 = key)) = true :=
    List.any_eq_true.mpr ⟨(key, r), hmem, by simp⟩
  unfold writeMembershipSnapshot
  rw [if_pos hany]
  refine ⟨?_, ?_, ?_⟩
  · exact assoc_update_lookup_self
      (fun s => { s with forgotten := lookupForgotten db info.membershipEventId })
      hnd hmem
  · intro k2 hk2
    exact assoc_update_lookup_other table key k2
      (fun s => { s with forgotten := lookupForgotten db info.membershipEventId }) hk2
  · have hkeys :
        ((table.map (fun x =>
          if x.1 = key then
            (x.1, { x.2 with forgotten := lookupForgotten db info.membershipEventId })
          else x)).map (fun x => x.1)) = table.map (fun x => x.1) :=
      assoc_update_map_fst table key
        (fun s => { s with forgotten := lookupForgotten db info.membershipEventId })
    have hmem2 : (key,
        { r with forgotten := lookupForgotten db info.membershipEventId }) ∈
          table.map (fun x =>
            if x.1 = key then
              (x.1, { x.2 with forgotten := lookupForgotten db info.membershipEventId })
            else x) := by
      refine List.mem_map.mpr ⟨(key, r), hmem, by simp⟩
    exact assoc_filter_key_length_one (by rw [hkeys]; exact hnd) hmem2

/-- Witness for claim C9 at a concrete store. -/
theorem snapshot_upsert_updates_only_forgotten_witness :
    rowLookup
        (writeMembershipSnapshot
          ⟨[⟨1, 2, 3, 30, MKind.join, 1, false, true⟩], []⟩
          [((1, 2), ⟨3, 29, MKind.join, some false, 0,
              SnapshotValues.fromCurrentState 1⟩)]
          (1, 2) ⟨3, 30, MKind.join, 1⟩ (SnapshotValues.fromCurrentState 1))
        (1, 2) =
      some ⟨3, 29, MKind.join, some true, 0, SnapshotValues.fromCurrentState 1⟩ ∧
    (∀ k2, k2 ≠ ((1 : Nat), (2 : Nat)) →
      rowLookup
        (writeMembershipSnapshot
          ⟨[⟨1, 2, 3, 30, MKind.join, 1, false, true⟩], []⟩
          [((1, 2), ⟨3, 29, MKind.join, some false, 0,
              SnapshotValues.fromCurrentState 1⟩)]
          (1, 2) ⟨3, 30, MKind.join, 1⟩ (SnapshotValues.fromCurrentState 1)) k2 =
      rowLookup
        [((1, 2), ⟨3, 29, MKind.join, some false, 0,
            SnapshotValues.fromCurrentState 1⟩)] k2) ∧
    ((writeMembershipSnapshot
        ⟨[⟨1, 2, 3, 30, MKind.join, 1, false, true⟩], []⟩
        [((1, 2), ⟨3, 29, MKind.join, some false, 0,
            SnapshotValues.fromCurrentState 1⟩)]
        (1, 2) ⟨3, 30, MKind.join, 1⟩ (SnapshotValues.fromCurrentState 1)).filter
      (fun x => decide (x.1 = ((1 : Nat), (2 : Nat))))).length = 1 :=
  snapshot_upsert_updates_only_forgotten
    ⟨[⟨1, 2, 3, 30, MKind.join, 1, false, true⟩], []⟩
    [((1, 2), ⟨3, 29, MKind.join, some false, 0, SnapshotValues.fromCurrentState 1⟩)]
    (1, 2) ⟨3, 30, MKind.join, 1⟩ (SnapshotValues.fromCurrentState 1)
    ⟨3, 29, MKind.join, some false, 0, SnapshotValues.fromCurrentState 1⟩
    (by decide) (by decide)

end Synapse
